import Mathlib

/-!
# go-awstools: line counter registry, options, line source and streaming session

A shallow embedding of `awstools_v2.go` and `options.go`.

* Go `int64` values are integers in `[-2^63, 2^63)`; `++` wraps around
  (`wrapInt64`), as the Go language defines signed overflow.
* Go `int` values that are only stored and compared (`bufferLimit`,
  `workersRLS`) are `Int`.
* Go `string` values used as keys or settings are `String`; the content of the
  byte stream and the line records cut from it are lists of bytes.
* `map[string]int64` is a partial function from keys to `Int64`.
-/

namespace AwsTools

/-! ## Machine integers -/

/-- Two's-complement wrap-around of an integer into the range of `int64`. -/
def wrapInt64 (x : Int) : Int :=
  (x + 2 ^ 63) % 2 ^ 64 - 2 ^ 63

/-- A Go `int64`: an integer in `[-2^63, 2^63)`. -/
structure Int64 where
  val : Int
  lower : -(2 ^ 63) ≤ val
  upper : val < 2 ^ 63
deriving DecidableEq

/-- The `int64` an integer wraps to. -/
def Int64.ofInt (x : Int) : Int64 :=
  ⟨wrapInt64 x,
    by
      unfold wrapInt64
      have h := Int.emod_nonneg (x + 2 ^ 63) (by norm_num : (2 ^ 64 : Int) ≠ 0)
      omega,
    by
      unfold wrapInt64
      have h := Int.emod_lt_of_pos (x + 2 ^ 63) (by norm_num : (0 : Int) < 2 ^ 64)
      omega⟩

/-- The zero value of `int64`. -/
def Int64.zero : Int64 := ⟨0, by norm_num, by norm_num⟩

/-- The largest `int64`, `math.MaxInt64`. -/
def Int64.max : Int64 := ⟨2 ^ 63 - 1, by norm_num, by norm_num⟩

/-- The Go `x++` on an `int64`. -/
def Int64.succ (x : Int64) : Int64 := Int64.ofInt (x.val + 1)

/-! ## options.go -/

/-- The struct `AWSToolsParams`. -/
structure AWSToolsParams where
  region : String
  accessKeyID : String
  secretKey : String
  sessionToken : String
  bufferLimit : Int
  workersRLS : Int
  endpoint : String
  disableSSL : Bool
deriving DecidableEq, Repr

/-- The zero value `&AWSToolsParams{}`. -/
def AWSToolsParams.empty : AWSToolsParams :=
  { region := "", accessKeyID := "", secretKey := "", sessionToken := "",
    bufferLimit := 0, workersRLS := 0, endpoint := "", disableSSL := false }

/-- The type `Options`, `func(*AWSToolsParams) error`: the parameters after the
call, or the error returned. -/
abbrev Options := AWSToolsParams → Except String AWSToolsParams

/-- The loop of `newAWSToolsParams` over the options: the first error aborts. -/
def applyOptions : List Options → AWSToolsParams → Except String AWSToolsParams
  | [], p => .ok p
  | opt :: opts, p =>
    match opt p with
    | .error err => .error err
    | .ok p1 => applyOptions opts p1

/-- The function `newAWSToolsParams`: apply the options, then the defaults. -/
def newAWSToolsParams (opts : List Options) : Except String AWSToolsParams :=
  match applyOptions opts AWSToolsParams.empty with
  | .error err => .error err
  | .ok p =>
    let p1 := if p.bufferLimit = 0 then { p with bufferLimit := 100 } else p
    let p2 := if p1.workersRLS = 0 then { p1 with workersRLS := 4 } else p1
    .ok p2

def WithEndpoint (endpoint : String) : Options :=
  fun p => .ok { p with endpoint := endpoint }

def WithRegion (region : String) : Options :=
  fun p => .ok { p with region := region }

def WithAccessKeyID (accessKeyID : String) : Options :=
  fun p => .ok { p with accessKeyID := accessKeyID }

def WithSecretKey (secretKey : String) : Options :=
  fun p => .ok { p with secretKey := secretKey }

def WithSessionToken (sessionToken : String) : Options :=
  fun p => .ok { p with sessionToken := sessionToken }

def WithBufferLimit (bufferLimit : Int) : Options :=
  fun p => .ok { p with bufferLimit := bufferLimit }

def WithAmountWorkersRLS (workersRLS : Int) : Options :=
  fun p => .ok { p with workersRLS := workersRLS }

def WithDisableSSL (disable : Bool) : Options :=
  fun p => .ok { p with disableSSL := disable }

def AWSToolsParams.Region (p : AWSToolsParams) : String := p.region
def AWSToolsParams.AccessKeyID (p : AWSToolsParams) : String := p.accessKeyID
def AWSToolsParams.SecretKey (p : AWSToolsParams) : String := p.secretKey
def AWSToolsParams.SessionToken (p : AWSToolsParams) : String := p.sessionToken
def AWSToolsParams.BufferLimit (p : AWSToolsParams) : Int := p.bufferLimit
def AWSToolsParams.AmountWorkersRLS (p : AWSToolsParams) : Int := p.workersRLS
def AWSToolsParams.Endpoint (p : AWSToolsParams) : String := p.endpoint
def AWSToolsParams.DisableSSL (p : AWSToolsParams) : Bool := p.disableSSL

def AWSToolsParams.SetRegion (p : AWSToolsParams) (region : String) : AWSToolsParams :=
  { p with region := region }

def AWSToolsParams.SetAccessKeyID (p : AWSToolsParams) (accessKeyID : String) :
    AWSToolsParams :=
  { p with accessKeyID := accessKeyID }

def AWSToolsParams.SetSecretKey (p : AWSToolsParams) (secretKey : String) :
    AWSToolsParams :=
  { p with secretKey := secretKey }

def AWSToolsParams.SetSessionToken (p : AWSToolsParams) (sessionToken : String) :
    AWSToolsParams :=
  { p with sessionToken := sessionToken }

def AWSToolsParams.SetBufferLimit (p : AWSToolsParams) (bufferLimit : Int) :
    AWSToolsParams :=
  { p with bufferLimit := bufferLimit }

def AWSToolsParams.SetAmountWorkersRLS (p : AWSToolsParams) (workersRLS : Int) :
    AWSToolsParams :=
  { p with workersRLS := workersRLS }

def AWSToolsParams.SetEndpoint (p : AWSToolsParams) (endpoint : String) :
    AWSToolsParams :=
  { p with endpoint := endpoint }

/-! ## awstools_v2.go: construction and the line counter registry -/

/-- The field `lines map[string]int64`: the entry of a key, when it has one. -/
abbrev LineMap := String → Option Int64

/-- The result of `make(map[string]int64)`: no entry. -/
def LineMap.empty : LineMap := fun _ => none

/-- Reading `m[ref]` on a Go map: the entry, or the zero value when absent. -/
def LineMap.read (m : LineMap) (ref : String) : Int64 :=
  match m ref with
  | some v => v
  | none => Int64.zero

/-- Writing `m[ref] = v` on a Go map. -/
def LineMap.write (m : LineMap) (ref : String) (v : Int64) : LineMap :=
  fun k => if k = ref then some v else m k

/-- The struct `AWSTools`, without the SDK handles (`cfg`, `s3Client`), the
mutex and the exit channels, which belong to the session state. -/
structure AWSTools where
  params : AWSToolsParams
  queueWorkers : Int
  lines : LineMap

/-- The function `NewAWSTools`. `loadDefaultConfig` stands for the SDK call
`config.LoadDefaultConfig`, given the region and the static credentials: it
returns an error or succeeds. -/
def NewAWSTools (loadDefaultConfig : String → String → String → String → Except String Unit)
    (opts : List Options) : Except String AWSTools :=
  match newAWSToolsParams opts with
  | .error err => .error err
  | .ok params =>
    match loadDefaultConfig params.Region params.AccessKeyID params.SecretKey
        params.SessionToken with
    | .error err => .error ("failed to load config: " ++ err)
    | .ok _ =>
      let qWorkers := params.AmountWorkersRLS
      let qWorkers := if qWorkers ≤ 0 then 4 else qWorkers
      .ok { params := params, queueWorkers := qWorkers, lines := LineMap.empty }

/-- The method `IncLine`: `a.lines[ref]++` under the mutex. -/
def AWSTools.IncLine (a : AWSTools) (ref : String) : AWSTools :=
  { a with lines := a.lines.write ref (a.lines.read ref).succ }

/-- The method `GetLines`: `a.lines[ref]` under the mutex. -/
def AWSTools.GetLines (a : AWSTools) (ref : String) : Int64 :=
  a.lines.read ref

/-- The method `ResetLines`: `a.lines[ref] = 0` under the mutex. -/
def AWSTools.ResetLines (a : AWSTools) (ref : String) : AWSTools :=
  { a with lines := a.lines.write ref Int64.zero }

/-! ## The line source -/

/-- A byte of the object body. -/
abbrev Byte := Fin 256

/-- A line record: the bytes of one line, its delimiter included when it has one. -/
abbrev Record := List Byte

/-- The delimiter passed to `ReadString`. -/
def newline : Byte := 10

/-- The error result of a read: `io.EOF`, or another error. -/
inductive ReadError where
  | eof
  | other (msg : String)
deriving DecidableEq, Repr

/-- The body `resp.Body` behind the `bufio.Reader`: the bytes it still delivers,
and how it ends once they are consumed: with `io.EOF` (`none`) or with a read
failure. -/
structure Body where
  data : List Byte
  failure : Option String
deriving DecidableEq, Repr

/-- The bytes up to and including the first `delim`, and the bytes after it when
a `delim` was found. -/
def splitAtDelim (delim : Byte) : List Byte → List Byte × Option (List Byte)
  | [] => ([], none)
  | b :: bs =>
    if b = delim then ([b], some bs)
    else
      match splitAtDelim delim bs with
      | (line, rest) => (b :: line, rest)

/-- What one call of `ReadString` returns, and the body left behind. -/
structure ReadResult where
  line : Record
  err : Option ReadError
  rest : Body
deriving DecidableEq, Repr

/-- The library call `bufio.Reader.ReadString(delim)`: it reads until the first
occurrence of `delim` and returns the data up to and including the delimiter;
when the input ends or fails before a delimiter is found it returns the data
read so far together with the error. -/
def ReadString (body : Body) (delim : Byte) : ReadResult :=
  match splitAtDelim delim body.data with
  | (line, some rest) => { line := line, err := none, rest := { body with data := rest } }
  | (line, none) =>
    { line := line,
      err := some (match body.failure with
        | none => ReadError.eof
        | some msg => ReadError.other msg),
      rest := { body with data := [] } }

/-- What the reader loop has done when it leaves the `for`: the records it sent
to `queueFS`, in order, and the error it sent to `errorChan`, if any. -/
structure ReaderRun where
  records : List Record
  err : Option String
deriving DecidableEq, Repr

/-- The `for` loop of the reader goroutine (lines 238-254), run for at most
`fuel` iterations; `none` when the fuel does not suffice. -/
def readLoop : Nat → Body → Option ReaderRun
  | 0, _ => none
  | fuel + 1, body =>
    let r := ReadString body newline
    match r.err with
    | some ReadError.eof =>
      if r.line.length > 0 then some { records := [r.line], err := none }
      else some { records := [], err := none }
    | some (ReadError.other msg) =>
      some { records := [], err := some ("Read line error: " ++ msg) }
    | none =>
      match readLoop fuel r.rest with
      | none => none
      | some run => some { run with records := r.line :: run.records }

/-- The reader loop on a body: every iteration but the last consumes at least
one byte, so one more iteration than there are bytes is enough fuel. -/
def readerLoop (body : Body) : Option ReaderRun :=
  readLoop (body.data.length + 1) body

/-- The records `recs` cut the stream `data` after each newline: a record ends
with the first newline after its start, and the bytes after the last newline,
if any, are the last record. -/
inductive LineSplit : List Byte → List Record → Prop where
  | nil : LineSplit [] []
  | last (l : List Byte) : l ≠ [] → newline ∉ l → LineSplit l [l]
  | cons (body rest : List Byte) (recs : List Record) :
      newline ∉ body → LineSplit rest recs →
      LineSplit (body ++ [newline] ++ rest) ((body ++ [newline]) :: recs)

/-! ## The streaming session

`ReadFileStreamFromS3WithContext` starts `queueWorkers` worker goroutines, one
reader goroutine and one goroutine that waits for all of them and closes
`errorChan`. The session is a transition system: a state holds the channels,
the wait group, the registry and the program point of every goroutine, and a
step lets one goroutine run up to its next communication. The mutex makes
`IncLine` one step (see `LockedCounter` below for the steps under the mutex).
-/

/-- The type `CallBack`, `func(lineStr string) error`: `none` is the `nil` error.
A handler is a Go closure: what it returns on a line may depend on the calls
made to it before (its own state) and on anything else that changes from call
to call (a transient failure). Its first argument is therefore the list of
the records it was called on before, oldest first; any sequence of answers a
handler gives in a session is the sequence of answers of such a function. -/
abbrev CallBack := List Record → Record → Option String

/-- What a session is run on: the result of `s3Client.GetObject` for the bucket
and key (under the context `ctx`), the handler `cb` and the key `fileName`. -/
structure Env where
  object : Except String Body
  cb : CallBack
  fileName : String

/-- Program points of the reader goroutine (lines 219-255). -/
inductive ReaderPc where
  /-- Before `a.s3Client.GetObject` (line 225). -/
  | getObject
  /-- At `errorChan <- fmt.Errorf("Failed to get file: %v", err)` (line 230). -/
  | sendOpenErr (msg : String)
  /-- Before `reader.ReadString` (line 239). -/
  | readString (body : Body)
  /-- At `queueFS <- line` after `io.EOF` (line 243). -/
  | sendLast (line : Record)
  /-- At `errorChan <- fmt.Errorf("Read line error: %v", err)` (line 249). -/
  | sendReadErr (msg : String)
  /-- At `queueFS <- line` (line 253). -/
  | sendLine (line : Record) (body : Body)
  /-- In the deferred function, before `close(queueFS)` (line 221). -/
  | closeQueue
  /-- In the deferred function, before `wg.Done()` (line 222). -/
  | wgDone
  /-- The goroutine has returned. -/
  | finished
deriving DecidableEq, Repr

/-- Program points of a worker goroutine (lines 265-294). -/
inductive WorkerPc where
  /-- At the `select` (line 270). -/
  | select
  /-- Before `cb(line)` (line 277). -/
  | callback (line : Record)
  /-- Before `a.IncLine(fileName)` (line 283). -/
  | incLine
  /-- Before the deferred `wg.Done()` (line 267). -/
  | wgDone
  /-- The goroutine has returned. -/
  | finished
deriving DecidableEq, Repr

/-- Why a worker left its loop. -/
inductive WorkerExit where
  /-- The receive found `queueFS` closed and empty (line 272). -/
  | queueClosed
  /-- The handler returned an error (line 277). -/
  | handlerError (msg : String)
  /-- The exit signal was received (line 285). -/
  | exitSignal
  /-- The timer of `time.After` fired (line 289). -/
  | timeout
deriving DecidableEq, Repr

/-- A worker goroutine: its program point, its exit channel
`a.exitWorkers[i]` (capacity 1; the number of signals in it), and the history
of what it did: the records it received, the records the handler returned on,
how many times it called `IncLine`, why it left the loop, and what the
handler returned on each of the records of `invoked`, in the same order. -/
structure Worker where
  pc : WorkerPc
  exitChan : Nat
  received : List Record
  invoked : List Record
  incs : Nat
  exit : Option WorkerExit
  answers : List (Option String)
deriving DecidableEq, Repr

/-- Program points of the goroutine of lines 257-260. -/
inductive CloserPc where
  /-- At `wg.Wait()` (line 258). -/
  | wait
  /-- Before `close(errorChan)` (line 259). -/
  | closeErr
  /-- The goroutine has returned. -/
  | finished
deriving DecidableEq, Repr

/-- The state of a session. -/
structure Session where
  /-- The receiver `a`; the steps change only its `lines`. -/
  tools : AWSTools
  /-- Capacity of `queueFS`. -/
  queueCap : Nat
  /-- Records buffered in `queueFS`, oldest first. -/
  queue : List Record
  /-- How many times `queueFS` was closed. -/
  queueCloses : Nat
  /-- Capacity of `errorChan`. -/
  errCap : Nat
  /-- Values buffered in `errorChan`, oldest first. -/
  errorChan : List String
  /-- How many times `errorChan` was closed. -/
  errCloses : Nat
  /-- The counter of the wait group. -/
  wg : Nat
  reader : ReaderPc
  workers : List Worker
  closer : CloserPc
  /-- The index `i` of `stopReadFileStreamFromS3`: the next worker it signals. -/
  stopNext : Nat
  /-- History: every record sent on `queueFS`, in order. -/
  enqueued : List Record
  /-- History: every value sent on `errorChan`, in order. -/
  errSent : List String
  /-- History: every value the caller received from `errorChan`, in order. -/
  errReceived : List String
  /-- History: every record the handler was called on, by any worker, in the
  order of the calls. -/
  calls : List Record

/-- A worker when it is started. -/
def Worker.start : Worker :=
  { pc := WorkerPc.select, exitChan := 0, received := [], invoked := [], incs := 0,
    exit := none, answers := [] }

/-- The method `ReadFileStreamFromS3WithContext`: the state when it returns
`errorChan`, all goroutines started and none of them run yet. `none` when a
`make(chan ..., n)` panics on a negative size. The Go runtime also panics on
a size too large to allocate; that limit is not in the source and is not
modelled, so a session is started for every size that is not negative. -/
def ReadFileStreamFromS3WithContext (a : AWSTools) : Option Session :=
  if a.queueWorkers < 0 then none
  else if a.params.BufferLimit < 0 then none
  else
    some
      { tools := a,
        queueCap := a.params.BufferLimit.toNat,
        queue := [],
        queueCloses := 0,
        errCap := a.queueWorkers.toNat,
        errorChan := [],
        errCloses := 0,
        wg := a.queueWorkers.toNat + 1,
        reader := ReaderPc.getObject,
        workers := List.replicate a.queueWorkers.toNat Worker.start,
        closer := CloserPc.wait,
        stopNext := 0,
        enqueued := [],
        errSent := [],
        errReceived := [],
        calls := [] }

/-- Who takes the next step. -/
inductive Task where
  /-- The reader goroutine. -/
  | reader
  /-- Worker `i`; at the `select` it takes the case `<-lines`. -/
  | worker (i : Nat)
  /-- Worker `i` takes the case `<-exit` of the `select`. -/
  | workerExit (i : Nat)
  /-- Worker `i` takes the case `<-time.After(120 * time.Second)` of the `select`. -/
  | workerTimeout (i : Nat)
  /-- The goroutine that waits and closes `errorChan`. -/
  | closer
  /-- The next send of `stopReadFileStreamFromS3`. -/
  | stop
  /-- The caller receives a value from `errorChan`. -/
  | caller
deriving DecidableEq, Repr

/-- The send `queueFS <- line` of the reader, which then goes on at `next`:
possible when the buffer has room. -/
def sendQueue (s : Session) (line : Record) (next : ReaderPc) : Option Session :=
  if s.queue.length < s.queueCap then
    some { s with queue := s.queue ++ [line], enqueued := s.enqueued ++ [line],
                  reader := next }
  else none

/-- The send `errorChan <- err` of the reader, followed by `return`: possible
when the buffer has room. -/
def sendError (s : Session) (msg : String) : Option Session :=
  if s.errorChan.length < s.errCap then
    some { s with errorChan := s.errorChan ++ [msg], errSent := s.errSent ++ [msg],
                  reader := ReaderPc.closeQueue }
  else none

/-- One step of the reader goroutine. -/
def stepReader (env : Env) (s : Session) : Option Session :=
  match s.reader with
  | ReaderPc.getObject =>
    match env.object with
    | .error err => some { s with reader := ReaderPc.sendOpenErr ("Failed to get file: " ++ err) }
    | .ok body => some { s with reader := ReaderPc.readString body }
  | ReaderPc.sendOpenErr msg => sendError s msg
  | ReaderPc.readString body =>
    let r := ReadString body newline
    match r.err with
    | some ReadError.eof =>
      if r.line.length > 0 then some { s with reader := ReaderPc.sendLast r.line }
      else some { s with reader := ReaderPc.closeQueue }
    | some (ReadError.other msg) =>
      some { s with reader := ReaderPc.sendReadErr ("Read line error: " ++ msg) }
    | none => some { s with reader := ReaderPc.sendLine r.line r.rest }
  | ReaderPc.sendLast line => sendQueue s line ReaderPc.closeQueue
  | ReaderPc.sendReadErr msg => sendError s msg
  | ReaderPc.sendLine line body => sendQueue s line (ReaderPc.readString body)
  | ReaderPc.closeQueue =>
    some { s with queueCloses := s.queueCloses + 1, reader := ReaderPc.wgDone }
  | ReaderPc.wgDone =>
    if 0 < s.wg then some { s with wg := s.wg - 1, reader := ReaderPc.finished } else none
  | ReaderPc.finished => none

/-- The case `line, ok := <-lines` of a worker at the `select`: the oldest
buffered record; with an empty buffer, the record of the reader waiting in a
send, handed over directly; with an empty buffer and a closed channel,
`ok = false`. The result is the session after the receive and what was
received (`none` for `ok = false`); there is no result when the receive
blocks. -/
def recvQueue (s : Session) : Option (Session × Option Record) :=
  match s.queue with
  | line :: rest => some ({ s with queue := rest }, some line)
  | [] =>
    match s.reader with
    | ReaderPc.sendLine line body =>
      some ({ s with enqueued := s.enqueued ++ [line], reader := ReaderPc.readString body },
        some line)
    | ReaderPc.sendLast line =>
      some ({ s with enqueued := s.enqueued ++ [line], reader := ReaderPc.closeQueue },
        some line)
    | _ => if 0 < s.queueCloses then some (s, none) else none

/-- Replace worker `i`. -/
def Session.setWorker (s : Session) (i : Nat) (w : Worker) : Session :=
  { s with workers := s.workers.set i w }

/-- One step of worker `i` that is not an exit signal or a timeout. -/
def stepWorker (env : Env) (s : Session) (i : Nat) : Option Session :=
  match s.workers.get? i with
  | none => none
  | some w =>
    match w.pc with
    | WorkerPc.select =>
      match recvQueue s with
      | none => none
      | some (s1, some line) =>
        some (s1.setWorker i
          { w with pc := WorkerPc.callback line, received := w.received ++ [line] })
      | some (s1, none) =>
        some (s1.setWorker i
          { w with pc := WorkerPc.wgDone, exit := some WorkerExit.queueClosed })
    | WorkerPc.callback line =>
      match env.cb s.calls line with
      | some err =>
        some ({ s with calls := s.calls ++ [line] }.setWorker i
          { w with pc := WorkerPc.wgDone, invoked := w.invoked ++ [line],
                   exit := some (WorkerExit.handlerError err),
                   answers := w.answers ++ [some err] })
      | none =>
        some ({ s with calls := s.calls ++ [line] }.setWorker i
          { w with pc := WorkerPc.incLine, invoked := w.invoked ++ [line],
                   answers := w.answers ++ [none] })
    | WorkerPc.incLine =>
      some ({ s with tools := s.tools.IncLine env.fileName }.setWorker i
        { w with pc := WorkerPc.select, incs := w.incs + 1 })
    | WorkerPc.wgDone =>
      if 0 < s.wg then
        some ({ s with wg := s.wg - 1 }.setWorker i { w with pc := WorkerPc.finished })
      else none
    | WorkerPc.finished => none

/-- Worker `i` receives its exit signal at the `select`. -/
def stepWorkerExit (s : Session) (i : Nat) : Option Session :=
  match s.workers.get? i with
  | none => none
  | some w =>
    if w.pc = WorkerPc.select ∧ 0 < w.exitChan then
      some (s.setWorker i
        { w with pc := WorkerPc.wgDone, exitChan := w.exitChan - 1,
                 exit := some WorkerExit.exitSignal })
    else none

/-- Worker `i` times out at the `select`: no other case was ready for 120
seconds, so the queue is empty and open, no sender waits on it, and no exit
signal is buffered. -/
def stepWorkerTimeout (s : Session) (i : Nat) : Option Session :=
  match s.workers.get? i with
  | none => none
  | some w =>
    if w.pc = WorkerPc.select ∧ w.exitChan = 0 ∧ (recvQueue s).isNone then
      some (s.setWorker i { w with pc := WorkerPc.wgDone, exit := some WorkerExit.timeout })
    else none

/-- One step of the goroutine of lines 257-260: `wg.Wait()` returns when the
counter is zero; then `errorChan` is closed. -/
def stepCloser (s : Session) : Option Session :=
  match s.closer with
  | CloserPc.wait => if s.wg = 0 then some { s with closer := CloserPc.closeErr } else none
  | CloserPc.closeErr =>
    some { s with errCloses := s.errCloses + 1, closer := CloserPc.finished }
  | CloserPc.finished => none

/-- One iteration of the loop of `stopReadFileStreamFromS3`:
`a.exitWorkers[i] <- struct{}{}`, possible when the channel of capacity 1 is
empty. -/
def stepStop (s : Session) : Option Session :=
  match s.workers.get? s.stopNext with
  | none => none
  | some w =>
    if w.exitChan = 0 then
      some ({ s with stopNext := s.stopNext + 1 }.setWorker s.stopNext { w with exitChan := 1 })
    else none

/-- The caller receives from `errorChan`: the oldest buffered value, or, with
an empty buffer, the value of the reader waiting in a send. -/
def stepCaller (s : Session) : Option Session :=
  match s.errorChan with
  | msg :: rest => some { s with errorChan := rest, errReceived := s.errReceived ++ [msg] }
  | [] =>
    match s.reader with
    | ReaderPc.sendOpenErr msg =>
      some { s with errSent := s.errSent ++ [msg], errReceived := s.errReceived ++ [msg],
                    reader := ReaderPc.closeQueue }
    | ReaderPc.sendReadErr msg =>
      some { s with errSent := s.errSent ++ [msg], errReceived := s.errReceived ++ [msg],
                    reader := ReaderPc.closeQueue }
    | _ => none

/-- One step of the session by the given task; `none` when the task cannot
move in this state (it is blocked or has returned). -/
def step (env : Env) (s : Session) : Task → Option Session
  | Task.reader => stepReader env s
  | Task.worker i => stepWorker env s i
  | Task.workerExit i => stepWorkerExit s i
  | Task.workerTimeout i => stepWorkerTimeout s i
  | Task.closer => stepCloser s
  | Task.stop => stepStop s
  | Task.caller => stepCaller s

/-- Run a schedule: the tasks step in the given order; `none` when one of them
cannot move at its turn. -/
def run (env : Env) : Session → List Task → Option Session
  | s, [] => some s
  | s, t :: ts =>
    match step env s t with
    | none => none
    | some s1 => run env s1 ts

/-- The states a session of `a` can reach. -/
def Reachable (env : Env) (a : AWSTools) (s : Session) : Prop :=
  ∃ s0 sched, ReadFileStreamFromS3WithContext a = some s0 ∧ run env s0 sched = some s

/-- The number of lines worker `w` handled successfully: the calls of the
handler that returned `nil`. -/
def Worker.handled (w : Worker) : Nat :=
  (w.answers.filter (fun r => r.isNone)).length

/-- The number of lines handled successfully by all workers together. -/
def Session.handled (s : Session) : Nat :=
  (s.workers.map Worker.handled).sum

/-- The option leaves the worker amount as it finds it. -/
def KeepsWorkers (o : Options) : Prop :=
  ∀ p q, o p = Except.ok q → q.workersRLS = p.workersRLS

/-- The option leaves the buffer limit as it finds it. -/
def KeepsBufferLimit (o : Options) : Prop :=
  ∀ p q, o p = Except.ok q → q.bufferLimit = p.bufferLimit

/-! ## Calls on the registry -/

/-- A call on the line counter registry. -/
inductive RegistryCall where
  | incLine (ref : String)
  | getLines (ref : String)
  | resetLines (ref : String)
deriving DecidableEq, Repr

/-- The key a call is made on. -/
def RegistryCall.ref : RegistryCall → String
  | RegistryCall.incLine ref => ref
  | RegistryCall.getLines ref => ref
  | RegistryCall.resetLines ref => ref

/-- Whether the call is one of `IncLine` and `ResetLines`. -/
def RegistryCall.writes : RegistryCall → Bool
  | RegistryCall.incLine _ => true
  | RegistryCall.getLines _ => false
  | RegistryCall.resetLines _ => true

/-- The receiver after a call. -/
def AWSTools.call (a : AWSTools) : RegistryCall → AWSTools
  | RegistryCall.incLine ref => a.IncLine ref
  | RegistryCall.getLines _ => a
  | RegistryCall.resetLines ref => a.ResetLines ref

/-- The receiver after a sequence of calls, made one after the other. -/
def AWSTools.calls (a : AWSTools) : List RegistryCall → AWSTools
  | [] => a
  | c :: cs => (a.call c).calls cs

/-! ## Concurrent callers of `IncLine`

Every caller issues its calls of `IncLine` one after the other; the calls of
different callers interleave at the grain of the statements of `IncLine`:
`a.mu.Lock()`, the read of `a.lines[ref]`, the write of the incremented value
and the deferred `a.mu.Unlock()`.
-/

/-- Program points of a caller inside `IncLine` (lines 91-95). -/
inductive IncPc where
  /-- Before `a.mu.Lock()` (line 92). -/
  | lock
  /-- Holding the mutex, before the read of `a.lines[ref]` (line 94). -/
  | load
  /-- Holding the mutex, with the value read, before the write (line 94). -/
  | store (v : Int64)
  /-- Before the deferred `a.mu.Unlock()` (line 93). -/
  | unlock
deriving DecidableEq

/-- A caller: where it is in its current call, and how many calls it still has
to complete, the current one included. -/
structure IncCaller where
  pc : IncPc
  remaining : Nat
deriving DecidableEq

/-- The receiver shared by the callers, its mutex `a.mu`, and the callers. -/
structure LockedCounter where
  tools : AWSTools
  locked : Bool
  callers : List IncCaller

/-- The state in which `k` callers are each about to issue `m` calls. -/
def LockedCounter.start (a : AWSTools) (k m : Nat) : LockedCounter :=
  { tools := a, locked := false,
    callers := List.replicate k { pc := IncPc.lock, remaining := m } }

/-- Caller `i` runs its next statement of `IncLine(ref)`; `none` when it has no
call left or waits for the mutex. -/
def LockedCounter.step (ref : String) (s : LockedCounter) (i : Nat) : Option LockedCounter :=
  match s.callers.get? i with
  | none => none
  | some c =>
    if c.remaining = 0 then none
    else
      match c.pc with
      | IncPc.lock =>
        if s.locked then none
        else some { s with locked := true, callers := s.callers.set i { c with pc := IncPc.load } }
      | IncPc.load =>
        some { s with callers := s.callers.set i { c with pc := IncPc.store (s.tools.lines.read ref) } }
      | IncPc.store v =>
        some { s with tools := { s.tools with lines := s.tools.lines.write ref v.succ },
                      callers := s.callers.set i { c with pc := IncPc.unlock } }
      | IncPc.unlock =>
        some { s with locked := false,
                      callers := s.callers.set i { pc := IncPc.lock, remaining := c.remaining - 1 } }

/-- Run an interleaving: the callers step in the given order; `none` when one
of them cannot move at its turn. -/
def LockedCounter.run (ref : String) : LockedCounter → List Nat → Option LockedCounter
  | s, [] => some s
  | s, i :: sched =>
    match s.step ref i with
    | none => none
    | some s1 => LockedCounter.run ref s1 sched

/-- Every caller has completed all its calls. -/
def LockedCounter.allDone (s : LockedCounter) : Bool :=
  s.callers.all (fun c => c.remaining = 0)

/-- The increments caller `c` has written, when it started with `m` calls. -/
def IncCaller.written (m : Nat) (c : IncCaller) : Nat :=
  (m - c.remaining) + (if c.pc = IncPc.unlock then 1 else 0)

/-- The schedule in which the callers `0, ..., k - 1` run one after the other,
each all of its `m` calls (four steps a call). -/
def seqSchedule (m : Nat) : Nat → List Nat
  | 0 => []
  | k + 1 => seqSchedule m k ++ List.replicate (4 * m) k

/-- The invariant of the callers of `IncLine(ref)` that started with `m` calls
each on a receiver whose count was `c0`. -/
structure LockedCounter.Inv (ref : String) (k m : Nat) (c0 : Int) (s : LockedCounter) : Prop where
  length : s.callers.length = k
  count : s.tools.lines.read ref =
    Int64.ofInt (c0 + ((s.callers.map (IncCaller.written m)).sum : Nat))
  bound : ∀ (j : Nat) (c : IncCaller), s.callers[j]? = some c →
    c.remaining ≤ m ∧ (c.pc ≠ IncPc.lock → 0 < c.remaining)
  held : ∀ (j : Nat) (c : IncCaller), s.callers[j]? = some c → c.pc ≠ IncPc.lock →
    s.locked = true ∧
      ∀ (i : Nat) (d : IncCaller), s.callers[i]? = some d → d.pc ≠ IncPc.lock → i = j
  loaded : ∀ (j : Nat) (c : IncCaller) (v : Int64), s.callers[j]? = some c →
    c.pc = IncPc.store v → v = s.tools.lines.read ref

/-! ## Invariants of the session -/

/-- What the reader has enqueued, has in hand and has still to read make up the
stream `data`, on a body that ends with `io.EOF`. -/
def ReaderInv (data : List Byte) (s : Session) : Prop :=
  match s.reader with
  | ReaderPc.getObject => s.enqueued = []
  | ReaderPc.readString body => body.failure = none ∧ s.enqueued.flatten ++ body.data = data
  | ReaderPc.sendLine line body =>
    body.failure = none ∧ s.enqueued.flatten ++ (line ++ body.data) = data
  | ReaderPc.sendLast line => s.enqueued.flatten ++ line = data
  | ReaderPc.sendOpenErr _ => False
  | ReaderPc.sendReadErr _ => False
  | ReaderPc.closeQueue => s.enqueued.flatten = data
  | ReaderPc.wgDone => s.enqueued.flatten = data
  | ReaderPc.finished => s.enqueued.flatten = data

/-- The reader has left its loop. -/
def ReaderPc.leftLoop : ReaderPc → Bool
  | ReaderPc.closeQueue => true
  | ReaderPc.wgDone => true
  | ReaderPc.finished => true
  | _ => false

/-- Whether the worker still counts in the wait group. -/
def Worker.live (w : Worker) : Nat := if w.pc = WorkerPc.finished then 0 else 1

/-- Whether the reader still counts in the wait group. -/
def ReaderPc.live (pc : ReaderPc) : Nat := if pc = ReaderPc.finished then 0 else 1

/-- Whether the worker has a handled line whose `IncLine` is still to come. -/
def Worker.pending (w : Worker) : Nat := if w.pc = WorkerPc.incLine then 1 else 0

/-- The accounting invariant of a session whose registry held `c0` for the key
when it started. -/
structure CountInv (env : Env) (c0 : Int) (s : Session) : Prop where
  wg : s.wg = (s.workers.map Worker.live).sum + s.reader.live
  closer : s.closer ≠ CloserPc.wait → s.wg = 0
  closes : s.errCloses = if s.closer = CloserPc.finished then 1 else 0
  count : s.tools.GetLines env.fileName =
    Int64.ofInt (c0 + (((s.workers.map Worker.incs).sum : Nat) : Int))
  handled : (s.workers.map Worker.handled).sum =
    (s.workers.map Worker.incs).sum + (s.workers.map Worker.pending).sum

/-! ## Options of the tests -/

/-- The six options of `TestNewAWSToolsParams`, with the given values. -/
def testOptions (region accessKeyID secretKey sessionToken : String)
    (bufferLimit workersRLS : Int) : List Options :=
  [WithRegion region, WithAccessKeyID accessKeyID, WithSecretKey secretKey,
    WithSessionToken sessionToken, WithBufferLimit bufferLimit, WithAmountWorkersRLS workersRLS]

/-- What the eight getters return, in the order of the fields. -/
def AWSToolsParams.getters (p : AWSToolsParams) :
    String × String × String × String × Int × Int × String × Bool :=
  (p.Region, p.AccessKeyID, p.SecretKey, p.SessionToken, p.BufferLimit, p.AmountWorkersRLS,
    p.Endpoint, p.DisableSSL)

/-! ## The reader goroutine on its own -/

/-- What the reader goroutine does when nothing blocks it: the records it sends
to `queueFS` and the error it sends to `errorChan`, from `GetObject` on. -/
def readerTrace (env : Env) : Option ReaderRun :=
  match env.object with
  | Except.error err => some { records := [], err := some ("Failed to get file: " ++ err) }
  | Except.ok body => readerLoop body

/-- What the reader goroutine still sends from a program point on, when nothing
blocks it. -/
def ReaderPc.rest (env : Env) : ReaderPc → Option ReaderRun
  | ReaderPc.getObject => readerTrace env
  | ReaderPc.sendOpenErr msg => some { records := [], err := some msg }
  | ReaderPc.readString body => readerLoop body
  | ReaderPc.sendLast line => some { records := [line], err := none }
  | ReaderPc.sendReadErr msg => some { records := [], err := some msg }
  | ReaderPc.sendLine line body =>
    match readerLoop body with
    | none => none
    | some run => some { run with records := line :: run.records }
  | ReaderPc.closeQueue => some { records := [], err := none }
  | ReaderPc.wgDone => some { records := [], err := none }
  | ReaderPc.finished => some { records := [], err := none }

/-- The reader has closed `queueFS`. -/
def ReaderPc.closedQueue : ReaderPc → Bool
  | ReaderPc.wgDone => true
  | ReaderPc.finished => true
  | _ => false

/-- The reader of a session follows `readerTrace`: what it has sent so far and
what it still sends make up the trace; `errorChan` holds what was sent on it
and not yet received; `queueFS` is closed when the reader is past its
`close`. -/
structure TraceInv (env : Env) (s : Session) : Prop where
  trace : ∃ total run, readerTrace env = some total ∧ s.reader.rest env = some run ∧
    total.records = s.enqueued ++ run.records ∧
    total.err.toList = s.errSent ++ run.err.toList
  chan : s.errReceived ++ s.errorChan = s.errSent
  closes : s.queueCloses = if s.reader.closedQueue then 1 else 0

/-! ## The queue between the reader and the workers -/

/-- The record a worker has received and not yet passed to the handler. -/
def Worker.inHand (w : Worker) : List Record :=
  match w.pc with
  | WorkerPc.callback line => [line]
  | _ => []

/-- The queue neither loses nor duplicates records: every record enqueued is
in the queue or was received by one worker, as many times as it was enqueued;
a worker passes to the handler the records it received, in order; the queue
holds at most its capacity. -/
structure QueueInv (s : Session) : Prop where
  counts : ∀ r : Record,
    (s.workers.map (fun w => w.received.count r)).sum + s.queue.count r = s.enqueued.count r
  hand : ∀ w ∈ s.workers, w.received = w.invoked ++ w.inHand
  bound : s.queue.length ≤ s.queueCap

/-- The channels and the worker pool keep the sizes they were made with. -/
structure ShapeInv (a : AWSTools) (s : Session) : Prop where
  queueCap : s.queueCap = a.params.BufferLimit.toNat
  errCap : s.errCap = a.queueWorkers.toNat
  workers : s.workers.length = a.queueWorkers.toNat

/-! ## How far a session is from its end -/

/-- A bound on the steps the reader and the records it still produces need. -/
def ReaderPc.weight (env : Env) : ReaderPc → Nat
  | ReaderPc.getObject =>
    match env.object with
    | Except.ok body => 5 * body.data.length + 11
    | Except.error _ => 5
  | ReaderPc.sendOpenErr _ => 4
  | ReaderPc.readString body => 5 * body.data.length + 10
  | ReaderPc.sendLast _ => 6
  | ReaderPc.sendReadErr _ => 4
  | ReaderPc.sendLine _ body => 5 * body.data.length + 14
  | ReaderPc.closeQueue => 2
  | ReaderPc.wgDone => 1
  | ReaderPc.finished => 0

/-- A bound on the steps a worker needs for what it has in hand and to return. -/
def WorkerPc.weight : WorkerPc → Nat
  | WorkerPc.select => 2
  | WorkerPc.callback _ => 4
  | WorkerPc.incLine => 3
  | WorkerPc.wgDone => 1
  | WorkerPc.finished => 0

/-- The steps the closing goroutine still takes. -/
def CloserPc.weight : CloserPc → Nat
  | CloserPc.wait => 2
  | CloserPc.closeErr => 1
  | CloserPc.finished => 0

/-- A bound on the number of steps a session can still take: every step makes
it smaller. -/
def Session.weight (env : Env) (s : Session) : Nat :=
  s.reader.weight env + (s.workers.map (fun w => w.pc.weight)).sum + 3 * s.queue.length +
    s.closer.weight + s.errorChan.length + (s.workers.length - s.stopNext)

/-! ## Progress of a session -/

/-- The tasks of the session itself and its caller: no exit signal and no idle
timeout. -/
def Task.quiet : Task → Bool
  | Task.reader => true
  | Task.worker _ => true
  | Task.closer => true
  | Task.caller => true
  | Task.workerExit _ => false
  | Task.workerTimeout _ => false
  | Task.stop => false

/-- The reader waits in a send on the full queue and every worker has returned. -/
def Blocked (s : Session) : Prop :=
  ((∃ line body, s.reader = ReaderPc.sendLine line body) ∨
      (∃ line, s.reader = ReaderPc.sendLast line)) ∧
    s.queueCap ≤ s.queue.length ∧ ∀ w ∈ s.workers, w.pc = WorkerPc.finished

/-- A session in which `GetObject` fails with "NoSuchKey". -/
def envNoObject : Env :=
  { object := Except.error "NoSuchKey", cb := fun _ _ => none, fileName := "f" }

/-- A line ends with its only newline. -/
def CompleteLine (line : Record) : Prop :=
  ∃ body, line = body ++ [newline] ∧ newline ∉ body

/-- A session on the stream "a\nb\nc" whose read after the two complete lines
fails with "reset", under the key "f", with a handler that always succeeds. -/
def envReset : Env :=
  { object := Except.ok ⟨[97, 10, 98, 10, 99], some "reset"⟩, cb := fun _ _ => none,
    fileName := "f" }

/-! ## Sessions without exit signal and idle timeout -/

/-- The states a session of `a` can reach when `stopReadFileStreamFromS3` sends
no exit signal and no worker idles for the 120 seconds of the timeout. -/
def QuietReachable (env : Env) (a : AWSTools) (s : Session) : Prop :=
  ∃ s0 sched, ReadFileStreamFromS3WithContext a = some s0 ∧
    (∀ task ∈ sched, task.quiet = true) ∧ run env s0 sched = some s

/-- The worker has left its loop. -/
def WorkerPc.leftLoop : WorkerPc → Bool
  | WorkerPc.wgDone => true
  | WorkerPc.finished => true
  | _ => false

/-- A worker has left its loop only on the closed and drained queue. -/
def QuietInv (s : Session) : Prop :=
  ∀ w ∈ s.workers, w.pc.leftLoop = true → 0 < s.queueCloses ∧ s.queue = []

/-- A session on the stream "a\nb\n" whose context is cancelled while records
flow: the read after the two lines fails with "context canceled"; the handler
always succeeds. -/
def envCancel : Env :=
  { object := Except.ok ⟨[97, 10, 98, 10], some "context canceled"⟩, cb := fun _ _ => none,
    fileName := "f" }

/-- A session on the stream "a\nb\nc\n" whose context is cancelled while
records flow: the read after the three lines fails with "context canceled";
the handler fails on every record. -/
def envCancelFail : Env :=
  { object := Except.ok ⟨[97, 10, 98, 10, 99, 10], some "context canceled"⟩,
    cb := fun _ _ => some "stopping", fileName := "f" }

/-- The reader waits in a send on the full queue, every worker has returned,
and the closing goroutine waits for the reader. -/
structure Stuck (s : Session) : Prop where
  blocked : Blocked s
  closer : s.closer = CloserPc.wait
  wg : 0 < s.wg
  chan : s.errorChan = []

/-! ## A worker on its own -/

/-- One step of `workerReadStreamLine` as the worker itself sees it, with the
handler `cb` and the records `calls` the handler was called on before: the
cases of the `select`, the call of the handler with what it returned,
`IncLine`, the deferred `wg.Done()`; and, from outside, an exit signal put in
its exit channel. -/
inductive Worker.Next (cb : CallBack) (calls : List Record) (w : Worker) : Worker → Prop where
  /-- The case `line, ok := <-lines` with `ok = true`. -/
  | receive (line : Record) (h : w.pc = WorkerPc.select) :
    Worker.Next cb calls w { w with pc := WorkerPc.callback line, received := w.received ++ [line] }
  /-- The case `line, ok := <-lines` with `ok = false`. -/
  | closed (h : w.pc = WorkerPc.select) :
    Worker.Next cb calls w { w with pc := WorkerPc.wgDone, exit := some WorkerExit.queueClosed }
  /-- The handler returns an error: `return`. -/
  | failed (line : Record) (err : String) (h : w.pc = WorkerPc.callback line)
      (hcb : cb calls line = some err) :
    Worker.Next cb calls w
      { w with pc := WorkerPc.wgDone, exit := some (WorkerExit.handlerError err),
               invoked := w.invoked ++ [line], answers := w.answers ++ [some err] }
  /-- The handler returns `nil`. -/
  | handled (line : Record) (h : w.pc = WorkerPc.callback line)
      (hcb : cb calls line = none) :
    Worker.Next cb calls w
      { w with pc := WorkerPc.incLine, invoked := w.invoked ++ [line],
               answers := w.answers ++ [none] }
  /-- The call `a.IncLine(fileName)`. -/
  | counted (h : w.pc = WorkerPc.incLine) :
    Worker.Next cb calls w { w with pc := WorkerPc.select, incs := w.incs + 1 }
  /-- The deferred `wg.Done()`. -/
  | returned (h : w.pc = WorkerPc.wgDone) :
    Worker.Next cb calls w { w with pc := WorkerPc.finished }
  /-- The case `<-exit`. -/
  | exitSignal (h : w.pc = WorkerPc.select) (hx : 0 < w.exitChan) :
    Worker.Next cb calls w
      { w with pc := WorkerPc.wgDone, exit := some WorkerExit.exitSignal,
               exitChan := w.exitChan - 1 }
  /-- The case `<-time.After(120 * time.Second)`. -/
  | timeout (h : w.pc = WorkerPc.select) :
    Worker.Next cb calls w { w with pc := WorkerPc.wgDone, exit := some WorkerExit.timeout }
  /-- A send of `stopReadFileStreamFromS3` into the exit channel. -/
  | signalled (h : w.exitChan = 0) :
    Worker.Next cb calls w { w with exitChan := 1 }

/-- What holds of a worker at every moment: it hands the handler the records
it received, in order, and `answers` holds what the handler returned on each;
the handler returned `nil` on every call but possibly the last one, and on
all of them while the worker is in its loop; the calls of `IncLine` made and
the one about to be made are as many as the calls on which the handler
returned `nil`; and when the handler returned an error on the last call the
worker has left its loop with that error. -/
structure WorkerInv (w : Worker) : Prop where
  hand : w.received = w.invoked ++ w.inHand
  answered : w.answers.length = w.invoked.length
  inLoop : w.pc.leftLoop = false → ∀ r ∈ w.answers, r = none
  before : ∀ r ∈ w.answers.dropLast, r = none
  incs : w.incs + w.pending = w.handled
  failed : ∀ err, w.answers.getLast? = some (some err) →
    w.pc.leftLoop = true ∧ w.exit = some (WorkerExit.handlerError err)

/-- The worker has returned on an error of the handler. -/
def Worker.failed (w : Worker) : Prop :=
  w.pc = WorkerPc.finished ∧ ∃ err, w.exit = some (WorkerExit.handlerError err)

/-- A session on the readable stream "a\nb\nc\n" with a handler that fails on
every record. -/
def envFailing : Env :=
  { object := Except.ok ⟨[97, 10, 98, 10, 99, 10], none⟩, cb := fun _ _ => some "boom",
    fileName := "f" }

/-- A session on the stream "x\nx\nx\n" of three equal lines, with a handler
that keeps state: it returns `nil` on its first call and an error on every
later call. -/
def envFailsSecond : Env :=
  { object := Except.ok ⟨[120, 10, 120, 10, 120, 10], none⟩,
    cb := fun calls _ => match calls with
      | [] => none
      | _ :: _ => some "boom",
    fileName := "f" }

/-! ## Lines that count, and calls from outside the session -/

/-- The white space that `strings.TrimSpace` removes from a line of ASCII
text: tab, newline, vertical tab, form feed, carriage return and space. -/
def isSpace (b : Byte) : Bool :=
  b == 9 || b == 10 || b == 11 || b == 12 || b == 13 || b == 32

/-- The test `strings.TrimSpace(line) == ""` of the handler of
`examples/streaming/example_streaming.go` (lines 85-88): the line is empty
but for white space. -/
def emptyLine (line : Record) : Bool := line.all isSpace

/-- The number of non-empty lines worker `w` handled successfully: the calls
of the handler on a line that is not empty that returned `nil`. -/
def Worker.handledNonEmpty (w : Worker) : Nat :=
  ((w.invoked.zip w.answers).filter (fun p => p.2.isNone && !emptyLine p.1)).length

/-- The number of non-empty lines handled successfully by all workers
together. -/
def Session.handledNonEmpty (s : Session) : Nat :=
  (s.workers.map Worker.handledNonEmpty).sum

/-- What happens while a session runs: a step of one of its tasks, or a call
on the registry of the same `AWSTools` made by other code (the caller,
another session, the handler). -/
inductive Event where
  | task (t : Task)
  | call (c : RegistryCall)
deriving DecidableEq, Repr

/-- One event on the state of a session: a call from outside goes through the
mutex like any other and changes the registry only. -/
def stepEvent (env : Env) (s : Session) : Event → Option Session
  | Event.task t => step env s t
  | Event.call c => some { s with tools := s.tools.call c }

/-- Run a sequence of events; `none` when a task cannot move at its turn. -/
def runEvents (env : Env) : Session → List Event → Option Session
  | s, [] => some s
  | s, e :: es =>
    match stepEvent env s e with
    | none => none
    | some s1 => runEvents env s1 es

/-- The event is not a call of `IncLine(ref)` or `ResetLines(ref)` from
outside the session. -/
def Event.leaves (ref : String) : Event → Bool
  | Event.task _ => true
  | Event.call c => !(c.writes && c.ref == ref)

/-- A session on a stream of `n` lines "x\n" under the key "f", with a handler
that always succeeds. -/
def envLines (n : Nat) : Env :=
  { object := Except.ok ⟨(List.replicate n [120, 10]).flatten, none⟩, cb := fun _ _ => none,
    fileName := "f" }

/-! ## Concrete inputs -/

/-- A receiver as `NewAWSTools` returns it for no option: 4 workers, buffer
limit 100, no line counted. -/
def toolsFresh : AWSTools :=
  { params := { AWSToolsParams.empty with bufferLimit := 100, workersRLS := 4 },
    queueWorkers := 4, lines := LineMap.empty }

/-- A receiver whose count for `"f"` is `math.MaxInt64`. -/
def toolsAtMax : AWSTools :=
  { params := AWSToolsParams.empty, queueWorkers := 4,
    lines := LineMap.empty.write "f" Int64.max }

/-- A receiver with one worker and a queue of capacity 1, no line counted. -/
def toolsOne : AWSTools :=
  { params := { AWSToolsParams.empty with bufferLimit := 1, workersRLS := 1 },
    queueWorkers := 1, lines := LineMap.empty }

/-- A session on the stream "a\nb" under the key "f", with a handler that
always succeeds. -/
def envAB : Env :=
  { object := Except.ok ⟨[97, 10, 98], none⟩, cb := fun _ _ => none, fileName := "f" }

/-- A session on a stream of `n` newlines under the key "f", with a handler
that always succeeds. -/
def envNewlines (n : Nat) : Env :=
  { object := Except.ok ⟨List.replicate n newline, none⟩, cb := fun _ _ => none,
    fileName := "f" }

end AwsTools

/-! # Theorems -/

namespace AwsTools

/-! ## Machine integers -/

theorem wrapInt64_of_inRange (x : Int) (hl : -(2 ^ 63) ≤ x) (hu : x < 2 ^ 63) :
    wrapInt64 x = x := by
  unfold wrapInt64
  omega

theorem wrapInt64_add_one (x : Int) : wrapInt64 (wrapInt64 x + 1) = wrapInt64 (x + 1) := by
  unfold wrapInt64
  omega

theorem wrapInt64_wrap (x : Int) : wrapInt64 (wrapInt64 x) = wrapInt64 x := by
  unfold wrapInt64
  omega

theorem Int64.ext_val {x y : Int64} (h : x.val = y.val) : x = y := by
  cases x; cases y; simp_all

theorem Int64.ofInt_val (x : Int64) : Int64.ofInt x.val = x :=
  Int64.ext_val (wrapInt64_of_inRange x.val x.lower x.upper)

theorem Int64.succ_ofInt (x : Int) : (Int64.ofInt x).succ = Int64.ofInt (x + 1) :=
  Int64.ext_val (wrapInt64_add_one x)

theorem Int64.succ_val (x : Int64) : x.succ.val = wrapInt64 (x.val + 1) := rfl

/-! ## The registry -/

theorem LineMap.read_write_same (m : LineMap) (ref : String) (v : Int64) :
    (m.write ref v).read ref = v := by
  simp [LineMap.read, LineMap.write]

theorem LineMap.read_write_other (m : LineMap) (ref k : String) (v : Int64) (h : k ≠ ref) :
    (m.write ref v).read k = m.read k := by
  simp [LineMap.read, LineMap.write, h]

theorem GetLines_IncLine_same (a : AWSTools) (ref : String) :
    (a.IncLine ref).GetLines ref = (a.GetLines ref).succ := by
  simp [AWSTools.IncLine, AWSTools.GetLines, LineMap.read_write_same]

theorem GetLines_IncLine_other (a : AWSTools) (ref k : String) (h : k ≠ ref) :
    (a.IncLine ref).GetLines k = a.GetLines k := by
  simp [AWSTools.IncLine, AWSTools.GetLines, LineMap.read_write_other _ _ _ _ h]

theorem GetLines_ResetLines_same (a : AWSTools) (ref : String) :
    (a.ResetLines ref).GetLines ref = Int64.zero := by
  simp [AWSTools.ResetLines, AWSTools.GetLines, LineMap.read_write_same]

theorem GetLines_ResetLines_other (a : AWSTools) (ref k : String) (h : k ≠ ref) :
    (a.ResetLines ref).GetLines k = a.GetLines k := by
  simp [AWSTools.ResetLines, AWSTools.GetLines, LineMap.read_write_other _ _ _ _ h]

theorem lines_call_other (a : AWSTools) (c : RegistryCall) (k : String)
    (h : c.writes = true → c.ref ≠ k) : (a.call c).lines k = a.lines k := by
  cases c with
  | incLine ref =>
    have hk : k ≠ ref := fun e => h rfl e.symm
    simp [AWSTools.call, AWSTools.IncLine, LineMap.write, hk]
  | getLines ref => rfl
  | resetLines ref =>
    have hk : k ≠ ref := fun e => h rfl e.symm
    simp [AWSTools.call, AWSTools.ResetLines, LineMap.write, hk]

theorem lines_calls_other (cs : List RegistryCall) (a : AWSTools) (k : String)
    (h : ∀ c ∈ cs, c.writes = true → c.ref ≠ k) : (a.calls cs).lines k = a.lines k := by
  induction cs generalizing a with
  | nil => rfl
  | cons c cs ih =>
    have h1 := lines_call_other a c k (h c (List.mem_cons_self c cs))
    have h2 := ih (a.call c) (fun d hd => h d (List.mem_cons_of_mem c hd))
    simp only [AWSTools.calls]
    rw [h2, h1]

theorem NewAWSTools_lines (load : String → String → String → String → Except String Unit)
    (opts : List Options) (a : AWSTools) (h : NewAWSTools load opts = Except.ok a) :
    a.lines = LineMap.empty := by
  unfold NewAWSTools at h
  split at h
  · cases h
  · split at h
    · cases h
    · cases h; rfl

/-! ## Construction -/

theorem applyOptions_append (xs ys : List Options) (p : AWSToolsParams) :
    applyOptions (xs ++ ys) p =
      match applyOptions xs p with
      | Except.error err => Except.error err
      | Except.ok q => applyOptions ys q := by
  induction xs generalizing p with
  | nil => rfl
  | cons o xs ih =>
    simp only [List.cons_append, applyOptions]
    cases o p with
    | error err => rfl
    | ok q => exact ih q

theorem applyOptions_keepsWorkers (opts : List Options) (p q : AWSToolsParams)
    (hk : ∀ o ∈ opts, KeepsWorkers o) (h : applyOptions opts p = Except.ok q) :
    q.workersRLS = p.workersRLS := by
  induction opts generalizing p with
  | nil =>
    simp only [applyOptions] at h
    cases h; rfl
  | cons o opts ih =>
    simp only [applyOptions] at h
    cases ho : o p with
    | error err => rw [ho] at h; cases h
    | ok p1 =>
      rw [ho] at h
      have h1 := hk o (List.mem_cons_self o opts) p p1 ho
      have h2 := ih p1 (fun d hd => hk d (List.mem_cons_of_mem o hd)) h
      rw [h2, h1]

theorem applyOptions_keepsBufferLimit (opts : List Options) (p q : AWSToolsParams)
    (hk : ∀ o ∈ opts, KeepsBufferLimit o) (h : applyOptions opts p = Except.ok q) :
    q.bufferLimit = p.bufferLimit := by
  induction opts generalizing p with
  | nil =>
    simp only [applyOptions] at h
    cases h; rfl
  | cons o opts ih =>
    simp only [applyOptions] at h
    cases ho : o p with
    | error err => rw [ho] at h; cases h
    | ok p1 =>
      rw [ho] at h
      have h1 := hk o (List.mem_cons_self o opts) p p1 ho
      have h2 := ih p1 (fun d hd => hk d (List.mem_cons_of_mem o hd)) h
      rw [h2, h1]

/-- What `NewAWSTools` returns, in terms of the parameters the options build. -/
theorem NewAWSTools_ok (load : String → String → String → String → Except String Unit)
    (opts : List Options) (a : AWSTools) (h : NewAWSTools load opts = Except.ok a) :
    ∃ p, applyOptions opts AWSToolsParams.empty = Except.ok p ∧
      a.queueWorkers = (if 0 < p.workersRLS then p.workersRLS else 4) ∧
      a.params.bufferLimit = (if p.bufferLimit = 0 then 100 else p.bufferLimit) := by
  unfold NewAWSTools newAWSToolsParams at h
  cases hp : applyOptions opts AWSToolsParams.empty with
  | error err => rw [hp] at h; cases h
  | ok p =>
    rw [hp] at h
    refine ⟨p, rfl, ?_⟩
    simp only [AWSToolsParams.Region, AWSToolsParams.AccessKeyID, AWSToolsParams.SecretKey,
      AWSToolsParams.SessionToken, AWSToolsParams.AmountWorkersRLS] at h
    split at h
    · cases h
    · cases h
      constructor
      · by_cases hb : p.bufferLimit = 0 <;> by_cases hw : p.workersRLS = 0 <;>
          simp [hb, hw] <;> split <;> omega
      · by_cases hb : p.bufferLimit = 0 <;> by_cases hw : p.workersRLS = 0 <;> simp [hb, hw]

/-- The function `NewAWSTools` returns a value when the options and the
configuration load succeed. -/
theorem NewAWSTools_returns (load : String → String → String → String → Except String Unit)
    (opts : List Options) (p : AWSToolsParams)
    (hp : applyOptions opts AWSToolsParams.empty = Except.ok p)
    (hl : ∀ r k s t, load r k s t = Except.ok ()) :
    ∃ a, NewAWSTools load opts = Except.ok a := by
  unfold NewAWSTools newAWSToolsParams
  rw [hp]
  simp only [hl]
  exact ⟨_, rfl⟩

/-! ## The reader loop -/

theorem splitAtDelim_some (d : Byte) (l line rest : List Byte)
    (h : splitAtDelim d l = (line, some rest)) :
    ∃ body, line = body ++ [d] ∧ d ∉ body ∧ l = line ++ rest := by
  induction l generalizing line with
  | nil => simp [splitAtDelim] at h
  | cons b bs ih =>
    unfold splitAtDelim at h
    by_cases hb : b = d
    · simp only [hb, if_true, Prod.mk.injEq, Option.some.injEq] at h
      obtain ⟨h1, h2⟩ := h
      exact ⟨[], by simp [← h1], by simp, by simp [← h1, ← h2, hb]⟩
    · simp only [hb, if_false] at h
      cases hs : splitAtDelim d bs with
      | mk line1 rest1 =>
        rw [hs] at h
        simp only [Prod.mk.injEq] at h
        obtain ⟨h1, h2⟩ := h
        subst h2
        obtain ⟨body, e1, e2, e3⟩ := ih line1 hs
        refine ⟨b :: body, by simp [← h1, e1], ?_, by simp [← h1, e3]⟩
        simp only [List.mem_cons, not_or]
        exact ⟨fun e => hb e.symm, e2⟩

theorem splitAtDelim_none (d : Byte) (l line : List Byte)
    (h : splitAtDelim d l = (line, none)) : line = l ∧ d ∉ l := by
  induction l generalizing line with
  | nil => simp [splitAtDelim] at h; simp [h]
  | cons b bs ih =>
    unfold splitAtDelim at h
    by_cases hb : b = d
    · simp [hb] at h
    · simp only [hb, if_false] at h
      cases hs : splitAtDelim d bs with
      | mk line1 rest1 =>
        rw [hs] at h
        simp only [Prod.mk.injEq] at h
        obtain ⟨h1, h2⟩ := h
        subst h2
        obtain ⟨e1, e2⟩ := ih line1 hs
        refine ⟨by simp [← h1, e1], ?_⟩
        simp only [List.mem_cons, not_or]
        exact ⟨fun e => hb e.symm, e2⟩

theorem readLoop_lineSplit (fuel : Nat) (data : List Byte) (h : data.length < fuel) :
    ∃ recs, readLoop fuel ⟨data, none⟩ = some ⟨recs, none⟩ ∧ LineSplit data recs := by
  induction fuel generalizing data with
  | zero => omega
  | succ fuel ih =>
    unfold readLoop ReadString
    cases hs : splitAtDelim newline data with
    | mk line rest =>
      cases rest with
      | none =>
        obtain ⟨e1, e2⟩ := splitAtDelim_none _ _ _ hs
        subst e1
        simp only
        by_cases hl : line.length > 0
        · simp only [hl, if_true]
          exact ⟨_, rfl, LineSplit.last line (by intro e; simp [e] at hl) e2⟩
        · simp only [hl, if_false]
          have : line = [] := by
            cases line with
            | nil => rfl
            | cons a as => simp at hl
          subst this
          exact ⟨_, rfl, LineSplit.nil⟩
      | some rest =>
        obtain ⟨body, e1, e2, e3⟩ := splitAtDelim_some _ _ _ _ hs
        simp only
        have hlen : rest.length < fuel := by
          rw [e3, e1] at h
          simp at h
          omega
        obtain ⟨recs, hr, hsplit⟩ := ih rest hlen
        rw [hr]
        refine ⟨line :: recs, rfl, ?_⟩
        rw [e3, e1]
        exact LineSplit.cons body rest recs e2 hsplit

theorem LineSplit.flatten_eq {data : List Byte} {recs : List Record} (h : LineSplit data recs) :
    recs.flatten = data := by
  induction h with
  | nil => rfl
  | last l _ _ => simp
  | cons body rest recs _ _ ih => simp [ih]

theorem LineSplit.ne_nil {data : List Byte} {recs : List Record} (h : LineSplit data recs) :
    ∀ r ∈ recs, r ≠ [] := by
  induction h with
  | nil => simp
  | last l hl _ => simpa using hl
  | cons body rest recs _ _ ih =>
    intro r hr
    rcases List.mem_cons.mp hr with rfl | hr
    · simp
    · exact ih r hr

theorem LineSplit.inner {data : List Byte} {recs : List Record} (h : LineSplit data recs) :
    ∀ r ∈ recs, newline ∉ r.dropLast := by
  induction h with
  | nil => simp
  | last l _ hn =>
    intro r hr
    rw [List.mem_singleton] at hr
    subst hr
    exact fun hm => hn (List.mem_of_mem_dropLast hm)
  | cons body rest recs hb _ ih =>
    intro r hr
    rcases List.mem_cons.mp hr with rfl | hr
    · simpa using hb
    · exact ih r hr

theorem LineSplit.not_last {data : List Byte} {recs : List Record} (h : LineSplit data recs) :
    ∀ pre r post, recs = pre ++ r :: post → post ≠ [] → r.getLast? = some newline := by
  induction h with
  | nil => intro pre r post e; simp at e
  | last l _ _ =>
    intro pre r post e hp
    cases pre with
    | nil => simp at e; exact absurd e.2 hp
    | cons a as => simp at e
  | cons body rest recs _ _ ih =>
    intro pre r post e hp
    cases pre with
    | nil =>
      simp only [List.nil_append, List.cons.injEq] at e
      rw [← e.1]
      exact List.getLast?_concat body
    | cons a as =>
      simp only [List.cons_append, List.cons.injEq] at e
      exact ih as r post e.2 hp

theorem LineSplit.last_iff {data : List Byte} {recs : List Record} (h : LineSplit data recs) :
    (∃ r, recs.getLast? = some r ∧ newline ∉ r) ↔
      (data ≠ [] ∧ data.getLast? ≠ some newline) := by
  induction h with
  | nil => simp
  | last l hl hn =>
    simp only [List.getLast?_singleton, Option.some.injEq, exists_eq_left', hn, not_false_eq_true,
      ne_eq, hl, true_and, true_iff]
    intro e
    obtain ⟨ys, hys⟩ := List.getLast?_eq_some_iff.mp e
    exact hn (by rw [hys]; simp)
  | cons body rest recs hb hs ih =>
    cases recs with
    | nil =>
      have hr : rest = [] := by simpa using hs.flatten_eq.symm
      subst hr
      simp
    | cons r0 rs =>
      have hr : rest ≠ [] := by
        intro e
        have h1 := hs.flatten_eq
        rw [e] at h1
        have h2 := hs.ne_nil r0 (List.mem_cons_self r0 rs)
        simp at h1
        exact h2 h1.1
      rw [List.getLast?_cons_cons, ih]
      have h3 : (body ++ [newline] ++ rest).getLast? = rest.getLast? := by
        rw [List.getLast?_append]
        cases hg : rest.getLast? with
        | none => exact absurd (List.getLast?_eq_none_iff.mp hg) hr
        | some x => rfl
      rw [h3]
      simp [hr]

/-! ## Concurrent callers of `IncLine` -/


theorem sum_map_set {α : Type} (f : α → Nat) (l : List α) (i : Nat) (a b : α)
    (h : l[i]? = some a) : ((l.set i b).map f).sum + f a = (l.map f).sum + f b := by
  induction l generalizing i with
  | nil => simp at h
  | cons x xs ih =>
    cases i with
    | zero =>
      simp only [List.getElem?_cons_zero, Option.some.injEq] at h
      subst h
      simp only [List.set_cons_zero, List.map_cons, List.sum_cons]
      omega
    | succ i =>
      simp only [List.getElem?_cons_succ] at h
      have := ih i h
      simp only [List.set_cons_succ, List.map_cons, List.sum_cons]
      omega

theorem sum_map_const {α : Type} (f : α → Nat) (l : List α) (m : Nat)
    (h : ∀ c ∈ l, f c = m) : (l.map f).sum = l.length * m := by
  induction l with
  | nil => simp
  | cons x xs ih =>
    simp only [List.map_cons, List.sum_cons, List.length_cons]
    rw [ih (fun c hc => h c (List.mem_cons_of_mem x hc)), h x (List.mem_cons_self x xs)]
    ring

theorem LockedCounter.inv_start (ref : String) (a : AWSTools) (k m : Nat) :
    LockedCounter.Inv ref k m (a.GetLines ref).val (LockedCounter.start a k m) := by
  have hmem : ∀ (j : Nat) (c : IncCaller), (LockedCounter.start a k m).callers[j]? = some c →
      c = ({ pc := IncPc.lock, remaining := m } : IncCaller) := by
    intro j c h
    simp only [LockedCounter.start, List.getElem?_replicate] at h
    split at h
    · cases h; rfl
    · cases h
  refine ⟨by simp [LockedCounter.start], ?_, ?_, ?_, ?_⟩
  · have : ((LockedCounter.start a k m).callers.map (IncCaller.written m)).sum = k * 0 := by
      rw [sum_map_const _ _ 0]
      · simp [LockedCounter.start]
      · intro c hc
        simp only [LockedCounter.start, List.mem_replicate] at hc
        simp [hc.2, IncCaller.written]
    rw [this]
    simp only [Nat.mul_zero, Nat.cast_zero, add_zero]
    exact (Int64.ofInt_val _).symm
  · intro j c h
    rw [hmem j c h]
    simp
  · intro j c h hc
    rw [hmem j c h] at hc
    simp at hc
  · intro j c v h hc
    rw [hmem j c h] at hc
    simp at hc

theorem set_of_getElem? {α : Type} (l : List α) (i : Nat) (a : α) (h : l[i]? = some a) :
    l.set i a = l := by
  induction l generalizing i with
  | nil => rfl
  | cons x xs ih =>
    cases i with
    | zero =>
      simp only [List.getElem?_cons_zero, Option.some.injEq] at h
      simp [h]
    | succ i =>
      simp only [List.getElem?_cons_succ] at h
      simp [ih i h]

theorem replicate_append_cons {α : Type} (n : Nat) (a : α) (rest : List α) :
    List.replicate n a ++ a :: rest = a :: (List.replicate n a ++ rest) := by
  induction n with
  | zero => rfl
  | succ n ih => simp [List.replicate_succ, ih]

theorem getElem?_set_cases {α : Type} (l : List α) (i j : Nat) (b c : α)
    (h : (l.set i b)[j]? = some c) : (j = i ∧ c = b) ∨ (j ≠ i ∧ l[j]? = some c) := by
  rw [List.getElem?_set] at h
  by_cases hij : i = j
  · left
    simp only [hij, if_true] at h
    split at h
    · cases h; exact ⟨hij.symm, rfl⟩
    · cases h
  · right
    simp only [hij, if_false] at h
    exact ⟨fun e => hij e.symm, h⟩

theorem LockedCounter.inv_step (ref : String) (k m : Nat) (c0 : Int) (s t : LockedCounter)
    (i : Nat) (h : LockedCounter.Inv ref k m c0 s) (hs : s.step ref i = some t) :
    LockedCounter.Inv ref k m c0 t := by
  unfold LockedCounter.step at hs
  rw [List.get?_eq_getElem?] at hs
  cases hc : s.callers[i]? with
  | none => rw [hc] at hs; cases hs
  | some c =>
    rw [hc] at hs
    simp only at hs
    obtain ⟨hb1, hb2⟩ := h.bound i c hc
    by_cases hrem : c.remaining = 0
    · simp [hrem] at hs
    simp only [hrem, if_false] at hs
    have hsum := fun b => sum_map_set (IncCaller.written m) s.callers i c b hc
    cases hpc : c.pc with
    | lock =>
      rw [hpc] at hs
      simp only at hs
      by_cases hl : s.locked = true
      · simp [hl] at hs
      have hl2 : s.locked = false := by simpa using hl
      rw [hl2] at hs
      simp only [Bool.false_eq_true, if_false, Option.some.injEq] at hs
      subst hs
      have hfree : ∀ (j : Nat) (d : IncCaller), s.callers[j]? = some d → d.pc = IncPc.lock := by
        intro j d hd
        by_contra hne
        exact hl (h.held j d hd hne).1
      refine ⟨by simp [h.length], ?_, ?_, ?_, ?_⟩
      · have hsm : ((s.callers.set i { c with pc := IncPc.load }).map (IncCaller.written m)).sum =
            (s.callers.map (IncCaller.written m)).sum := by
          have := hsum { c with pc := IncPc.load }
          simp only [IncCaller.written, hpc, if_true, if_false, reduceCtorEq] at this
          omega
        simp only
        rw [hsm]
        exact h.count
      · intro j d hd
        rcases getElem?_set_cases _ _ _ _ _ hd with ⟨_, rfl⟩ | ⟨_, hd⟩
        · exact ⟨hb1, fun _ => Nat.pos_of_ne_zero hrem⟩
        · exact h.bound j d hd
      · intro j d hd hne
        refine ⟨rfl, ?_⟩
        rcases getElem?_set_cases _ _ _ _ _ hd with ⟨rfl, rfl⟩ | ⟨_, hd⟩
        · intro i2 d2 hd2 hne2
          rcases getElem?_set_cases _ _ _ _ _ hd2 with ⟨rfl, _⟩ | ⟨_, hd2⟩
          · rfl
          · exact absurd (hfree i2 d2 hd2) hne2
        · exact absurd (hfree j d hd) hne
      · intro j d v hd hv
        rcases getElem?_set_cases _ _ _ _ _ hd with ⟨_, rfl⟩ | ⟨_, hd⟩
        · simp at hv
        · have := hfree j d hd
          rw [hv] at this
          cases this
    | load =>
      rw [hpc] at hs
      simp only [Option.some.injEq] at hs
      subst hs
      have hin : c.pc ≠ IncPc.lock := by rw [hpc]; simp
      obtain ⟨hlk, huniq⟩ := h.held i c hc hin
      refine ⟨by simp [h.length], ?_, ?_, ?_, ?_⟩
      · have hsm : ((s.callers.set i { c with pc := IncPc.store (s.tools.lines.read ref) }).map (IncCaller.written m)).sum =
            (s.callers.map (IncCaller.written m)).sum := by
          have := hsum { c with pc := IncPc.store (s.tools.lines.read ref) }
          simp only [IncCaller.written, hpc, if_true, if_false, reduceCtorEq] at this
          omega
        simp only
        rw [hsm]
        exact h.count
      · intro j d hd
        rcases getElem?_set_cases _ _ _ _ _ hd with ⟨_, rfl⟩ | ⟨_, hd⟩
        · exact ⟨hb1, fun _ => Nat.pos_of_ne_zero hrem⟩
        · exact h.bound j d hd
      · intro j d hd hne
        refine ⟨hlk, ?_⟩
        rcases getElem?_set_cases _ _ _ _ _ hd with ⟨rfl, rfl⟩ | ⟨hj, hd⟩
        · intro i2 d2 hd2 hne2
          rcases getElem?_set_cases _ _ _ _ _ hd2 with ⟨rfl, _⟩ | ⟨_, hd2⟩
          · rfl
          · exact huniq i2 d2 hd2 hne2
        · exact absurd (huniq j d hd hne) hj
      · intro j d v hd hv
        rcases getElem?_set_cases _ _ _ _ _ hd with ⟨_, rfl⟩ | ⟨hj, hd⟩
        · simp only [IncPc.store.injEq] at hv
          exact hv.symm
        · exact absurd (huniq j d hd (by rw [hv]; simp)) hj
    | store v =>
      rw [hpc] at hs
      simp only [Option.some.injEq] at hs
      subst hs
      have hin : c.pc ≠ IncPc.lock := by rw [hpc]; simp
      obtain ⟨hlk, huniq⟩ := h.held i c hc hin
      have hv := h.loaded i c v hc hpc
      refine ⟨by simp [h.length], ?_, ?_, ?_, ?_⟩
      · have hsm : ((s.callers.set i { c with pc := IncPc.unlock }).map (IncCaller.written m)).sum =
            (s.callers.map (IncCaller.written m)).sum + 1 := by
          have := hsum { c with pc := IncPc.unlock }
          simp only [IncCaller.written, hpc, if_true, if_false, reduceCtorEq] at this
          omega
        simp only
        rw [hsm, LineMap.read_write_same, hv, h.count, Int64.succ_ofInt]
        congr 1
        push_cast
        ring
      · intro j d hd
        rcases getElem?_set_cases _ _ _ _ _ hd with ⟨_, rfl⟩ | ⟨_, hd⟩
        · exact ⟨hb1, fun _ => Nat.pos_of_ne_zero hrem⟩
        · exact h.bound j d hd
      · intro j d hd hne
        refine ⟨hlk, ?_⟩
        rcases getElem?_set_cases _ _ _ _ _ hd with ⟨rfl, rfl⟩ | ⟨hj, hd⟩
        · intro i2 d2 hd2 hne2
          rcases getElem?_set_cases _ _ _ _ _ hd2 with ⟨rfl, _⟩ | ⟨_, hd2⟩
          · rfl
          · exact huniq i2 d2 hd2 hne2
        · exact absurd (huniq j d hd hne) hj
      · intro j d w hd hw
        rcases getElem?_set_cases _ _ _ _ _ hd with ⟨_, rfl⟩ | ⟨hj, hd⟩
        · simp at hw
        · exact absurd (huniq j d hd (by rw [hw]; simp)) hj
    | unlock =>
      rw [hpc] at hs
      simp only [Option.some.injEq] at hs
      subst hs
      have hin : c.pc ≠ IncPc.lock := by rw [hpc]; simp
      obtain ⟨hlk, huniq⟩ := h.held i c hc hin
      refine ⟨by simp [h.length], ?_, ?_, ?_, ?_⟩
      · have hsm : ((s.callers.set i { pc := IncPc.lock, remaining := c.remaining - 1 }).map (IncCaller.written m)).sum =
            (s.callers.map (IncCaller.written m)).sum := by
          have := hsum { pc := IncPc.lock, remaining := c.remaining - 1 }
          simp only [IncCaller.written, hpc, if_true, if_false, reduceCtorEq] at this
          omega
        simp only
        rw [hsm]
        exact h.count
      · intro j d hd
        rcases getElem?_set_cases _ _ _ _ _ hd with ⟨_, rfl⟩ | ⟨_, hd⟩
        · exact ⟨by simp only; omega, fun hne => absurd rfl hne⟩
        · exact h.bound j d hd
      · intro j d hd hne
        rcases getElem?_set_cases _ _ _ _ _ hd with ⟨rfl, rfl⟩ | ⟨hj, hd⟩
        · exact absurd rfl hne
        · exact absurd (huniq j d hd hne) hj
      · intro j d w hd hw
        rcases getElem?_set_cases _ _ _ _ _ hd with ⟨_, rfl⟩ | ⟨hj, hd⟩
        · simp at hw
        · exact absurd (huniq j d hd (by rw [hw]; simp)) hj

theorem LockedCounter.inv_run (ref : String) (k m : Nat) (c0 : Int) (sched : List Nat)
    (s t : LockedCounter) (h : LockedCounter.Inv ref k m c0 s)
    (hr : s.run ref sched = some t) : LockedCounter.Inv ref k m c0 t := by
  induction sched generalizing s with
  | nil =>
    simp only [LockedCounter.run, Option.some.injEq] at hr
    subst hr
    exact h
  | cons i sched ih =>
    simp only [LockedCounter.run] at hr
    cases hs : s.step ref i with
    | none => rw [hs] at hr; cases hr
    | some s1 =>
      rw [hs] at hr
      exact ih s1 (LockedCounter.inv_step ref k m c0 s s1 i h hs) hr

/-- When all callers are done the count is the initial count plus `k * m`, wrapped. -/
theorem LockedCounter.inv_done (ref : String) (k m : Nat) (c0 : Int) (s : LockedCounter)
    (h : LockedCounter.Inv ref k m c0 s) (hd : s.allDone = true) :
    s.tools.GetLines ref = Int64.ofInt (c0 + ((k * m : Nat) : Int)) := by
  have hsum : (s.callers.map (IncCaller.written m)).sum = s.callers.length * m := by
    apply sum_map_const
    intro c hc
    have hrem : c.remaining = 0 := by
      simp only [LockedCounter.allDone, List.all_eq_true, decide_eq_true_eq] at hd
      exact hd c hc
    obtain ⟨j, hj⟩ := List.getElem?_of_mem hc
    have hb := (h.bound j c hj).2
    have hpc : c.pc = IncPc.lock := by
      by_contra hne
      have := hb hne
      omega
    simp [IncCaller.written, hrem, hpc]
  unfold AWSTools.GetLines
  rw [h.count, hsum, h.length]

theorem LockedCounter.run_concat (ref : String) (xs ys : List Nat) (s : LockedCounter) :
    s.run ref (xs ++ ys) = (s.run ref xs).bind (fun t => t.run ref ys) := by
  induction xs generalizing s with
  | nil => rfl
  | cons i xs ih =>
    simp only [List.cons_append, LockedCounter.run]
    cases s.step ref i with
    | none => rfl
    | some s1 => exact ih s1

/-- One call of `IncLine` run without interruption. -/
theorem LockedCounter.run_call (ref : String) (s : LockedCounter) (i n : Nat)
    (hc : s.callers[i]? = some { pc := IncPc.lock, remaining := n + 1 })
    (hl : s.locked = false) :
    ∃ t, s.run ref [i, i, i, i] = some t ∧ t.locked = false ∧
      t.callers = s.callers.set i { pc := IncPc.lock, remaining := n } := by
  have hi : i < s.callers.length := by
    by_contra hge
    rw [List.getElem?_eq_none (by omega)] at hc
    cases hc
  simp [LockedCounter.run, LockedCounter.step, hc, hl, hi, List.getElem?_set_self, List.set_set]

/-- The calls of one caller run without interruption. -/
theorem LockedCounter.run_calls (ref : String) (n : Nat) (s : LockedCounter) (i : Nat)
    (hc : s.callers[i]? = some { pc := IncPc.lock, remaining := n })
    (hl : s.locked = false) :
    ∃ t, s.run ref (List.replicate (4 * n) i) = some t ∧ t.locked = false ∧
      t.callers = s.callers.set i { pc := IncPc.lock, remaining := 0 } := by
  induction n generalizing s with
  | zero =>
    refine ⟨s, rfl, hl, ?_⟩
    exact (set_of_getElem? _ _ _ hc).symm
  | succ n ih =>
    have hi : i < s.callers.length := by
      by_contra hge
      rw [List.getElem?_eq_none (by omega)] at hc
      cases hc
    obtain ⟨t1, hr1, hl1, hc1⟩ := LockedCounter.run_call ref s i n hc hl
    have hc1i : t1.callers[i]? = some { pc := IncPc.lock, remaining := n } := by
      rw [hc1, List.getElem?_set_self hi]
    obtain ⟨t2, hr2, hl2, hc2⟩ := ih t1 hc1i hl1
    refine ⟨t2, ?_, hl2, ?_⟩
    · have e : List.replicate (4 * (n + 1)) i = [i, i, i, i] ++ List.replicate (4 * n) i := by
        rw [show 4 * (n + 1) = 4 * n + 4 by ring]
        simp [List.replicate_succ, List.replicate_add]
      rw [e, LockedCounter.run_concat, hr1]
      exact hr2
    · rw [hc2, hc1, List.set_set]

/-- The callers run one after the other: after the first `j` of them, these are
done and the others have not started. -/
theorem LockedCounter.run_seq (ref : String) (a : AWSTools) (k m j : Nat) (hj : j ≤ k) :
    ∃ t, (LockedCounter.start a k m).run ref (seqSchedule m j) = some t ∧ t.locked = false ∧
      t.callers = List.replicate j { pc := IncPc.lock, remaining := 0 } ++
        List.replicate (k - j) { pc := IncPc.lock, remaining := m } := by
  induction j with
  | zero => exact ⟨_, rfl, rfl, by simp [LockedCounter.start]⟩
  | succ j ih =>
    obtain ⟨t1, hr1, hl1, hc1⟩ := ih (by omega)
    have hkj : k - j = (k - (j + 1)) + 1 := by omega
    have hget : t1.callers[j]? = some { pc := IncPc.lock, remaining := m } := by
      rw [hc1, List.getElem?_append_right (by simp), hkj]
      simp
    obtain ⟨t2, hr2, hl2, hc2⟩ := LockedCounter.run_calls ref m t1 j hget hl1
    refine ⟨t2, ?_, hl2, ?_⟩
    · simp only [seqSchedule]
      rw [LockedCounter.run_concat, hr1]
      exact hr2
    · rw [hc2, hc1, List.set_append_right _ _ (by simp), hkj]
      simp [List.replicate_succ, replicate_append_cons]

theorem LockedCounter.run_seq_done (ref : String) (a : AWSTools) (k m : Nat) :
    ∃ t, (LockedCounter.start a k m).run ref (seqSchedule m k) = some t ∧ t.allDone = true := by
  obtain ⟨t, hr, _, hc⟩ := LockedCounter.run_seq ref a k m k (Nat.le_refl k)
  refine ⟨t, hr, ?_⟩
  simp [LockedCounter.allDone, hc]

/-! ## The session: what the reader enqueues -/

theorem ReadString_ok (body : Body) (d : Byte) (h : (ReadString body d).err = none) :
    body.data = (ReadString body d).line ++ (ReadString body d).rest.data ∧
      (ReadString body d).rest.failure = body.failure ∧
      ∃ b, (ReadString body d).line = b ++ [d] ∧ d ∉ b := by
  unfold ReadString at h ⊢
  cases hs : splitAtDelim d body.data with
  | mk line rest =>
    cases rest with
    | none => rw [hs] at h; simp at h
    | some rest =>
      obtain ⟨b, e1, e2, e3⟩ := splitAtDelim_some _ _ _ _ hs
      exact ⟨e3, rfl, b, e1, e2⟩

theorem ReadString_err (body : Body) (d : Byte) (e : ReadError)
    (h : (ReadString body d).err = some e) :
    (ReadString body d).line = body.data ∧ d ∉ body.data ∧
      e = (match body.failure with
        | none => ReadError.eof
        | some msg => ReadError.other msg) := by
  unfold ReadString at h ⊢
  cases hs : splitAtDelim d body.data with
  | mk line rest =>
    cases rest with
    | some rest => rw [hs] at h; simp at h
    | none =>
      obtain ⟨e1, e2⟩ := splitAtDelim_none _ _ _ hs
      rw [hs] at h
      simp only [Option.some.injEq] at h
      exact ⟨e1, e2, h.symm⟩

theorem readerInv_stepReader (env : Env) (data : List Byte) (s t : Session)
    (ho : env.object = Except.ok ⟨data, none⟩) (h : ReaderInv data s)
    (hs : stepReader env s = some t) : ReaderInv data t := by
  unfold stepReader at hs
  unfold ReaderInv at h
  split at hs
  · rw [ho] at hs
    simp only [Option.some.injEq] at hs
    subst hs
    simp_all [ReaderInv]
  · simp_all
  · rename_i body hpc
    rw [hpc] at h
    simp only at h hs
    split at hs
    · rename_i he
      obtain ⟨e1, e2, e3⟩ := ReadString_err _ _ _ he
      split at hs <;> simp only [Option.some.injEq] at hs <;> subst hs
      · simp only [ReaderInv]
        rw [e1]; exact h.2
      · rename_i hl
        simp only [ReaderInv]
        rw [e1] at hl
        have : body.data = [] := by
          cases hd : body.data with
          | nil => rfl
          | cons a as => rw [hd] at hl; simp at hl
        rw [this] at h
        simpa using h.2
    · rename_i msg he
      obtain ⟨e1, e2, e3⟩ := ReadString_err _ _ _ he
      rw [h.1] at e3
      cases e3
    · rename_i he
      obtain ⟨e1, e2, _⟩ := ReadString_ok _ _ he
      simp only [Option.some.injEq] at hs
      subst hs
      simp only [ReaderInv]
      refine ⟨by rw [e2]; exact h.1, ?_⟩
      rw [← e1]
      exact h.2
  · rename_i line hpc
    rw [hpc] at h
    unfold sendQueue at hs
    split at hs
    · simp only [Option.some.injEq] at hs
      subst hs
      simpa [ReaderInv] using h
    · cases hs
  · simp_all
  · rename_i line body hpc
    rw [hpc] at h
    unfold sendQueue at hs
    split at hs
    · simp only [Option.some.injEq] at hs
      subst hs
      simpa [ReaderInv] using h
    · cases hs
  · rename_i hpc
    rw [hpc] at h
    simp only [Option.some.injEq] at hs
    subst hs
    simpa [ReaderInv] using h
  · rename_i hpc
    rw [hpc] at h
    split at hs
    · simp only [Option.some.injEq] at hs
      subst hs
      simpa [ReaderInv] using h
    · cases hs
  · cases hs

theorem readerInv_congr (data : List Byte) (s t : Session) (h1 : t.reader = s.reader)
    (h2 : t.enqueued = s.enqueued) (h : ReaderInv data s) : ReaderInv data t := by
  unfold ReaderInv at h ⊢
  rw [h1, h2]
  exact h

theorem readerInv_recvQueue (data : List Byte) (s s1 : Session) (r : Option Record)
    (h : ReaderInv data s) (hs : recvQueue s = some (s1, r)) : ReaderInv data s1 := by
  unfold recvQueue at hs
  split at hs
  · simp only [Option.some.injEq, Prod.mk.injEq] at hs
    exact readerInv_congr data s s1 (by rw [← hs.1]) (by rw [← hs.1]) h
  · split at hs
    · rename_i line body hpc
      simp only [Option.some.injEq, Prod.mk.injEq] at hs
      unfold ReaderInv at h
      rw [hpc] at h
      rw [← hs.1]
      simpa [ReaderInv] using h
    · rename_i line hpc
      simp only [Option.some.injEq, Prod.mk.injEq] at hs
      unfold ReaderInv at h
      rw [hpc] at h
      rw [← hs.1]
      simpa [ReaderInv] using h
    · split at hs
      · simp only [Option.some.injEq, Prod.mk.injEq] at hs
        rw [← hs.1]
        exact h
      · cases hs

theorem readerInv_step (env : Env) (data : List Byte) (s t : Session) (task : Task)
    (ho : env.object = Except.ok ⟨data, none⟩) (h : ReaderInv data s)
    (hs : step env s task = some t) : ReaderInv data t := by
  cases task with
  | reader => exact readerInv_stepReader env data s t ho h hs
  | worker i =>
    simp only [step, stepWorker] at hs
    split at hs
    · cases hs
    · rename_i w hw
      split at hs
      · split at hs
        · cases hs
        · rename_i s1 line hr
          simp only [Option.some.injEq] at hs
          subst hs
          exact readerInv_congr data s1 _ rfl rfl (readerInv_recvQueue data s s1 _ h hr)
        · rename_i s1 hr
          simp only [Option.some.injEq] at hs
          subst hs
          exact readerInv_congr data s1 _ rfl rfl (readerInv_recvQueue data s s1 _ h hr)
      · split at hs <;> simp only [Option.some.injEq] at hs <;> subst hs <;>
          exact readerInv_congr data s _ rfl rfl h
      · simp only [Option.some.injEq] at hs
        subst hs
        exact readerInv_congr data s _ rfl rfl h
      · split at hs
        · simp only [Option.some.injEq] at hs
          subst hs
          exact readerInv_congr data s _ rfl rfl h
        · cases hs
      · cases hs
  | workerExit i =>
    simp only [step, stepWorkerExit] at hs
    split at hs
    · cases hs
    · split at hs
      · simp only [Option.some.injEq] at hs
        subst hs
        exact readerInv_congr data s _ rfl rfl h
      · cases hs
  | workerTimeout i =>
    simp only [step, stepWorkerTimeout] at hs
    split at hs
    · cases hs
    · split at hs
      · simp only [Option.some.injEq] at hs
        subst hs
        exact readerInv_congr data s _ rfl rfl h
      · cases hs
  | closer =>
    simp only [step, stepCloser] at hs
    split at hs
    · split at hs
      · simp only [Option.some.injEq] at hs
        subst hs
        exact readerInv_congr data s _ rfl rfl h
      · cases hs
    · simp only [Option.some.injEq] at hs
      subst hs
      exact readerInv_congr data s _ rfl rfl h
    · cases hs
  | stop =>
    simp only [step, stepStop] at hs
    split at hs
    · cases hs
    · split at hs
      · simp only [Option.some.injEq] at hs
        subst hs
        exact readerInv_congr data s _ rfl rfl h
      · cases hs
  | caller =>
    simp only [step, stepCaller] at hs
    split at hs
    · simp only [Option.some.injEq] at hs
      subst hs
      exact readerInv_congr data s _ rfl rfl h
    · unfold ReaderInv at h
      split at hs
      · simp_all
      · simp_all
      · cases hs

theorem readerInv_run (env : Env) (data : List Byte) (sched : List Task) (s t : Session)
    (ho : env.object = Except.ok ⟨data, none⟩) (h : ReaderInv data s)
    (hr : run env s sched = some t) : ReaderInv data t := by
  induction sched generalizing s with
  | nil =>
    simp only [run, Option.some.injEq] at hr
    subst hr
    exact h
  | cons task sched ih =>
    simp only [run] at hr
    cases hs : step env s task with
    | none => rw [hs] at hr; cases hr
    | some s1 =>
      rw [hs] at hr
      exact ih s1 (readerInv_step env data s s1 task ho h hs) hr

theorem readerInv_start (data : List Byte) (a : AWSTools) (s0 : Session)
    (h : ReadFileStreamFromS3WithContext a = some s0) : ReaderInv data s0 := by
  unfold ReadFileStreamFromS3WithContext at h
  split at h
  · cases h
  · split at h
    · cases h
    · simp only [Option.some.injEq] at h
      subst h
      simp [ReaderInv]

theorem readerInv_prefix (data : List Byte) (s : Session) (h : ReaderInv data s) :
    s.enqueued.flatten <+: data ∧ (s.reader.leftLoop = true → s.enqueued.flatten = data) := by
  unfold ReaderInv at h
  split at h <;> simp_all [ReaderPc.leftLoop]
  · exact ⟨_, h.2⟩
  · exact ⟨_, h.2⟩
  · exact ⟨_, h⟩
  

/-! ## The session: the count of handled lines -/

theorem sum_map_le {α : Type} (f g : α → Nat) (l : List α) (h : ∀ a, f a ≤ g a) :
    (l.map f).sum ≤ (l.map g).sum := by
  induction l with
  | nil => simp
  | cons x xs ih =>
    simp only [List.map_cons, List.sum_cons]
    have := h x
    omega

theorem Worker.pending_le_live (w : Worker) : w.pending ≤ w.live := by
  unfold Worker.pending Worker.live
  split <;> split <;> simp_all

theorem recvQueue_frame (s s1 : Session) (r : Option Record) (h : recvQueue s = some (s1, r)) :
    s1.workers = s.workers ∧ s1.wg = s.wg ∧ s1.tools = s.tools ∧ s1.closer = s.closer ∧
      s1.errCloses = s.errCloses ∧ s1.reader.live = s.reader.live ∧
      s1.queueCloses = s.queueCloses ∧ s1.errorChan = s.errorChan ∧ s1.errSent = s.errSent ∧
      s1.errReceived = s.errReceived ∧ s1.queueCap = s.queueCap ∧ s1.errCap = s.errCap ∧
      s1.stopNext = s.stopNext := by
  unfold recvQueue at h
  split at h
  · simp only [Option.some.injEq, Prod.mk.injEq] at h
    rw [← h.1]
    simp
  · split at h
    · rename_i hpc
      simp only [Option.some.injEq, Prod.mk.injEq] at h
      rw [← h.1]
      simp [hpc, ReaderPc.live]
    · rename_i hpc
      simp only [Option.some.injEq, Prod.mk.injEq] at h
      rw [← h.1]
      simp [hpc, ReaderPc.live]
    · split at h
      · simp only [Option.some.injEq, Prod.mk.injEq] at h
        rw [← h.1]
        simp
      · cases h

/-- The effect of replacing worker `i` on the sums of the invariant. -/
theorem countInv_setWorker (env : Env) (c0 : Int) (s t : Session) (i : Nat) (w v : Worker)
    (h : CountInv env c0 s) (hw : s.workers[i]? = some w)
    (ht : t.workers = s.workers.set i v)
    (hwg : t.wg + w.live = s.wg + v.live)
    (hreader : t.reader.live = s.reader.live) (hcloser : t.closer = s.closer)
    (hcloses : t.errCloses = s.errCloses)
    (hlive : v.live ≤ w.live)
    (hcount : t.tools.GetLines env.fileName =
      Int64.ofInt ((s.tools.GetLines env.fileName).val + ((v.incs - w.incs : Nat) : Int)))
    (hincs : w.incs ≤ v.incs)
    (hhandled : v.handled + w.incs + w.pending = w.handled + v.incs + v.pending) :
    CountInv env c0 t := by
  have e1 := sum_map_set Worker.live s.workers i w v hw
  have e2 := sum_map_set Worker.incs s.workers i w v hw
  have e3 := sum_map_set Worker.handled s.workers i w v hw
  have e4 := sum_map_set Worker.pending s.workers i w v hw
  have hwg0 := h.wg
  have hh := h.handled
  refine ⟨?_, ?_, ?_, ?_, ?_⟩
  · rw [ht, hreader]; omega
  · intro hc
    rw [hcloser] at hc
    have hz := h.closer hc
    omega
  · rw [hcloses, hcloser]; exact h.closes
  · rw [hcount, h.count, ht]
    apply Int64.ext_val
    simp only [Int64.ofInt]
    rw [show ∀ x y : Int, wrapInt64 x + y = y + wrapInt64 x from fun x y => add_comm _ _]
    have key : ∀ (x : Int) (n : Nat), wrapInt64 ((n : Int) + wrapInt64 x) = wrapInt64 (x + n) := by
      intro x n
      unfold wrapInt64
      omega
    rw [key]
    congr 1
    have : (s.workers.set i v |>.map Worker.incs).sum = (s.workers.map Worker.incs).sum + (v.incs - w.incs) := by
      omega
    rw [this]
    push_cast
    ring
  · rw [ht]; omega

/-- The invariant after a step that leaves the workers and the registry alone. -/
theorem countInv_frame (env : Env) (c0 : Int) (s t : Session) (h : CountInv env c0 s)
    (hworkers : t.workers = s.workers) (htools : t.tools = s.tools)
    (hwg : t.wg + s.reader.live = s.wg + t.reader.live)
    (hlive : t.reader.live ≤ s.reader.live)
    (hcloser : t.closer = s.closer) (hcloses : t.errCloses = s.errCloses) :
    CountInv env c0 t := by
  have hwg0 := h.wg
  refine ⟨?_, ?_, ?_, ?_, ?_⟩
  · rw [hworkers]; omega
  · intro hc
    rw [hcloser] at hc
    have hz := h.closer hc
    omega
  · rw [hcloses, hcloser]; exact h.closes
  · rw [htools, hworkers]; exact h.count
  · rw [hworkers]; exact h.handled

theorem countInv_stepReader (env : Env) (c0 : Int) (s t : Session) (h : CountInv env c0 s)
    (hs : stepReader env s = some t) : CountInv env c0 t := by
  unfold stepReader at hs
  split at hs
  · rename_i hpc
    split at hs <;> simp only [Option.some.injEq] at hs <;> subst hs <;>
      exact countInv_frame env c0 s _ h rfl rfl (by simp [hpc, ReaderPc.live])
        (by simp [hpc, ReaderPc.live]) rfl rfl
  · rename_i hpc
    unfold sendError at hs
    split at hs
    · simp only [Option.some.injEq] at hs
      subst hs
      exact countInv_frame env c0 s _ h rfl rfl (by simp [hpc, ReaderPc.live])
        (by simp [hpc, ReaderPc.live]) rfl rfl
    · cases hs
  · rename_i hpc
    simp only at hs
    split at hs
    · split at hs <;> simp only [Option.some.injEq] at hs <;> subst hs <;>
        exact countInv_frame env c0 s _ h rfl rfl (by simp [hpc, ReaderPc.live])
          (by simp [hpc, ReaderPc.live]) rfl rfl
    · simp only [Option.some.injEq] at hs
      subst hs
      exact countInv_frame env c0 s _ h rfl rfl (by simp [hpc, ReaderPc.live])
        (by simp [hpc, ReaderPc.live]) rfl rfl
    · simp only [Option.some.injEq] at hs
      subst hs
      exact countInv_frame env c0 s _ h rfl rfl (by simp [hpc, ReaderPc.live])
        (by simp [hpc, ReaderPc.live]) rfl rfl
  · rename_i hpc
    unfold sendQueue at hs
    split at hs
    · simp only [Option.some.injEq] at hs
      subst hs
      exact countInv_frame env c0 s _ h rfl rfl (by simp [hpc, ReaderPc.live])
        (by simp [hpc, ReaderPc.live]) rfl rfl
    · cases hs
  · rename_i hpc
    unfold sendError at hs
    split at hs
    · simp only [Option.some.injEq] at hs
      subst hs
      exact countInv_frame env c0 s _ h rfl rfl (by simp [hpc, ReaderPc.live])
        (by simp [hpc, ReaderPc.live]) rfl rfl
    · cases hs
  · rename_i hpc
    unfold sendQueue at hs
    split at hs
    · simp only [Option.some.injEq] at hs
      subst hs
      exact countInv_frame env c0 s _ h rfl rfl (by simp [hpc, ReaderPc.live])
        (by simp [hpc, ReaderPc.live]) rfl rfl
    · cases hs
  · rename_i hpc
    simp only [Option.some.injEq] at hs
    subst hs
    exact countInv_frame env c0 s _ h rfl rfl (by simp [hpc, ReaderPc.live])
      (by simp [hpc, ReaderPc.live]) rfl rfl
  · rename_i hpc
    split at hs
    · rename_i hpos
      simp only [Option.some.injEq] at hs
      subst hs
      exact countInv_frame env c0 s _ h rfl rfl (by simp [hpc, ReaderPc.live]; omega)
        (by simp [hpc, ReaderPc.live]) rfl rfl
    · cases hs
  · cases hs

theorem countInv_stepCloser (env : Env) (c0 : Int) (s t : Session) (h : CountInv env c0 s)
    (hs : stepCloser s = some t) : CountInv env c0 t := by
  have hc := h.closes
  unfold stepCloser at hs
  split at hs
  · rename_i hpc
    split at hs
    · rename_i hz
      simp only [Option.some.injEq] at hs
      subst hs
      exact ⟨h.wg, fun _ => hz, by simpa [hpc] using hc, h.count, h.handled⟩
    · cases hs
  · rename_i hpc
    simp only [Option.some.injEq] at hs
    subst hs
    refine ⟨h.wg, fun _ => h.closer (by simp [hpc]), ?_, h.count, h.handled⟩
    simp only [hpc] at hc
    simp [hc]
  · cases hs

theorem countInv_stepCaller (env : Env) (c0 : Int) (s t : Session) (h : CountInv env c0 s)
    (hs : stepCaller s = some t) : CountInv env c0 t := by
  unfold stepCaller at hs
  split at hs
  · simp only [Option.some.injEq] at hs
    subst hs
    exact countInv_frame env c0 s _ h rfl rfl rfl (Nat.le_refl _) rfl rfl
  · split at hs
    · rename_i hpc
      simp only [Option.some.injEq] at hs
      subst hs
      exact countInv_frame env c0 s _ h rfl rfl (by simp [hpc, ReaderPc.live])
        (by simp [hpc, ReaderPc.live]) rfl rfl
    · rename_i hpc
      simp only [Option.some.injEq] at hs
      subst hs
      exact countInv_frame env c0 s _ h rfl rfl (by simp [hpc, ReaderPc.live])
        (by simp [hpc, ReaderPc.live]) rfl rfl
    · cases hs

theorem Int64.ofInt_val_add_zero (x : Int64) : Int64.ofInt (x.val + ((0 : Nat) : Int)) = x := by
  simp [Int64.ofInt_val]

theorem countInv_stepWorker (env : Env) (c0 : Int) (s t : Session) (i : Nat)
    (h : CountInv env c0 s) (hs : stepWorker env s i = some t) : CountInv env c0 t := by
  unfold stepWorker at hs
  rw [List.get?_eq_getElem?] at hs
  split at hs
  · cases hs
  · rename_i w hw
    split at hs
    · rename_i hpc
      split at hs
      · cases hs
      · rename_i s1 line hr
        obtain ⟨f1, f2, f3, f4, f5, f6, _⟩ := recvQueue_frame s s1 _ hr
        simp only [Option.some.injEq] at hs
        subst hs
        apply countInv_setWorker env c0 s _ i w
          { w with pc := WorkerPc.callback line, received := w.received ++ [line] } h hw
        · simp [Session.setWorker, f1]
        · simp [Session.setWorker, f2, Worker.live, hpc]
        · simpa [Session.setWorker] using f6
        · simpa [Session.setWorker] using f4
        · simpa [Session.setWorker] using f5
        · simp [Worker.live, hpc]
        · simp [Session.setWorker, f3, Int64.ofInt_val]
        · simp
        · simp [Worker.handled, Worker.pending, hpc]
      · rename_i s1 hr
        obtain ⟨f1, f2, f3, f4, f5, f6, _⟩ := recvQueue_frame s s1 _ hr
        simp only [Option.some.injEq] at hs
        subst hs
        apply countInv_setWorker env c0 s _ i w
          { w with pc := WorkerPc.wgDone, exit := some WorkerExit.queueClosed } h hw
        · simp [Session.setWorker, f1]
        · simp [Session.setWorker, f2, Worker.live, hpc]
        · simpa [Session.setWorker] using f6
        · simpa [Session.setWorker] using f4
        · simpa [Session.setWorker] using f5
        · simp [Worker.live, hpc]
        · simp [Session.setWorker, f3, Int64.ofInt_val]
        · simp
        · simp [Worker.handled, Worker.pending, hpc]
    · rename_i line hpc
      split at hs
      · rename_i err hcb
        simp only [Option.some.injEq] at hs
        subst hs
        apply countInv_setWorker env c0 s _ i w
          { w with pc := WorkerPc.wgDone, exit := some (WorkerExit.handlerError err),
                   invoked := w.invoked ++ [line],
                   answers := w.answers ++ [some err] } h hw
        · simp [Session.setWorker]
        · simp [Session.setWorker, Worker.live, hpc]
        · simp [Session.setWorker]
        · simp [Session.setWorker]
        · simp [Session.setWorker]
        · simp [Worker.live, hpc]
        · simp [Session.setWorker, Int64.ofInt_val]
        · simp
        · simp [Worker.handled, Worker.pending, hpc, List.filter_append, hcb]
      · rename_i hcb
        simp only [Option.some.injEq] at hs
        subst hs
        apply countInv_setWorker env c0 s _ i w
          { w with pc := WorkerPc.incLine, invoked := w.invoked ++ [line],
                   answers := w.answers ++ [none] } h hw
        · simp [Session.setWorker]
        · simp [Session.setWorker, Worker.live, hpc]
        · simp [Session.setWorker]
        · simp [Session.setWorker]
        · simp [Session.setWorker]
        · simp [Worker.live, hpc]
        · simp [Session.setWorker, Int64.ofInt_val]
        · simp
        · simp [Worker.handled, Worker.pending, hpc, List.filter_append, hcb]
          omega
    · rename_i hpc
      simp only [Option.some.injEq] at hs
      subst hs
      apply countInv_setWorker env c0 s _ i w
          { w with pc := WorkerPc.select, incs := w.incs + 1 } h hw
      · simp [Session.setWorker]
      · simp [Session.setWorker, Worker.live, hpc]
      · simp [Session.setWorker]
      · simp [Session.setWorker]
      · simp [Session.setWorker]
      · simp [Worker.live, hpc]
      · simp only [Session.setWorker, GetLines_IncLine_same]
        apply Int64.ext_val
        simp [Int64.succ_val, Int64.ofInt]
      · simp
      · simp [Worker.handled, Worker.pending, hpc]
        omega
    · rename_i hpc
      split at hs
      · rename_i hpos
        simp only [Option.some.injEq] at hs
        subst hs
        apply countInv_setWorker env c0 s _ i w
          { w with pc := WorkerPc.finished } h hw
        · simp [Session.setWorker]
        · simp [Session.setWorker, Worker.live, hpc]; omega
        · simp [Session.setWorker]
        · simp [Session.setWorker]
        · simp [Session.setWorker]
        · simp [Worker.live, hpc]
        · simp [Session.setWorker, Int64.ofInt_val]
        · simp
        · simp [Worker.handled, Worker.pending, hpc]
      · cases hs
    · cases hs

theorem countInv_step (env : Env) (c0 : Int) (s t : Session) (task : Task)
    (h : CountInv env c0 s) (hs : step env s task = some t) : CountInv env c0 t := by
  cases task with
  | reader => exact countInv_stepReader env c0 s t h hs
  | worker i => exact countInv_stepWorker env c0 s t i h hs
  | workerExit i =>
    simp only [step, stepWorkerExit] at hs
    rw [List.get?_eq_getElem?] at hs
    split at hs
    · cases hs
    · rename_i w hw
      split at hs
      · rename_i hc
        simp only [Option.some.injEq] at hs
        subst hs
        apply countInv_setWorker env c0 s _ i w
          { w with pc := WorkerPc.wgDone, exitChan := w.exitChan - 1,
                   exit := some WorkerExit.exitSignal } h hw
        · simp [Session.setWorker]
        · simp [Session.setWorker, Worker.live, hc.1]
        · simp [Session.setWorker]
        · simp [Session.setWorker]
        · simp [Session.setWorker]
        · simp [Worker.live, hc.1]
        · simp [Session.setWorker, Int64.ofInt_val]
        · simp
        · simp [Worker.handled, Worker.pending, hc.1]
      · cases hs
  | workerTimeout i =>
    simp only [step, stepWorkerTimeout] at hs
    rw [List.get?_eq_getElem?] at hs
    split at hs
    · cases hs
    · rename_i w hw
      split at hs
      · rename_i hc
        simp only [Option.some.injEq] at hs
        subst hs
        apply countInv_setWorker env c0 s _ i w
          { w with pc := WorkerPc.wgDone, exit := some WorkerExit.timeout } h hw
        · simp [Session.setWorker]
        · simp [Session.setWorker, Worker.live, hc.1]
        · simp [Session.setWorker]
        · simp [Session.setWorker]
        · simp [Session.setWorker]
        · simp [Worker.live, hc.1]
        · simp [Session.setWorker, Int64.ofInt_val]
        · simp
        · simp [Worker.handled, Worker.pending, hc.1]
      · cases hs
  | closer => exact countInv_stepCloser env c0 s t h hs
  | stop =>
    simp only [step, stepStop] at hs
    rw [List.get?_eq_getElem?] at hs
    split at hs
    · cases hs
    · rename_i w hw
      split at hs
      · simp only [Option.some.injEq] at hs
        subst hs
        apply countInv_setWorker env c0 s _ s.stopNext w { w with exitChan := 1 } h hw
        · simp [Session.setWorker]
        · simp [Session.setWorker, Worker.live]
        · simp [Session.setWorker]
        · simp [Session.setWorker]
        · simp [Session.setWorker]
        · simp [Worker.live]
        · simp [Session.setWorker, Int64.ofInt_val]
        · simp
        · simp [Worker.handled, Worker.pending]
      · cases hs
  | caller => exact countInv_stepCaller env c0 s t h hs

theorem countInv_run (env : Env) (c0 : Int) (sched : List Task) (s t : Session)
    (h : CountInv env c0 s) (hr : run env s sched = some t) : CountInv env c0 t := by
  induction sched generalizing s with
  | nil =>
    simp only [run, Option.some.injEq] at hr
    subst hr
    exact h
  | cons task sched ih =>
    simp only [run] at hr
    cases hs : step env s task with
    | none => rw [hs] at hr; cases hr
    | some s1 =>
      rw [hs] at hr
      exact ih s1 (countInv_step env c0 s s1 task h hs) hr

theorem countInv_start (env : Env) (a : AWSTools) (s0 : Session)
    (h : ReadFileStreamFromS3WithContext a = some s0) :
    CountInv env (a.GetLines env.fileName).val s0 := by
  unfold ReadFileStreamFromS3WithContext at h
  split at h
  · cases h
  · split at h
    · cases h
    · simp only [Option.some.injEq] at h
      subst h
      have e1 : ((List.replicate a.queueWorkers.toNat Worker.start).map Worker.live).sum =
          a.queueWorkers.toNat := by
        rw [sum_map_const _ _ 1 (by intro c hc; rw [List.eq_of_mem_replicate hc]; rfl)]
        simp
      have e2 : ((List.replicate a.queueWorkers.toNat Worker.start).map Worker.incs).sum = 0 := by
        rw [sum_map_const _ _ 0 (by intro c hc; rw [List.eq_of_mem_replicate hc]; rfl)]
        simp
      have e3 : ((List.replicate a.queueWorkers.toNat Worker.start).map
          Worker.handled).sum = 0 := by
        rw [sum_map_const _ _ 0 (by intro c hc; rw [List.eq_of_mem_replicate hc]; rfl)]
        simp
      have e4 : ((List.replicate a.queueWorkers.toNat Worker.start).map Worker.pending).sum =
          0 := by
        rw [sum_map_const _ _ 0 (by intro c hc; rw [List.eq_of_mem_replicate hc]; rfl)]
        simp
      refine ⟨?_, ?_, ?_, ?_, ?_⟩
      · simp only [e1, ReaderPc.live]; simp
      · intro hc; simp at hc
      · simp
      · simp only [e2]; simp [Int64.ofInt_val]
      · simp only [e3, e2, e4]

/-- Once `errorChan` is closed no worker is left and the count is the initial
count plus the number of lines handled, wrapped. -/
theorem countInv_closed (env : Env) (c0 : Int) (s : Session) (h : CountInv env c0 s)
    (hc : 0 < s.errCloses) :
    s.tools.GetLines env.fileName = Int64.ofInt (c0 + ((s.handled : Nat) : Int)) ∧
      (∀ w ∈ s.workers, w.pc = WorkerPc.finished) ∧ s.reader = ReaderPc.finished := by
  have h1 := h.closes
  have hfin : s.closer = CloserPc.finished := by
    by_contra hne
    simp only [hne, if_false] at h1
    omega
  have hwg : s.wg = 0 := h.closer (by rw [hfin]; simp)
  have h2 := h.wg
  have h3 := sum_map_le Worker.pending Worker.live s.workers Worker.pending_le_live
  have h4 := h.handled
  have hp : (s.workers.map Worker.pending).sum = 0 := by omega
  refine ⟨?_, ?_, ?_⟩
  · rw [h.count]
    unfold Session.handled
    rw [h4, hp, Nat.add_zero]
  · intro w hw
    have hl : (s.workers.map Worker.live).sum = 0 := by omega
    have := List.sum_eq_zero_iff.mp hl (w.live) (List.mem_map_of_mem _ hw)
    unfold Worker.live at this
    by_contra hne
    simp [hne] at this
  · have hl : s.reader.live = 0 := by omega
    unfold ReaderPc.live at hl
    by_contra hne
    simp [hne] at hl

/-! ## The session: a run to completion -/

theorem run_append (env : Env) (xs ys : List Task) (s : Session) :
    run env s (xs ++ ys) = (run env s xs).bind (fun t => run env t ys) := by
  induction xs generalizing s with
  | nil => rfl
  | cons task xs ih =>
    simp only [List.cons_append, run]
    cases step env s task with
    | none => rfl
    | some s1 => exact ih s1

/-- With one worker waiting at the `select`, an empty queue and a handler that
always succeeds, the reader and the worker can take turns until the reader
has left its loop: the worker has then handled the records of the reader loop. -/
theorem run_drain (env : Env) (hcb : ∀ calls line, env.cb calls line = none) (fuel : Nat)
    (data : List Byte) (s : Session) (w : Worker) (hfuel : data.length < fuel)
    (hreader : s.reader = ReaderPc.readString ⟨data, none⟩) (hq : s.queue = [])
    (hw : s.workers = [w]) (hpc : w.pc = WorkerPc.select) :
    ∃ recs sched t v, readLoop fuel ⟨data, none⟩ = some ⟨recs, none⟩ ∧
      run env s sched = some t ∧ t.reader = ReaderPc.closeQueue ∧ t.queue = [] ∧
      t.workers = [v] ∧ v.pc = WorkerPc.select ∧ v.invoked = w.invoked ++ recs ∧
      t.wg = s.wg ∧ t.closer = s.closer ∧ t.queueCloses = s.queueCloses ∧
      t.errCloses = s.errCloses ∧
      v.answers = w.answers ++ List.replicate recs.length none := by
  induction fuel generalizing data s w with
  | zero => omega
  | succ fuel ih =>
    cases hs : splitAtDelim newline data with
    | mk line rest =>
      cases rest with
      | none =>
        obtain ⟨e1, e2⟩ := splitAtDelim_none _ _ _ hs
        subst e1
        by_cases hl : line.length > 0
        · refine ⟨[line], [Task.reader, Task.worker 0, Task.worker 0, Task.worker 0], ?_⟩
          simp [readLoop, ReadString, hs, hl, run, step, stepReader, hreader, stepWorker, hw,
            recvQueue, hq, hpc, Session.setWorker, hcb]
        · refine ⟨[], [Task.reader], ?_⟩
          simp [readLoop, ReadString, hs, hl, run, step, stepReader, hreader, hw, hq, hpc]
      | some rest =>
        obtain ⟨body, e1, e2, e3⟩ := splitAtDelim_some _ _ _ _ hs
        have hlen : rest.length < fuel := by
          rw [e3, e1] at hfuel
          simp at hfuel
          omega
        have hstep : ∃ s4, run env s [Task.reader, Task.worker 0, Task.worker 0, Task.worker 0]
            = some s4 ∧ s4.reader = ReaderPc.readString ⟨rest, none⟩ ∧ s4.queue = [] ∧
            s4.workers = [{ w with received := w.received ++ [line],
                                   invoked := w.invoked ++ [line], incs := w.incs + 1,
                                   answers := w.answers ++ [none] }] ∧
            s4.wg = s.wg ∧ s4.closer = s.closer ∧ s4.queueCloses = s.queueCloses ∧
            s4.errCloses = s.errCloses := by
          simp [ReadString, hs, run, step, stepReader, hreader, stepWorker, hw,
            recvQueue, hq, hpc, Session.setWorker, hcb]
        obtain ⟨s4, hr4, g1, g2, g3, g4, g5, g6, g7⟩ := hstep
        obtain ⟨recs, sched, t, v, k1, k2, k3, k4, k5, k6, k7, k8, k9, k10, k11, k12⟩ :=
          ih rest s4 _ hlen g1 g2 g3 hpc
        refine ⟨line :: recs, [Task.reader, Task.worker 0, Task.worker 0, Task.worker 0] ++ sched,
          t, v, ?_, ?_, k3, k4, k5, k6, ?_, ?_, ?_, ?_, ?_, ?_⟩
        · simp [readLoop, ReadString, hs, k1]
        · rw [run_append, hr4]; exact k2
        · rw [k7]; simp
        · rw [k8, g4]
        · rw [k9, g5]
        · rw [k10, g6]
        · rw [k11, g7]
        · rw [k12]; simp [List.replicate_succ]

/-- A session with one worker and a handler that always succeeds can run to
completion on every stream whose reads succeed: `errorChan` is closed and the
worker has handled the records of the reader loop. -/
theorem run_complete (env : Env) (hcb : ∀ calls line, env.cb calls line = none) (a : AWSTools)
    (data : List Byte) (ha : a.queueWorkers = 1) (hb : 0 ≤ a.params.BufferLimit)
    (ho : env.object = Except.ok ⟨data, none⟩) :
    ∃ recs t, readerLoop ⟨data, none⟩ = some ⟨recs, none⟩ ∧ Reachable env a t ∧
      t.errCloses = 1 ∧ t.reader = ReaderPc.finished ∧ t.handled = recs.length := by
  have hinit : ∃ s0, ReadFileStreamFromS3WithContext a = some s0 ∧
      s0.reader = ReaderPc.getObject ∧ s0.queue = [] ∧ s0.workers = [Worker.start] ∧
      s0.wg = 2 ∧ s0.closer = CloserPc.wait ∧ s0.queueCloses = 0 ∧ s0.errCloses = 0 := by
    have hb2 : ¬ a.params.BufferLimit < 0 := by omega
    simp [ReadFileStreamFromS3WithContext, ha, hb2]
  obtain ⟨s0, hs0, i1, i2, i3, i4, i5, i6, i7⟩ := hinit
  have hopen : ∃ s1, run env s0 [Task.reader] = some s1 ∧
      s1.reader = ReaderPc.readString ⟨data, none⟩ ∧ s1.queue = [] ∧
      s1.workers = [Worker.start] ∧
      s1.wg = 2 ∧ s1.closer = CloserPc.wait ∧ s1.queueCloses = 0 ∧ s1.errCloses = 0 := by
    simp [run, step, stepReader, i1, ho, i2, i3, i4, i5, i6, i7]
  obtain ⟨s1, hs1, j1, j2, j3, j4, j5, j6, j7⟩ := hopen
  obtain ⟨recs, sched, t, v, k1, k2, k3, k4, k5, k6, k7, k8, k9, k10, k11, k12⟩ :=
    run_drain env hcb (data.length + 1) data s1 Worker.start (Nat.lt_succ_self _) j1 j2 j3 rfl
  have hend : ∃ u, run env t [Task.reader, Task.reader, Task.worker 0, Task.worker 0,
      Task.closer, Task.closer] = some u ∧ u.errCloses = 1 ∧ u.reader = ReaderPc.finished ∧
      u.workers = [{ v with pc := WorkerPc.finished, exit := some WorkerExit.queueClosed }] := by
    simp [run, step, stepReader, stepWorker, stepCloser, recvQueue, Session.setWorker,
      k3, k4, k5, k6, k8, k9, k10, k11, j4, j5, j6, j7]
  obtain ⟨u, hu, m1, m2, m3⟩ := hend
  refine ⟨recs, u, k1, ⟨s0, [Task.reader] ++ (sched ++ [Task.reader, Task.reader,
    Task.worker 0, Task.worker 0, Task.closer, Task.closer]), hs0, ?_⟩, m1, m2, ?_⟩
  · rw [run_append, hs1]
    simp only [Option.bind]
    rw [run_append, k2]
    exact hu
  · simp [Session.handled, m3, Worker.handled, k12, Worker.start]

theorem readLoop_newlines (n fuel : Nat) (h : n < fuel) :
    readLoop fuel ⟨List.replicate n newline, none⟩ =
      some ⟨List.replicate n [newline], none⟩ := by
  induction n generalizing fuel with
  | zero =>
    cases fuel with
    | zero => omega
    | succ fuel => rfl
  | succ n ih =>
    cases fuel with
    | zero => omega
    | succ fuel =>
      simp [readLoop, ReadString, List.replicate_succ, splitAtDelim, ih fuel (by omega)]

theorem readerLoop_newlines (n : Nat) :
    readerLoop ⟨List.replicate n newline, none⟩ = some ⟨List.replicate n [newline], none⟩ := by
  unfold readerLoop
  exact readLoop_newlines n _ (by simp)

/-- A session on `n` newlines with one worker can complete with `n` lines
handled; its count is then `n` wrapped into `int64`. -/
theorem run_newlines (n : Nat) :
    ∃ t, Reachable (envNewlines n) toolsOne t ∧ 0 < t.errCloses ∧
      t.handled = n ∧
      t.tools.GetLines (envNewlines n).fileName = Int64.ofInt ((n : Nat) : Int) := by
  obtain ⟨recs, t, hrecs, hr, hcl, _, hh⟩ :=
    run_complete (envNewlines n) (fun _ _ => rfl) toolsOne (List.replicate n newline) rfl
      (by decide) rfl
  rw [readerLoop_newlines] at hrecs
  injection hrecs with hrecs
  injection hrecs with hrecs
  have hh2 : t.handled = n := by rw [hh, ← hrecs, List.length_replicate]
  have hpos : 0 < t.errCloses := by omega
  obtain ⟨s0, sched, h0, hrun⟩ := hr
  have h := (countInv_closed (envNewlines n) _ t
    (countInv_run (envNewlines n) _ sched s0 t (countInv_start (envNewlines n) toolsOne s0 h0)
      hrun) hpos).1
  have h0v : (toolsOne.GetLines (envNewlines n).fileName).val = 0 := rfl
  rw [h0v, hh2, zero_add] at h
  exact ⟨t, ⟨s0, sched, h0, hrun⟩, hpos, hh2, h⟩

/-! ## Options and registry: further facts -/

theorem newAWSToolsParams_testOptions (region accessKeyID secretKey sessionToken : String)
    (bufferLimit workersRLS : Int) :
    newAWSToolsParams (testOptions region accessKeyID secretKey sessionToken bufferLimit
        workersRLS) =
      Except.ok
        { region := region, accessKeyID := accessKeyID, secretKey := secretKey,
          sessionToken := sessionToken,
          bufferLimit := if bufferLimit = 0 then 100 else bufferLimit,
          workersRLS := if workersRLS = 0 then 4 else workersRLS,
          endpoint := "", disableSSL := false } := by
  by_cases hb : bufferLimit = 0 <;> by_cases hw : workersRLS = 0 <;>
    simp [newAWSToolsParams, testOptions, applyOptions, WithRegion, WithAccessKeyID,
      WithSecretKey, WithSessionToken, WithBufferLimit, WithAmountWorkersRLS,
      AWSToolsParams.empty, hb, hw]

theorem calls_incLine_replicate (n : Nat) (a : AWSTools) (r : String) :
    (a.calls (List.replicate n (RegistryCall.incLine r))).GetLines r =
      Int64.ofInt ((a.GetLines r).val + (n : Int)) := by
  induction n generalizing a with
  | zero => simp [AWSTools.calls, Int64.ofInt_val]
  | succ n ih =>
    simp only [List.replicate_succ, AWSTools.calls, AWSTools.call]
    rw [ih, GetLines_IncLine_same]
    apply Int64.ext_val
    simp only [Int64.ofInt, Int64.succ_val]
    unfold wrapInt64
    push_cast
    omega

/-- Counts stay between 0 and the number of calls of `IncLine` made on the key,
as long as that number stays below `2^63`. -/
theorem calls_count_bounds (cs : List RegistryCall) (a : AWSTools) (r : String) (b : Nat)
    (h0 : 0 ≤ (a.GetLines r).val) (hb : (a.GetLines r).val ≤ b)
    (hlt : b + cs.count (RegistryCall.incLine r) < 2 ^ 63) :
    0 ≤ ((a.calls cs).GetLines r).val ∧
      ((a.calls cs).GetLines r).val ≤ b + cs.count (RegistryCall.incLine r) := by
  induction cs generalizing a b with
  | nil => simpa [AWSTools.calls] using ⟨h0, hb⟩
  | cons c cs ih =>
    simp only [AWSTools.calls]
    cases c with
    | incLine k =>
      by_cases hk : r = k
      · subst hk
        have hc : (RegistryCall.incLine r :: cs).count (RegistryCall.incLine r) =
            cs.count (RegistryCall.incLine r) + 1 := List.count_cons_self _ _
        rw [hc] at hlt ⊢
        have step : 0 ≤ ((a.IncLine r).GetLines r).val ∧
            ((a.IncLine r).GetLines r).val ≤ ((b + 1 : Nat) : Int) := by
          simp only [GetLines_IncLine_same, Int64.succ_val]
          rw [wrapInt64_of_inRange _ (by omega) (by omega)]
          push_cast
          omega
        have := ih (a.IncLine r) (b + 1) step.1 step.2 (by omega)
        refine ⟨this.1, ?_⟩
        have h2 := this.2
        simp only [AWSTools.call]
        push_cast at h2 ⊢
        omega
      · have hc : (RegistryCall.incLine k :: cs).count (RegistryCall.incLine r) =
            cs.count (RegistryCall.incLine r) :=
          List.count_cons_of_ne (fun e => hk (by cases e; rfl)) _
        rw [hc] at hlt ⊢
        exact ih (a.IncLine k) b (by rw [GetLines_IncLine_other _ _ _ hk]; exact h0)
          (by rw [GetLines_IncLine_other _ _ _ hk]; exact hb) hlt
    | getLines k =>
      have hc : (RegistryCall.getLines k :: cs).count (RegistryCall.incLine r) =
          cs.count (RegistryCall.incLine r) := List.count_cons_of_ne (by simp) _
      rw [hc] at hlt ⊢
      exact ih a b h0 hb hlt
    | resetLines k =>
      have hc : (RegistryCall.resetLines k :: cs).count (RegistryCall.incLine r) =
          cs.count (RegistryCall.incLine r) := List.count_cons_of_ne (by simp) _
      rw [hc] at hlt ⊢
      by_cases hk : r = k
      · subst hk
        exact ih (a.ResetLines r) b (by rw [GetLines_ResetLines_same]; decide)
          (by rw [GetLines_ResetLines_same]; simp [Int64.zero]) hlt
      · exact ih (a.ResetLines k) b (by rw [GetLines_ResetLines_other _ _ _ hk]; exact h0)
          (by rw [GetLines_ResetLines_other _ _ _ hk]; exact hb) hlt

/-! ## The reader goroutine on its own -/

theorem readLoop_fuel (f1 f2 : Nat) (body : Body) (h1 : body.data.length < f1)
    (h2 : body.data.length < f2) : readLoop f1 body = readLoop f2 body := by
  induction f1 generalizing f2 body with
  | zero => omega
  | succ f1 ih =>
    cases f2 with
    | zero => omega
    | succ f2 =>
      unfold readLoop
      simp only
      cases he : (ReadString body newline).err with
      | some e => cases e <;> rfl
      | none =>
        simp only
        obtain ⟨e1, _, b, e3, _⟩ := ReadString_ok body newline he
        have hlen : (ReadString body newline).rest.data.length < body.data.length := by
          have hl := congrArg List.length e1
          rw [e3] at hl
          simp at hl
          omega
        rw [ih f2 (ReadString body newline).rest (by omega) (by omega)]

/-- One iteration of the reader loop. -/
theorem readerLoop_unfold (body : Body) :
    readerLoop body =
      match (ReadString body newline).err with
      | some ReadError.eof =>
        if (ReadString body newline).line.length > 0 then
          some { records := [(ReadString body newline).line], err := none }
        else some { records := [], err := none }
      | some (ReadError.other msg) =>
        some { records := [], err := some ("Read line error: " ++ msg) }
      | none =>
        match readerLoop (ReadString body newline).rest with
        | none => none
        | some run => some { run with records := (ReadString body newline).line :: run.records } := by
  unfold readerLoop
  rw [readLoop]
  cases he : (ReadString body newline).err with
  | some e => cases e <;> rfl
  | none =>
    simp only
    obtain ⟨e1, _, b, e3, _⟩ := ReadString_ok body newline he
    have hlen : (ReadString body newline).rest.data.length < body.data.length := by
      have hl := congrArg List.length e1
      rw [e3] at hl
      simp at hl
      omega
    rw [readLoop_fuel body.data.length ((ReadString body newline).rest.data.length + 1) _
      hlen (Nat.lt_succ_self _)]

/-- The reader loop returns on every body. -/
theorem readLoop_total (fuel : Nat) (body : Body) (h : body.data.length < fuel) :
    ∃ run, readLoop fuel body = some run := by
  induction fuel generalizing body with
  | zero => omega
  | succ fuel ih =>
    unfold readLoop
    simp only
    cases he : (ReadString body newline).err with
    | some e =>
      cases e with
      | eof => simp only; split <;> exact ⟨_, rfl⟩
      | other msg => exact ⟨_, rfl⟩
    | none =>
      simp only
      obtain ⟨e1, _, b, e3, _⟩ := ReadString_ok body newline he
      have hlen : (ReadString body newline).rest.data.length < fuel := by
        have hl := congrArg List.length e1
        rw [e3] at hl
        simp at hl
        omega
      obtain ⟨run, hr⟩ := ih _ hlen
      rw [hr]
      exact ⟨_, rfl⟩

theorem readerLoop_total (body : Body) : ∃ run, readerLoop body = some run :=
  readLoop_total _ body (Nat.lt_succ_self _)

theorem readerTrace_total (env : Env) : ∃ run, readerTrace env = some run := by
  unfold readerTrace
  cases env.object with
  | error err => exact ⟨_, rfl⟩
  | ok body => exact readerLoop_total body

/-! ## The session: the reader follows its trace -/

/-- A step that leaves the reader where it is, or moves it without sending. -/
theorem traceInv_silent (env : Env) (s t : Session) (h : TraceInv env s)
    (hrest : t.reader.rest env = s.reader.rest env)
    (hcq : t.reader.closedQueue = s.reader.closedQueue)
    (henq : t.enqueued = s.enqueued) (hsent : t.errSent = s.errSent)
    (hrecv : t.errReceived = s.errReceived) (hchan : t.errorChan = s.errorChan)
    (hcl : t.queueCloses = s.queueCloses) : TraceInv env t := by
  refine ⟨?_, ?_, ?_⟩
  · rw [hrest, henq, hsent]; exact h.trace
  · rw [hrecv, hchan, hsent]; exact h.chan
  · rw [hcl, hcq]; exact h.closes

/-- A step in which the reader sends the record it has in hand. -/
theorem traceInv_enqueue (env : Env) (s t : Session) (line : Record) (h : TraceInv env s)
    (hpc : (∃ body, s.reader = ReaderPc.sendLine line body ∧
        t.reader = ReaderPc.readString body) ∨
      (s.reader = ReaderPc.sendLast line ∧ t.reader = ReaderPc.closeQueue))
    (henq : t.enqueued = s.enqueued ++ [line]) (hsent : t.errSent = s.errSent)
    (hrecv : t.errReceived = s.errReceived) (hchan : t.errorChan = s.errorChan)
    (hcl : t.queueCloses = s.queueCloses) : TraceInv env t := by
  obtain ⟨total, run, h1, h2, h3, h4⟩ := h.trace
  have hc := h.closes
  refine ⟨?_, ?_, ?_⟩
  · rcases hpc with ⟨body, hs, ht⟩ | ⟨hs, ht⟩
    · rw [hs] at h2
      simp only [ReaderPc.rest] at h2
      cases hb : readerLoop body with
      | none => rw [hb] at h2; cases h2
      | some run1 =>
        rw [hb] at h2
        simp only [Option.some.injEq] at h2
        subst h2
        refine ⟨total, run1, h1, by rw [ht]; exact hb, ?_, ?_⟩
        · rw [h3, henq]; simp
        · rw [h4, hsent]
    · rw [hs] at h2
      simp only [ReaderPc.rest, Option.some.injEq] at h2
      subst h2
      refine ⟨total, ⟨[], none⟩, h1, by rw [ht]; rfl, ?_, ?_⟩
      · rw [h3, henq]; simp
      · rw [h4, hsent]
  · rw [hrecv, hchan, hsent]; exact h.chan
  · rw [hcl, hc]
    rcases hpc with ⟨body, hs, ht⟩ | ⟨hs, ht⟩ <;> rw [hs, ht] <;> rfl

/-- A step in which the reader sends its error. -/
theorem traceInv_sendErr (env : Env) (s t : Session) (msg : String) (h : TraceInv env s)
    (hpc : s.reader = ReaderPc.sendOpenErr msg ∨ s.reader = ReaderPc.sendReadErr msg)
    (ht : t.reader = ReaderPc.closeQueue)
    (henq : t.enqueued = s.enqueued) (hsent : t.errSent = s.errSent ++ [msg])
    (hchan : (t.errorChan = s.errorChan ++ [msg] ∧ t.errReceived = s.errReceived) ∨
      (s.errorChan = [] ∧ t.errorChan = [] ∧ t.errReceived = s.errReceived ++ [msg]))
    (hcl : t.queueCloses = s.queueCloses) : TraceInv env t := by
  obtain ⟨total, run, h1, h2, h3, h4⟩ := h.trace
  have hc := h.closes
  have hch := h.chan
  have hrun : run = ⟨[], some msg⟩ := by
    rcases hpc with hs | hs <;> rw [hs] at h2 <;>
      simp only [ReaderPc.rest, Option.some.injEq] at h2 <;> exact h2.symm
  subst hrun
  refine ⟨⟨total, ⟨[], none⟩, h1, by rw [ht]; rfl, ?_, ?_⟩, ?_, ?_⟩
  · rw [h3, henq]
  · rw [h4, hsent]; simp
  · rcases hchan with ⟨c1, c2⟩ | ⟨c0, c1, c2⟩
    · rw [c1, c2, hsent, ← hch]; simp
    · rw [c1, c2, hsent, ← hch, c0]; simp
  · rw [hcl, hc, ht]
    rcases hpc with hs | hs <;> rw [hs] <;> rfl

theorem traceInv_stepReader (env : Env) (s t : Session) (h : TraceInv env s)
    (hs : stepReader env s = some t) : TraceInv env t := by
  unfold stepReader at hs
  split at hs
  · rename_i hpc
    split at hs <;> rename_i ho <;> simp only [Option.some.injEq] at hs <;> subst hs
    · exact traceInv_silent env s _ h (by simp [hpc, ReaderPc.rest, readerTrace, ho])
        (by simp [hpc, ReaderPc.closedQueue]) rfl rfl rfl rfl rfl
    · exact traceInv_silent env s _ h (by simp [hpc, ReaderPc.rest, readerTrace, ho])
        (by simp [hpc, ReaderPc.closedQueue]) rfl rfl rfl rfl rfl
  · rename_i msg hpc
    unfold sendError at hs
    split at hs
    · simp only [Option.some.injEq] at hs
      subst hs
      exact traceInv_sendErr env s _ msg h (Or.inl hpc) rfl rfl rfl (Or.inl ⟨rfl, rfl⟩) rfl
    · cases hs
  · rename_i body hpc
    simp only at hs
    have hu := readerLoop_unfold body
    split at hs
    · rename_i he
      rw [he] at hu
      simp only at hu
      split at hs <;> rename_i hl <;> simp only [Option.some.injEq] at hs <;> subst hs
      · exact traceInv_silent env s _ h (by simp [hpc, ReaderPc.rest, hu, hl])
          (by simp [hpc, ReaderPc.closedQueue]) rfl rfl rfl rfl rfl
      · exact traceInv_silent env s _ h (by simp [hpc, ReaderPc.rest, hu, hl])
          (by simp [hpc, ReaderPc.closedQueue]) rfl rfl rfl rfl rfl
    · rename_i msg he
      rw [he] at hu
      simp only [Option.some.injEq] at hs hu
      subst hs
      exact traceInv_silent env s _ h (by simp [hpc, ReaderPc.rest, hu])
        (by simp [hpc, ReaderPc.closedQueue]) rfl rfl rfl rfl rfl
    · rename_i he
      rw [he] at hu
      simp only [Option.some.injEq] at hs hu
      subst hs
      exact traceInv_silent env s _ h (by simp [hpc, ReaderPc.rest, hu])
        (by simp [hpc, ReaderPc.closedQueue]) rfl rfl rfl rfl rfl
  · rename_i line hpc
    unfold sendQueue at hs
    split at hs
    · simp only [Option.some.injEq] at hs
      subst hs
      exact traceInv_enqueue env s _ line h (Or.inr ⟨hpc, rfl⟩) rfl rfl rfl rfl rfl
    · cases hs
  · rename_i msg hpc
    unfold sendError at hs
    split at hs
    · simp only [Option.some.injEq] at hs
      subst hs
      exact traceInv_sendErr env s _ msg h (Or.inr hpc) rfl rfl rfl (Or.inl ⟨rfl, rfl⟩) rfl
    · cases hs
  · rename_i line body hpc
    unfold sendQueue at hs
    split at hs
    · simp only [Option.some.injEq] at hs
      subst hs
      exact traceInv_enqueue env s _ line h (Or.inl ⟨body, hpc, rfl⟩) rfl rfl rfl rfl rfl
    · cases hs
  · rename_i hpc
    simp only [Option.some.injEq] at hs
    subst hs
    have hc := h.closes
    rw [hpc] at hc
    refine ⟨?_, h.chan, ?_⟩
    · have ht := h.trace
      rw [hpc] at ht
      exact ht
    · simp only [hc]
      rfl
  · rename_i hpc
    split at hs
    · simp only [Option.some.injEq] at hs
      subst hs
      exact traceInv_silent env s _ h (by simp [hpc, ReaderPc.rest])
        (by simp [hpc, ReaderPc.closedQueue]) rfl rfl rfl rfl rfl
    · cases hs
  · cases hs

theorem traceInv_recvQueue (env : Env) (s s1 : Session) (r : Option Record)
    (h : TraceInv env s) (hs : recvQueue s = some (s1, r)) : TraceInv env s1 := by
  unfold recvQueue at hs
  split at hs
  · simp only [Option.some.injEq, Prod.mk.injEq] at hs
    rw [← hs.1]
    exact traceInv_silent env s _ h rfl rfl rfl rfl rfl rfl rfl
  · split at hs
    · rename_i line body hpc
      simp only [Option.some.injEq, Prod.mk.injEq] at hs
      rw [← hs.1]
      exact traceInv_enqueue env s _ line h (Or.inl ⟨body, hpc, rfl⟩) rfl rfl rfl rfl rfl
    · rename_i line hpc
      simp only [Option.some.injEq, Prod.mk.injEq] at hs
      rw [← hs.1]
      exact traceInv_enqueue env s _ line h (Or.inr ⟨hpc, rfl⟩) rfl rfl rfl rfl rfl
    · split at hs
      · simp only [Option.some.injEq, Prod.mk.injEq] at hs
        rw [← hs.1]
        exact h
      · cases hs

/-- Replacing a worker does not touch what the reader invariant speaks of. -/
theorem traceInv_setWorker (env : Env) (s : Session) (i : Nat) (w : Worker)
    (h : TraceInv env s) : TraceInv env (s.setWorker i w) :=
  traceInv_silent env s _ h rfl rfl rfl rfl rfl rfl rfl

theorem traceInv_step (env : Env) (s t : Session) (task : Task) (h : TraceInv env s)
    (hs : step env s task = some t) : TraceInv env t := by
  cases task with
  | reader => exact traceInv_stepReader env s t h hs
  | worker i =>
    simp only [step, stepWorker] at hs
    split at hs
    · cases hs
    · rename_i w hw
      split at hs
      · split at hs
        · cases hs
        · rename_i s1 line hr
          simp only [Option.some.injEq] at hs
          subst hs
          exact traceInv_setWorker env s1 i _ (traceInv_recvQueue env s s1 _ h hr)
        · rename_i s1 hr
          simp only [Option.some.injEq] at hs
          subst hs
          exact traceInv_setWorker env s1 i _ (traceInv_recvQueue env s s1 _ h hr)
      · split at hs <;> simp only [Option.some.injEq] at hs <;> subst hs <;>
          exact traceInv_silent env s _ h rfl rfl rfl rfl rfl rfl rfl
      · simp only [Option.some.injEq] at hs
        subst hs
        exact traceInv_silent env s _ h rfl rfl rfl rfl rfl rfl rfl
      · split at hs
        · simp only [Option.some.injEq] at hs
          subst hs
          exact traceInv_silent env s _ h rfl rfl rfl rfl rfl rfl rfl
        · cases hs
      · cases hs
  | workerExit i =>
    simp only [step, stepWorkerExit] at hs
    split at hs
    · cases hs
    · split at hs
      · simp only [Option.some.injEq] at hs
        subst hs
        exact traceInv_setWorker env s i _ h
      · cases hs
  | workerTimeout i =>
    simp only [step, stepWorkerTimeout] at hs
    split at hs
    · cases hs
    · split at hs
      · simp only [Option.some.injEq] at hs
        subst hs
        exact traceInv_setWorker env s i _ h
      · cases hs
  | closer =>
    simp only [step, stepCloser] at hs
    split at hs
    · split at hs
      · simp only [Option.some.injEq] at hs
        subst hs
        exact traceInv_silent env s _ h rfl rfl rfl rfl rfl rfl rfl
      · cases hs
    · simp only [Option.some.injEq] at hs
      subst hs
      exact traceInv_silent env s _ h rfl rfl rfl rfl rfl rfl rfl
    · cases hs
  | stop =>
    simp only [step, stepStop] at hs
    split at hs
    · cases hs
    · split at hs
      · simp only [Option.some.injEq] at hs
        subst hs
        exact traceInv_silent env s _ h rfl rfl rfl rfl rfl rfl rfl
      · cases hs
  | caller =>
    simp only [step, stepCaller] at hs
    split at hs
    · rename_i msg rest hch
      simp only [Option.some.injEq] at hs
      subst hs
      refine ⟨h.trace, ?_, h.closes⟩
      have := h.chan
      rw [hch] at this
      simpa using this
    · rename_i hch
      split at hs
      · rename_i msg hpc
        simp only [Option.some.injEq] at hs
        subst hs
        exact traceInv_sendErr env s _ msg h (Or.inl hpc) rfl rfl rfl
          (Or.inr ⟨hch, hch, rfl⟩) rfl
      · rename_i msg hpc
        simp only [Option.some.injEq] at hs
        subst hs
        exact traceInv_sendErr env s _ msg h (Or.inr hpc) rfl rfl rfl
          (Or.inr ⟨hch, hch, rfl⟩) rfl
      · cases hs

theorem traceInv_run (env : Env) (sched : List Task) (s t : Session) (h : TraceInv env s)
    (hr : run env s sched = some t) : TraceInv env t := by
  induction sched generalizing s with
  | nil =>
    simp only [run, Option.some.injEq] at hr
    subst hr
    exact h
  | cons task sched ih =>
    simp only [run] at hr
    cases hs : step env s task with
    | none => rw [hs] at hr; cases hr
    | some s1 =>
      rw [hs] at hr
      exact ih s1 (traceInv_step env s s1 task h hs) hr

theorem traceInv_start (env : Env) (a : AWSTools) (s0 : Session)
    (h : ReadFileStreamFromS3WithContext a = some s0) : TraceInv env s0 := by
  unfold ReadFileStreamFromS3WithContext at h
  split at h
  · cases h
  · split at h
    · cases h
    · simp only [Option.some.injEq] at h
      subst h
      obtain ⟨total, ht⟩ := readerTrace_total env
      exact ⟨⟨total, total, ht, ht, by simp, by simp⟩, rfl, rfl⟩

theorem traceInv_reachable (env : Env) (a : AWSTools) (s : Session)
    (h : Reachable env a s) : TraceInv env s := by
  obtain ⟨s0, sched, h0, hr⟩ := h
  exact traceInv_run env sched s0 s (traceInv_start env a s0 h0) hr

/-- What the invariant says in terms of the trace alone. -/
theorem traceInv_facts (env : Env) (s : Session) (total : ReaderRun)
    (ht : readerTrace env = some total) (h : TraceInv env s) :
    s.enqueued <+: total.records ∧ s.errSent <+: total.err.toList ∧
      (s.reader.leftLoop = true → s.enqueued = total.records ∧ s.errSent = total.err.toList) ∧
      s.queueCloses ≤ 1 ∧ (0 < s.queueCloses ↔ s.reader.closedQueue = true) := by
  obtain ⟨total1, run, h1, h2, h3, h4⟩ := h.trace
  rw [ht] at h1
  simp only [Option.some.injEq] at h1
  subst h1
  have hc := h.closes
  refine ⟨⟨_, h3.symm⟩, ⟨_, h4.symm⟩, ?_, ?_, ?_⟩
  · intro hl
    have : run = ⟨[], none⟩ := by
      cases hpc : s.reader <;> rw [hpc] at hl h2 <;>
        simp only [ReaderPc.leftLoop, ReaderPc.rest, Option.some.injEq] at hl h2 <;>
        first | exact h2.symm | cases hl
    subst this
    simp at h3 h4
    exact ⟨h3.symm, h4.symm⟩
  · rw [hc]; split <;> omega
  · rw [hc]; split <;> simp_all

/-! ## The session: the queue keeps the records -/

theorem recvQueue_counts (s s1 : Session) (r : Option Record)
    (h : recvQueue s = some (s1, r)) :
    (∀ x : Record, r.toList.count x + s1.queue.count x + s.enqueued.count x =
        s.queue.count x + s1.enqueued.count x) ∧
      s1.queue.length ≤ s.queue.length := by
  unfold recvQueue at h
  split at h
  · rename_i line rest hq
    simp only [Option.some.injEq, Prod.mk.injEq] at h
    obtain ⟨h1, h2⟩ := h
    subst h1 h2
    refine ⟨fun x => ?_, by simp [hq]⟩
    simp only [hq, Option.toList, List.count_cons, List.count_nil]
    omega
  · rename_i hq
    split at h
    · simp only [Option.some.injEq, Prod.mk.injEq] at h
      obtain ⟨h1, h2⟩ := h
      subst h1 h2
      refine ⟨fun x => ?_, by simp [hq]⟩
      simp only [hq, Option.toList, List.count_cons, List.count_nil, List.count_append]
      omega
    · simp only [Option.some.injEq, Prod.mk.injEq] at h
      obtain ⟨h1, h2⟩ := h
      subst h1 h2
      refine ⟨fun x => ?_, by simp [hq]⟩
      simp only [hq, Option.toList, List.count_cons, List.count_nil, List.count_append]
      omega
    · split at h
      · simp only [Option.some.injEq, Prod.mk.injEq] at h
        obtain ⟨h1, h2⟩ := h
        subst h1 h2
        exact ⟨fun x => by simp [Option.toList], Nat.le_refl _⟩
      · cases h

/-- The queue invariant after worker `i` is replaced. -/
theorem queueInv_setWorker (s t : Session) (i : Nat) (w v : Worker) (h : QueueInv s)
    (hw : s.workers[i]? = some w) (ht : t.workers = s.workers.set i v)
    (hcount : ∀ x : Record, v.received.count x + t.queue.count x + s.enqueued.count x =
      w.received.count x + s.queue.count x + t.enqueued.count x)
    (hv : v.received = v.invoked ++ v.inHand) (hb : t.queue.length ≤ t.queueCap) :
    QueueInv t := by
  refine ⟨fun x => ?_, ?_, hb⟩
  · have e := sum_map_set (fun w : Worker => w.received.count x) s.workers i w v hw
    have hc := h.counts x
    have hx := hcount x
    rw [ht]
    simp only at e
    omega
  · intro u hu
    rw [ht] at hu
    rcases List.mem_or_eq_of_mem_set hu with hu | hu
    · exact h.hand u hu
    · rw [hu]; exact hv

/-- The queue invariant after a step that leaves the workers alone. -/
theorem queueInv_frame (s t : Session) (h : QueueInv s) (ht : t.workers = s.workers)
    (hcount : ∀ x : Record, t.queue.count x + s.enqueued.count x =
      s.queue.count x + t.enqueued.count x)
    (hb : t.queue.length ≤ t.queueCap) : QueueInv t := by
  refine ⟨fun x => ?_, by rw [ht]; exact h.hand, hb⟩
  have hc := h.counts x
  have hx := hcount x
  rw [ht]
  omega

theorem queueInv_stepReader (env : Env) (s t : Session) (h : QueueInv s)
    (hs : stepReader env s = some t) : QueueInv t := by
  have hb := h.bound
  unfold stepReader at hs
  split at hs
  · split at hs <;> simp only [Option.some.injEq] at hs <;> subst hs <;>
      exact queueInv_frame s _ h rfl (fun _ => rfl) hb
  · unfold sendError at hs
    split at hs
    · simp only [Option.some.injEq] at hs
      subst hs
      exact queueInv_frame s _ h rfl (fun _ => rfl) hb
    · cases hs
  · simp only at hs
    split at hs
    · split at hs <;> simp only [Option.some.injEq] at hs <;> subst hs <;>
        exact queueInv_frame s _ h rfl (fun _ => rfl) hb
    · simp only [Option.some.injEq] at hs
      subst hs
      exact queueInv_frame s _ h rfl (fun _ => rfl) hb
    · simp only [Option.some.injEq] at hs
      subst hs
      exact queueInv_frame s _ h rfl (fun _ => rfl) hb
  · unfold sendQueue at hs
    split at hs
    · rename_i hlt
      simp only [Option.some.injEq] at hs
      subst hs
      exact queueInv_frame s _ h rfl (fun x => by simp [List.count_append]; omega)
        (by simp; omega)
    · cases hs
  · unfold sendError at hs
    split at hs
    · simp only [Option.some.injEq] at hs
      subst hs
      exact queueInv_frame s _ h rfl (fun _ => rfl) hb
    · cases hs
  · unfold sendQueue at hs
    split at hs
    · rename_i hlt
      simp only [Option.some.injEq] at hs
      subst hs
      exact queueInv_frame s _ h rfl (fun x => by simp [List.count_append]; omega)
        (by simp; omega)
    · cases hs
  · simp only [Option.some.injEq] at hs
    subst hs
    exact queueInv_frame s _ h rfl (fun _ => rfl) hb
  · split at hs
    · simp only [Option.some.injEq] at hs
      subst hs
      exact queueInv_frame s _ h rfl (fun _ => rfl) hb
    · cases hs
  · cases hs

theorem queueInv_stepWorker (env : Env) (s t : Session) (i : Nat) (h : QueueInv s)
    (hs : stepWorker env s i = some t) : QueueInv t := by
  have hb := h.bound
  unfold stepWorker at hs
  rw [List.get?_eq_getElem?] at hs
  split at hs
  · cases hs
  · rename_i w hw
    have hwm : w ∈ s.workers := List.getElem?_mem hw
    have hhand := h.hand w hwm
    split at hs
    · rename_i hpc
      have hin : w.inHand = [] := by simp [Worker.inHand, hpc]
      split at hs
      · cases hs
      · rename_i s1 line hr
        obtain ⟨f1, _, _, _, _, _, _, _, _, _, f11, _⟩ := recvQueue_frame s s1 _ hr
        obtain ⟨c1, c2⟩ := recvQueue_counts s s1 _ hr
        simp only [Option.some.injEq] at hs
        subst hs
        apply queueInv_setWorker s _ i w
          { w with pc := WorkerPc.callback line, received := w.received ++ [line] } h hw
        · simp [Session.setWorker, f1]
        · intro x
          have := c1 x
          simp only [Session.setWorker, List.count_append, Option.toList] at this ⊢
          omega
        · simp [Worker.inHand, hhand, hpc]
        · simp only [Session.setWorker, f11]; omega
      · rename_i s1 hr
        obtain ⟨f1, _, _, _, _, _, _, _, _, _, f11, _⟩ := recvQueue_frame s s1 _ hr
        obtain ⟨c1, c2⟩ := recvQueue_counts s s1 _ hr
        simp only [Option.some.injEq] at hs
        subst hs
        apply queueInv_setWorker s _ i w
          { w with pc := WorkerPc.wgDone, exit := some WorkerExit.queueClosed } h hw
        · simp [Session.setWorker, f1]
        · intro x
          have := c1 x
          simp only [Session.setWorker, Option.toList, List.count_nil] at this ⊢
          omega
        · simp [Worker.inHand, hhand, hpc]
        · simp only [Session.setWorker, f11]; omega
    · rename_i line hpc
      have hin : w.inHand = [line] := by simp [Worker.inHand, hpc]
      split at hs
      · rename_i err hcb
        simp only [Option.some.injEq] at hs
        subst hs
        apply queueInv_setWorker s _ i w
          { w with pc := WorkerPc.wgDone, exit := some (WorkerExit.handlerError err),
                   invoked := w.invoked ++ [line],
                   answers := w.answers ++ [some err] } h hw
        · simp [Session.setWorker]
        · intro x; simp [Session.setWorker]
        · simp [Worker.inHand, hhand, hpc]
        · simpa [Session.setWorker] using hb
      · rename_i hcb
        simp only [Option.some.injEq] at hs
        subst hs
        apply queueInv_setWorker s _ i w
          { w with pc := WorkerPc.incLine, invoked := w.invoked ++ [line],
                   answers := w.answers ++ [none] } h hw
        · simp [Session.setWorker]
        · intro x; simp [Session.setWorker]
        · simp [Worker.inHand, hhand, hpc]
        · simpa [Session.setWorker] using hb
    · rename_i hpc
      have hin : w.inHand = [] := by simp [Worker.inHand, hpc]
      simp only [Option.some.injEq] at hs
      subst hs
      apply queueInv_setWorker s _ i w
        { w with pc := WorkerPc.select, incs := w.incs + 1 } h hw
      · simp [Session.setWorker]
      · intro x; simp [Session.setWorker]
      · simp [Worker.inHand, hhand, hpc]
      · simpa [Session.setWorker] using hb
    · rename_i hpc
      have hin : w.inHand = [] := by simp [Worker.inHand, hpc]
      split at hs
      · simp only [Option.some.injEq] at hs
        subst hs
        apply queueInv_setWorker s _ i w { w with pc := WorkerPc.finished } h hw
        · simp [Session.setWorker]
        · intro x; simp [Session.setWorker]
        · simp [Worker.inHand, hhand, hpc]
        · simpa [Session.setWorker] using hb
      · cases hs
    · cases hs

theorem queueInv_step (env : Env) (s t : Session) (task : Task) (h : QueueInv s)
    (hs : step env s task = some t) : QueueInv t := by
  have hb := h.bound
  cases task with
  | reader => exact queueInv_stepReader env s t h hs
  | worker i => exact queueInv_stepWorker env s t i h hs
  | workerExit i =>
    simp only [step, stepWorkerExit] at hs
    rw [List.get?_eq_getElem?] at hs
    split at hs
    · cases hs
    · rename_i w hw
      have hhand := h.hand w (List.getElem?_mem hw)
      split at hs
      · rename_i hc
        have hpc := hc.1
        simp only [Option.some.injEq] at hs
        subst hs
        apply queueInv_setWorker s _ i w
          { w with pc := WorkerPc.wgDone, exitChan := w.exitChan - 1,
                   exit := some WorkerExit.exitSignal } h hw
        · simp [Session.setWorker]
        · intro x; simp [Session.setWorker]
        · simp [Worker.inHand, hhand, hpc]
        · simpa [Session.setWorker] using hb
      · cases hs
  | workerTimeout i =>
    simp only [step, stepWorkerTimeout] at hs
    rw [List.get?_eq_getElem?] at hs
    split at hs
    · cases hs
    · rename_i w hw
      have hhand := h.hand w (List.getElem?_mem hw)
      split at hs
      · rename_i hc
        have hpc := hc.1
        simp only [Option.some.injEq] at hs
        subst hs
        apply queueInv_setWorker s _ i w
          { w with pc := WorkerPc.wgDone, exit := some WorkerExit.timeout } h hw
        · simp [Session.setWorker]
        · intro x; simp [Session.setWorker]
        · simp [Worker.inHand, hhand, hpc]
        · simpa [Session.setWorker] using hb
      · cases hs
  | closer =>
    simp only [step, stepCloser] at hs
    split at hs
    · split at hs
      · simp only [Option.some.injEq] at hs
        subst hs
        exact queueInv_frame s _ h rfl (fun _ => rfl) hb
      · cases hs
    · simp only [Option.some.injEq] at hs
      subst hs
      exact queueInv_frame s _ h rfl (fun _ => rfl) hb
    · cases hs
  | stop =>
    simp only [step, stepStop] at hs
    rw [List.get?_eq_getElem?] at hs
    split at hs
    · cases hs
    · rename_i w hw
      have hhand := h.hand w (List.getElem?_mem hw)
      split at hs
      · simp only [Option.some.injEq] at hs
        subst hs
        apply queueInv_setWorker s _ s.stopNext w { w with exitChan := 1 } h hw
        · simp [Session.setWorker]
        · intro x; simp [Session.setWorker]
        · simpa [Worker.inHand] using hhand
        · simpa [Session.setWorker] using hb
      · cases hs
  | caller =>
    simp only [step, stepCaller] at hs
    split at hs
    · simp only [Option.some.injEq] at hs
      subst hs
      exact queueInv_frame s _ h rfl (fun _ => rfl) hb
    · split at hs
      · simp only [Option.some.injEq] at hs
        subst hs
        exact queueInv_frame s _ h rfl (fun _ => rfl) hb
      · simp only [Option.some.injEq] at hs
        subst hs
        exact queueInv_frame s _ h rfl (fun _ => rfl) hb
      · cases hs

theorem queueInv_run (env : Env) (sched : List Task) (s t : Session) (h : QueueInv s)
    (hr : run env s sched = some t) : QueueInv t := by
  induction sched generalizing s with
  | nil =>
    simp only [run, Option.some.injEq] at hr
    subst hr
    exact h
  | cons task sched ih =>
    simp only [run] at hr
    cases hs : step env s task with
    | none => rw [hs] at hr; cases hr
    | some s1 =>
      rw [hs] at hr
      exact ih s1 (queueInv_step env s s1 task h hs) hr

theorem queueInv_start (a : AWSTools) (s0 : Session)
    (h : ReadFileStreamFromS3WithContext a = some s0) : QueueInv s0 := by
  unfold ReadFileStreamFromS3WithContext at h
  split at h
  · cases h
  · split at h
    · cases h
    · simp only [Option.some.injEq] at h
      subst h
      refine ⟨fun x => ?_, ?_, by simp⟩
      · rw [sum_map_const _ _ 0 (by intro c hc; rw [List.eq_of_mem_replicate hc]; rfl)]
        simp
      · intro w hw
        rw [List.eq_of_mem_replicate hw]
        rfl

theorem queueInv_reachable (env : Env) (a : AWSTools) (s : Session)
    (h : Reachable env a s) : QueueInv s := by
  obtain ⟨s0, sched, h0, hr⟩ := h
  exact queueInv_run env sched s0 s (queueInv_start a s0 h0) hr

/-- No step changes the capacities of the channels or the number of workers. -/
theorem step_shape (env : Env) (s t : Session) (task : Task)
    (hs : step env s task = some t) :
    t.queueCap = s.queueCap ∧ t.errCap = s.errCap ∧ t.workers.length = s.workers.length := by
  cases task with
  | worker i =>
    simp only [step, stepWorker] at hs
    split at hs
    · cases hs
    · split at hs
      · split at hs
        · cases hs
        · rename_i s1 line hr
          obtain ⟨f1, _, _, _, _, _, _, _, _, _, f11, f12, _⟩ := recvQueue_frame s s1 _ hr
          simp only [Option.some.injEq] at hs
          subst hs
          simp [Session.setWorker, f1, f11, f12]
        · rename_i s1 hr
          obtain ⟨f1, _, _, _, _, _, _, _, _, _, f11, f12, _⟩ := recvQueue_frame s s1 _ hr
          simp only [Option.some.injEq] at hs
          subst hs
          simp [Session.setWorker, f1, f11, f12]
      · split at hs <;> simp only [Option.some.injEq] at hs <;> subst hs <;>
          simp [Session.setWorker]
      · simp only [Option.some.injEq] at hs
        subst hs
        simp [Session.setWorker]
      · split at hs
        · simp only [Option.some.injEq] at hs
          subst hs
          simp [Session.setWorker]
        · cases hs
      · cases hs
  | reader =>
    simp only [step, stepReader, sendQueue, sendError] at hs
    repeat' split at hs
    all_goals first
      | (simp only [Option.some.injEq] at hs; subst hs; simp)
      | cases hs
  | workerExit i =>
    simp only [step, stepWorkerExit] at hs
    repeat' split at hs
    all_goals first
      | (simp only [Option.some.injEq] at hs; subst hs; simp [Session.setWorker])
      | cases hs
  | workerTimeout i =>
    simp only [step, stepWorkerTimeout] at hs
    repeat' split at hs
    all_goals first
      | (simp only [Option.some.injEq] at hs; subst hs; simp [Session.setWorker])
      | cases hs
  | closer =>
    simp only [step, stepCloser] at hs
    repeat' split at hs
    all_goals first
      | (simp only [Option.some.injEq] at hs; subst hs; simp)
      | cases hs
  | stop =>
    simp only [step, stepStop] at hs
    repeat' split at hs
    all_goals first
      | (simp only [Option.some.injEq] at hs; subst hs; simp [Session.setWorker])
      | cases hs
  | caller =>
    simp only [step, stepCaller] at hs
    repeat' split at hs
    all_goals first
      | (simp only [Option.some.injEq] at hs; subst hs; simp)
      | cases hs

theorem shapeInv_run (env : Env) (a : AWSTools) (sched : List Task) (s t : Session)
    (h : ShapeInv a s) (hr : run env s sched = some t) : ShapeInv a t := by
  induction sched generalizing s with
  | nil =>
    simp only [run, Option.some.injEq] at hr
    subst hr
    exact h
  | cons task sched ih =>
    simp only [run] at hr
    cases hs : step env s task with
    | none => rw [hs] at hr; cases hr
    | some s1 =>
      rw [hs] at hr
      obtain ⟨e1, e2, e3⟩ := step_shape env s s1 task hs
      exact ih s1 ⟨by rw [e1]; exact h.queueCap, by rw [e2]; exact h.errCap,
        by rw [e3]; exact h.workers⟩ hr

theorem shapeInv_start (a : AWSTools) (s0 : Session)
    (h : ReadFileStreamFromS3WithContext a = some s0) : ShapeInv a s0 := by
  unfold ReadFileStreamFromS3WithContext at h
  split at h
  · cases h
  · split at h
    · cases h
    · simp only [Option.some.injEq] at h
      subst h
      exact ⟨rfl, rfl, by simp⟩

theorem shapeInv_reachable (env : Env) (a : AWSTools) (s : Session)
    (h : Reachable env a s) : ShapeInv a s := by
  obtain ⟨s0, sched, h0, hr⟩ := h
  exact shapeInv_run env a sched s0 s (shapeInv_start a s0 h0) hr

theorem countInv_reachable (env : Env) (a : AWSTools) (s : Session)
    (h : Reachable env a s) : CountInv env (a.GetLines env.fileName).val s := by
  obtain ⟨s0, sched, h0, hr⟩ := h
  exact countInv_run env _ sched s0 s (countInv_start env a s0 h0) hr

theorem reachable_step (env : Env) (a : AWSTools) (s t : Session) (task : Task)
    (h : Reachable env a s) (hs : step env s task = some t) : Reachable env a t := by
  obtain ⟨s0, sched, h0, hr⟩ := h
  refine ⟨s0, sched ++ [task], h0, ?_⟩
  rw [run_append, hr]
  simp [run, hs]

theorem reachable_run (env : Env) (a : AWSTools) (sched : List Task) (s t : Session)
    (h : Reachable env a s) (hr : run env s sched = some t) : Reachable env a t := by
  obtain ⟨s0, sched0, h0, hr0⟩ := h
  refine ⟨s0, sched0 ++ sched, h0, ?_⟩
  rw [run_append, hr0]
  exact hr

/-! ## The session: every step brings the end nearer -/

theorem recvQueue_weight (env : Env) (s s1 : Session) (r : Option Record)
    (h : recvQueue s = some (s1, r)) :
    s1.reader.weight env + 3 * s1.queue.length + 3 * r.toList.length ≤
      s.reader.weight env + 3 * s.queue.length := by
  unfold recvQueue at h
  split at h
  · rename_i line rest hq
    simp only [Option.some.injEq, Prod.mk.injEq] at h
    obtain ⟨h1, h2⟩ := h
    subst h1 h2
    simp [hq, Option.toList]
    omega
  · rename_i hq
    split at h
    · rename_i line body hpc
      simp only [Option.some.injEq, Prod.mk.injEq] at h
      obtain ⟨h1, h2⟩ := h
      subst h1 h2
      simp [hq, hpc, Option.toList, ReaderPc.weight]
    · rename_i line hpc
      simp only [Option.some.injEq, Prod.mk.injEq] at h
      obtain ⟨h1, h2⟩ := h
      subst h1 h2
      simp [hq, hpc, Option.toList, ReaderPc.weight]
    · split at h
      · simp only [Option.some.injEq, Prod.mk.injEq] at h
        obtain ⟨h1, h2⟩ := h
        subst h1 h2
        simp [Option.toList]
      · cases h

/-- The weight after worker `i` is replaced. -/
theorem weight_setWorker (env : Env) (s t : Session) (i : Nat) (w v : Worker)
    (hw : s.workers[i]? = some w) (ht : t.workers = s.workers.set i v)
    (hcloser : t.closer = s.closer) (hchan : t.errorChan = s.errorChan)
    (hlt : t.reader.weight env + 3 * t.queue.length + v.pc.weight +
        (t.workers.length - t.stopNext) <
      s.reader.weight env + 3 * s.queue.length + w.pc.weight +
        (s.workers.length - s.stopNext)) :
    t.weight env < s.weight env := by
  have e := sum_map_set (fun w : Worker => w.pc.weight) s.workers i w v hw
  simp only at e
  unfold Session.weight
  rw [hcloser, hchan]
  rw [ht] at hlt ⊢
  omega

theorem stepWorker_weight (env : Env) (s t : Session) (i : Nat)
    (hs : stepWorker env s i = some t) : t.weight env < s.weight env := by
  unfold stepWorker at hs
  rw [List.get?_eq_getElem?] at hs
  split at hs
  · cases hs
  · rename_i w hw
    split at hs
    · rename_i hpc
      split at hs
      · cases hs
      · rename_i s1 line hr
        obtain ⟨f1, _, _, f4, _, _, _, f8, _, _, _, _, f13⟩ := recvQueue_frame s s1 _ hr
        have hm := recvQueue_weight env s s1 _ hr
        simp only [Option.some.injEq] at hs
        subst hs
        apply weight_setWorker env s _ i w
          { w with pc := WorkerPc.callback line, received := w.received ++ [line] } hw
        · simp [Session.setWorker, f1]
        · simpa [Session.setWorker] using f4
        · simpa [Session.setWorker] using f8
        · simp only [Session.setWorker, List.length_set, f1, f13, hpc, WorkerPc.weight,
            Option.toList, List.length_singleton] at hm ⊢
          omega
      · rename_i s1 hr
        obtain ⟨f1, _, _, f4, _, _, _, f8, _, _, _, _, f13⟩ := recvQueue_frame s s1 _ hr
        have hm := recvQueue_weight env s s1 _ hr
        simp only [Option.some.injEq] at hs
        subst hs
        apply weight_setWorker env s _ i w
          { w with pc := WorkerPc.wgDone, exit := some WorkerExit.queueClosed } hw
        · simp [Session.setWorker, f1]
        · simpa [Session.setWorker] using f4
        · simpa [Session.setWorker] using f8
        · simp only [Session.setWorker, List.length_set, f1, f13, hpc, WorkerPc.weight,
            Option.toList, List.length_nil] at hm ⊢
          omega
    · rename_i line hpc
      split at hs
      · rename_i err hcb
        simp only [Option.some.injEq] at hs
        subst hs
        apply weight_setWorker env s _ i w
          { w with pc := WorkerPc.wgDone, exit := some (WorkerExit.handlerError err),
                   invoked := w.invoked ++ [line],
                   answers := w.answers ++ [some err] } hw
        · simp [Session.setWorker]
        · simp [Session.setWorker]
        · simp [Session.setWorker]
        · simp only [Session.setWorker, List.length_set, hpc, WorkerPc.weight]
          omega
      · rename_i hcb
        simp only [Option.some.injEq] at hs
        subst hs
        apply weight_setWorker env s _ i w
          { w with pc := WorkerPc.incLine, invoked := w.invoked ++ [line],
                   answers := w.answers ++ [none] } hw
        · simp [Session.setWorker]
        · simp [Session.setWorker]
        · simp [Session.setWorker]
        · simp only [Session.setWorker, List.length_set, hpc, WorkerPc.weight]
          omega
    · rename_i hpc
      simp only [Option.some.injEq] at hs
      subst hs
      apply weight_setWorker env s _ i w
        { w with pc := WorkerPc.select, incs := w.incs + 1 } hw
      · simp [Session.setWorker]
      · simp [Session.setWorker]
      · simp [Session.setWorker]
      · simp only [Session.setWorker, List.length_set, hpc, WorkerPc.weight]
        omega
    · rename_i hpc
      split at hs
      · simp only [Option.some.injEq] at hs
        subst hs
        apply weight_setWorker env s _ i w { w with pc := WorkerPc.finished } hw
        · simp [Session.setWorker]
        · simp [Session.setWorker]
        · simp [Session.setWorker]
        · simp only [Session.setWorker, List.length_set, hpc, WorkerPc.weight]
          omega
      · cases hs
    · cases hs

/-- The weight after a step that leaves the workers alone. -/
theorem weight_frame (env : Env) (s t : Session) (ht : t.workers = s.workers)
    (hstop : t.stopNext = s.stopNext)
    (hlt : t.reader.weight env + 3 * t.queue.length + t.closer.weight + t.errorChan.length <
      s.reader.weight env + 3 * s.queue.length + s.closer.weight + s.errorChan.length) :
    t.weight env < s.weight env := by
  unfold Session.weight
  rw [ht, hstop]
  omega

theorem stepReader_weight (env : Env) (s t : Session) (hs : stepReader env s = some t) :
    t.weight env < s.weight env := by
  unfold stepReader at hs
  split at hs
  · rename_i hpc
    split at hs <;> rename_i ho <;> simp only [Option.some.injEq] at hs <;> subst hs <;>
      exact weight_frame env s _ rfl rfl (by simp [hpc, ReaderPc.weight, ho])
  · rename_i msg hpc
    unfold sendError at hs
    split at hs
    · simp only [Option.some.injEq] at hs
      subst hs
      exact weight_frame env s _ rfl rfl (by simp [hpc, ReaderPc.weight]; omega)
    · cases hs
  · rename_i body hpc
    simp only at hs
    split at hs
    · split at hs <;> simp only [Option.some.injEq] at hs <;> subst hs <;>
        exact weight_frame env s _ rfl rfl (by simp [hpc, ReaderPc.weight])
    · simp only [Option.some.injEq] at hs
      subst hs
      exact weight_frame env s _ rfl rfl (by simp [hpc, ReaderPc.weight])
    · rename_i he
      obtain ⟨e1, _, b, e3, _⟩ := ReadString_ok body newline he
      have hlen : (ReadString body newline).rest.data.length < body.data.length := by
        have hl := congrArg List.length e1
        rw [e3] at hl
        simp at hl
        omega
      simp only [Option.some.injEq] at hs
      subst hs
      exact weight_frame env s _ rfl rfl (by simp [hpc, ReaderPc.weight]; omega)
  · rename_i line hpc
    unfold sendQueue at hs
    split at hs
    · simp only [Option.some.injEq] at hs
      subst hs
      exact weight_frame env s _ rfl rfl (by simp [hpc, ReaderPc.weight]; omega)
    · cases hs
  · rename_i msg hpc
    unfold sendError at hs
    split at hs
    · simp only [Option.some.injEq] at hs
      subst hs
      exact weight_frame env s _ rfl rfl (by simp [hpc, ReaderPc.weight]; omega)
    · cases hs
  · rename_i line body hpc
    unfold sendQueue at hs
    split at hs
    · simp only [Option.some.injEq] at hs
      subst hs
      exact weight_frame env s _ rfl rfl (by simp [hpc, ReaderPc.weight]; omega)
    · cases hs
  · rename_i hpc
    simp only [Option.some.injEq] at hs
    subst hs
    exact weight_frame env s _ rfl rfl (by simp [hpc, ReaderPc.weight])
  · rename_i hpc
    split at hs
    · simp only [Option.some.injEq] at hs
      subst hs
      exact weight_frame env s _ rfl rfl (by simp [hpc, ReaderPc.weight])
    · cases hs
  · cases hs

/-- Every step of a session makes its weight smaller. -/
theorem step_weight (env : Env) (s t : Session) (task : Task)
    (hs : step env s task = some t) : t.weight env < s.weight env := by
  cases task with
  | reader => exact stepReader_weight env s t hs
  | worker i => exact stepWorker_weight env s t i hs
  | workerExit i =>
    simp only [step, stepWorkerExit] at hs
    rw [List.get?_eq_getElem?] at hs
    split at hs
    · cases hs
    · rename_i w hw
      split at hs
      · rename_i hc
        simp only [Option.some.injEq] at hs
        subst hs
        apply weight_setWorker env s _ i w
          { w with pc := WorkerPc.wgDone, exitChan := w.exitChan - 1,
                   exit := some WorkerExit.exitSignal } hw
        · simp [Session.setWorker]
        · simp [Session.setWorker]
        · simp [Session.setWorker]
        · simp only [Session.setWorker, List.length_set, hc.1, WorkerPc.weight]
          omega
      · cases hs
  | workerTimeout i =>
    simp only [step, stepWorkerTimeout] at hs
    rw [List.get?_eq_getElem?] at hs
    split at hs
    · cases hs
    · rename_i w hw
      split at hs
      · rename_i hc
        simp only [Option.some.injEq] at hs
        subst hs
        apply weight_setWorker env s _ i w
          { w with pc := WorkerPc.wgDone, exit := some WorkerExit.timeout } hw
        · simp [Session.setWorker]
        · simp [Session.setWorker]
        · simp [Session.setWorker]
        · simp only [Session.setWorker, List.length_set, hc.1, WorkerPc.weight]
          omega
      · cases hs
  | closer =>
    simp only [step, stepCloser] at hs
    split at hs
    · rename_i hpc
      split at hs
      · simp only [Option.some.injEq] at hs
        subst hs
        exact weight_frame env s _ rfl rfl (by simp [hpc, CloserPc.weight])
      · cases hs
    · rename_i hpc
      simp only [Option.some.injEq] at hs
      subst hs
      exact weight_frame env s _ rfl rfl (by simp [hpc, CloserPc.weight])
    · cases hs
  | stop =>
    simp only [step, stepStop] at hs
    rw [List.get?_eq_getElem?] at hs
    split at hs
    · cases hs
    · rename_i w hw
      have hlt : s.stopNext < s.workers.length := by
        by_contra hge
        rw [List.getElem?_eq_none (by omega)] at hw
        cases hw
      split at hs
      · simp only [Option.some.injEq] at hs
        subst hs
        apply weight_setWorker env s _ s.stopNext w { w with exitChan := 1 } hw
        · simp [Session.setWorker]
        · simp [Session.setWorker]
        · simp [Session.setWorker]
        · simp only [Session.setWorker, List.length_set]
          omega
      · cases hs
  | caller =>
    simp only [step, stepCaller] at hs
    split at hs
    · rename_i msg rest hch
      simp only [Option.some.injEq] at hs
      subst hs
      exact weight_frame env s _ rfl rfl (by simp [hch])
    · rename_i hch
      split at hs
      · rename_i msg hpc
        simp only [Option.some.injEq] at hs
        subst hs
        exact weight_frame env s _ rfl rfl (by simp [hpc, ReaderPc.weight])
      · rename_i msg hpc
        simp only [Option.some.injEq] at hs
        subst hs
        exact weight_frame env s _ rfl rfl (by simp [hpc, ReaderPc.weight])
      · cases hs

/-- A schedule is no longer than the weight of the state it starts from. -/
theorem run_length_le (env : Env) (sched : List Task) (s t : Session)
    (hr : run env s sched = some t) : sched.length + t.weight env ≤ s.weight env := by
  induction sched generalizing s with
  | nil =>
    simp only [run, Option.some.injEq] at hr
    subst hr
    simp
  | cons task sched ih =>
    simp only [run] at hr
    cases hs : step env s task with
    | none => rw [hs] at hr; cases hr
    | some s1 =>
      rw [hs] at hr
      have h1 := step_weight env s s1 task hs
      have h2 := ih s1 hr
      simp only [List.length_cons]
      omega

/-! ## The session: who can take a step -/

theorem weight_le_sum {α : Type} (f : α → Nat) (l : List α) (i : Nat) (a : α)
    (h : l[i]? = some a) : f a ≤ (l.map f).sum := by
  induction l generalizing i with
  | nil => simp at h
  | cons x xs ih =>
    cases i with
    | zero =>
      simp only [List.getElem?_cons_zero, Option.some.injEq] at h
      subst h
      simp
    | succ i =>
      simp only [List.getElem?_cons_succ] at h
      have := ih i h
      simp only [List.map_cons, List.sum_cons]
      omega

theorem recvQueue_none (s : Session) (h : recvQueue s = none) :
    s.queue = [] ∧ s.queueCloses = 0 ∧ (∀ line body, s.reader ≠ ReaderPc.sendLine line body) ∧
      (∀ line, s.reader ≠ ReaderPc.sendLast line) := by
  unfold recvQueue at h
  split at h
  · cases h
  · rename_i hq
    split at h
    · cases h
    · cases h
    · rename_i h1 h2
      split at h
      · cases h
      · rename_i hc
        exact ⟨hq, by omega, fun l b e => h1 l b e, fun l e => h2 l e⟩

/-- A worker with a record in hand, or about to leave, can take its step. -/
theorem stepWorker_busy (env : Env) (c0 : Int) (s : Session) (i : Nat) (w : Worker)
    (hc : CountInv env c0 s) (hw : s.workers[i]? = some w)
    (hpc : w.pc ≠ WorkerPc.select) (hfin : w.pc ≠ WorkerPc.finished) :
    ∃ t, stepWorker env s i = some t := by
  have hwg : 0 < s.wg := by
    have h1 := weight_le_sum Worker.live s.workers i w hw
    have h2 := hc.wg
    have h3 : w.live = 1 := by simp [Worker.live, hfin]
    omega
  unfold stepWorker
  rw [List.get?_eq_getElem?, hw]
  simp only
  cases hp : w.pc with
  | select => exact absurd hp hpc
  | callback line =>
    simp only
    cases env.cb s.calls line <;> exact ⟨_, rfl⟩
  | incLine => exact ⟨_, rfl⟩
  | wgDone => simp only [hwg, if_true]; exact ⟨_, rfl⟩
  | finished => exact absurd hp hfin

/-- A worker at the `select` can take the receive when the receive is ready. -/
theorem stepWorker_select (env : Env) (s : Session) (i : Nat) (w : Worker)
    (hw : s.workers[i]? = some w) (hpc : w.pc = WorkerPc.select)
    (hr : recvQueue s ≠ none) : ∃ t, stepWorker env s i = some t := by
  unfold stepWorker
  rw [List.get?_eq_getElem?, hw]
  simp only [hpc]
  cases h : recvQueue s with
  | none => exact absurd h hr
  | some p =>
    obtain ⟨s1, r⟩ := p
    cases r <;> exact ⟨_, rfl⟩

/-- The goroutine that closes `errorChan` can take a step once the wait group
is at zero, as long as the channel is not closed. -/
theorem stepCloser_enabled (env : Env) (c0 : Int) (s : Session) (hc : CountInv env c0 s)
    (hopen : s.errCloses = 0) (hwg : s.wg = 0) : ∃ t, stepCloser s = some t := by
  have h1 := hc.closes
  unfold stepCloser
  cases hp : s.closer with
  | wait => simp only [hwg, if_true]; exact ⟨_, rfl⟩
  | closeErr => exact ⟨_, rfl⟩
  | finished => rw [hp] at h1; simp at h1; omega

/-- The send of the reader's error goes through: into the buffer, or straight
to the caller when the channel has no buffer. -/
theorem sendErr_enabled (env : Env) (s : Session) (msg : String) (h : TraceInv env s)
    (hpc : s.reader = ReaderPc.sendOpenErr msg ∨ s.reader = ReaderPc.sendReadErr msg) :
    s.errorChan = [] ∧ (0 < s.errCap → ∃ t, stepReader env s = some t) ∧
      ∃ task t, task.quiet = true ∧ step env s task = some t := by
  obtain ⟨total, run, h1, h2, h3, h4⟩ := h.trace
  have hch := h.chan
  have hrun : run = ⟨[], some msg⟩ := by
    rcases hpc with hs | hs <;> rw [hs] at h2 <;>
      simp only [ReaderPc.rest, Option.some.injEq] at h2 <;> exact h2.symm
  subst hrun
  have hsent : s.errSent = [] := by
    have hl := congrArg List.length h4
    cases hte : total.err <;> rw [hte] at hl <;> simp [Option.toList] at hl
    exact hl
  have hchan : s.errorChan = [] := by
    rw [hsent] at hch
    exact (List.append_eq_nil.mp hch).2
  have hr : 0 < s.errCap → ∃ t, stepReader env s = some t := by
    intro hcap
    rcases hpc with hs | hs <;>
      simp [stepReader, hs, sendError, hchan, hcap]
  refine ⟨hchan, hr, ?_⟩
  by_cases hcap : 0 < s.errCap
  · obtain ⟨t, ht⟩ := hr hcap
    exact ⟨Task.reader, t, rfl, ht⟩
  · rcases hpc with hs | hs
    · have e : ∃ t, step env s Task.caller = some t := by
        simp [step, stepCaller, hchan, hs]
      obtain ⟨t, ht⟩ := e
      exact ⟨Task.caller, t, rfl, ht⟩
    · have e : ∃ t, step env s Task.caller = some t := by
        simp [step, stepCaller, hchan, hs]
      obtain ⟨t, ht⟩ := e
      exact ⟨Task.caller, t, rfl, ht⟩

/-- The reader can take its step unless it waits in a send on a channel: here
for the program points without a send. -/
theorem stepReader_noSend (env : Env) (c0 : Int) (s : Session) (hc : CountInv env c0 s)
    (hpc : s.reader = ReaderPc.getObject ∨ (∃ body, s.reader = ReaderPc.readString body) ∨
      s.reader = ReaderPc.closeQueue ∨ s.reader = ReaderPc.wgDone) :
    ∃ t, stepReader env s = some t := by
  rcases hpc with h | ⟨body, h⟩ | h | h
  · unfold stepReader
    rw [h]
    simp only
    cases env.object <;> exact ⟨_, rfl⟩
  · unfold stepReader
    rw [h]
    simp only
    cases (ReadString body newline).err with
    | none => exact ⟨_, rfl⟩
    | some e =>
      cases e with
      | eof => simp only; split <;> exact ⟨_, rfl⟩
      | other msg => exact ⟨_, rfl⟩
  · unfold stepReader
    rw [h]
    exact ⟨_, rfl⟩
  · have hwg : 0 < s.wg := by
      have h2 := hc.wg
      rw [h] at h2
      simp [ReaderPc.live] at h2
      omega
    unfold stepReader
    rw [h]
    simp only [hwg, if_true]
    exact ⟨_, rfl⟩

/-- In every state in which `errorChan` is not closed, the reader, a worker,
the closing goroutine or the caller can take a step, unless the reader waits
on the full queue and every worker has returned. -/
theorem progress_or_blocked (env : Env) (c0 : Int) (s : Session) (hc : CountInv env c0 s)
    (ht : TraceInv env s) (hopen : s.errCloses = 0) :
    (∃ task t, task.quiet = true ∧ step env s task = some t) ∨ Blocked s := by
  by_cases hbusy : ∃ (i : Nat) (w : Worker), s.workers[i]? = some w ∧ w.pc ≠ WorkerPc.select ∧
      w.pc ≠ WorkerPc.finished
  · obtain ⟨i, w, hw, h1, h2⟩ := hbusy
    obtain ⟨t, hs⟩ := stepWorker_busy env c0 s i w hc hw h1 h2
    exact Or.inl ⟨Task.worker i, t, rfl, hs⟩
  have hidle : ∀ (i : Nat) (w : Worker), s.workers[i]? = some w → w.pc = WorkerPc.select ∨
      w.pc = WorkerPc.finished := by
    intro i w hw
    by_contra hne
    simp only [not_or] at hne
    exact hbusy ⟨i, w, hw, hne.1, hne.2⟩
  -- the reader, when it is not in a send on the queue and has not returned
  have hreader : (s.reader = ReaderPc.getObject ∨ (∃ body, s.reader = ReaderPc.readString body) ∨
      s.reader = ReaderPc.closeQueue ∨ s.reader = ReaderPc.wgDone) →
      ∃ task t, task.quiet = true ∧ step env s task = some t := by
    intro hpc
    obtain ⟨t, hs⟩ := stepReader_noSend env c0 s hc hpc
    exact ⟨Task.reader, t, rfl, hs⟩
  by_cases hsel : ∃ (i : Nat) (w : Worker), s.workers[i]? = some w ∧ w.pc = WorkerPc.select
  · obtain ⟨i, w, hw, hpc⟩ := hsel
    by_cases hr : recvQueue s = none
    · obtain ⟨_, hcl, hn1, hn2⟩ := recvQueue_none s hr
      have hclosed := ht.closes
      cases hp : s.reader with
      | getObject => exact Or.inl (hreader (Or.inl hp))
      | readString body => exact Or.inl (hreader (Or.inr (Or.inl ⟨body, hp⟩)))
      | closeQueue => exact Or.inl (hreader (Or.inr (Or.inr (Or.inl hp))))
      | wgDone => exact Or.inl (hreader (Or.inr (Or.inr (Or.inr hp))))
      | sendOpenErr msg => exact Or.inl (sendErr_enabled env s msg ht (Or.inl hp)).2.2
      | sendReadErr msg => exact Or.inl (sendErr_enabled env s msg ht (Or.inr hp)).2.2
      | sendLine line body => exact absurd hp (hn1 line body)
      | sendLast line => exact absurd hp (hn2 line)
      | finished =>
        rw [hp] at hclosed
        simp [ReaderPc.closedQueue] at hclosed
        omega
    · obtain ⟨t, hs⟩ := stepWorker_select env s i w hw hpc hr
      exact Or.inl ⟨Task.worker i, t, rfl, hs⟩
  · have hfin : ∀ w ∈ s.workers, w.pc = WorkerPc.finished := by
      intro w hw
      obtain ⟨i, hi⟩ := List.getElem?_of_mem hw
      rcases hidle i w hi with h | h
      · exact absurd ⟨i, w, hi, h⟩ hsel
      · exact h
    cases hp : s.reader with
    | getObject => exact Or.inl (hreader (Or.inl hp))
    | readString body => exact Or.inl (hreader (Or.inr (Or.inl ⟨body, hp⟩)))
    | closeQueue => exact Or.inl (hreader (Or.inr (Or.inr (Or.inl hp))))
    | wgDone => exact Or.inl (hreader (Or.inr (Or.inr (Or.inr hp))))
    | sendOpenErr msg => exact Or.inl (sendErr_enabled env s msg ht (Or.inl hp)).2.2
    | sendReadErr msg => exact Or.inl (sendErr_enabled env s msg ht (Or.inr hp)).2.2
    | sendLine line body =>
      by_cases hfull : s.queue.length < s.queueCap
      · left
        have e : ∃ t, step env s Task.reader = some t := by
          simp [step, stepReader, hp, sendQueue, hfull]
        obtain ⟨t, hs⟩ := e
        exact ⟨Task.reader, t, rfl, hs⟩
      · exact Or.inr ⟨Or.inl ⟨line, body, hp⟩, by omega, hfin⟩
    | sendLast line =>
      by_cases hfull : s.queue.length < s.queueCap
      · left
        have e : ∃ t, step env s Task.reader = some t := by
          simp [step, stepReader, hp, sendQueue, hfull]
        obtain ⟨t, hs⟩ := e
        exact ⟨Task.reader, t, rfl, hs⟩
      · exact Or.inr ⟨Or.inr ⟨line, hp⟩, by omega, hfin⟩
    | finished =>
      have hwg := hc.wg
      have hl : (s.workers.map Worker.live).sum = 0 := by
        rw [sum_map_const _ _ 0 (by intro w hw; simp [Worker.live, hfin w hw])]
        simp
      rw [hl, hp] at hwg
      simp [ReaderPc.live] at hwg
      obtain ⟨t, hs⟩ := stepCloser_enabled env c0 s hc hopen hwg
      exact Or.inl ⟨Task.closer, t, rfl, hs⟩

/-- When a property is kept by the steps of the tasks allowed and guarantees
that one of them can move as long as `errorChan` is open, every state with the
property can be run to a state in which `errorChan` is closed. -/
theorem complete_of_progress (env : Env) (allowed : Task → Prop) (P : Session → Prop)
    (hstep : ∀ s task t, P s → allowed task → step env s task = some t → P t)
    (hprog : ∀ s, P s → s.errCloses = 0 → ∃ task t, allowed task ∧ step env s task = some t)
    (n : Nat) (s : Session) (hn : s.weight env ≤ n) (hs : P s) :
    ∃ sched t, (∀ task ∈ sched, allowed task) ∧ run env s sched = some t ∧
      0 < t.errCloses ∧ P t := by
  induction n generalizing s with
  | zero =>
    by_cases hopen : s.errCloses = 0
    · obtain ⟨task, t, _, ht⟩ := hprog s hs hopen
      have := step_weight env s t task ht
      omega
    · exact ⟨[], s, by simp, rfl, by omega, hs⟩
  | succ n ih =>
    by_cases hopen : s.errCloses = 0
    · obtain ⟨task, t, hal, ht⟩ := hprog s hs hopen
      have hw := step_weight env s t task ht
      obtain ⟨sched, u, h1, h2, h3, h4⟩ := ih t (by omega) (hstep s task t hs hal ht)
      refine ⟨task :: sched, u, ?_, ?_, h3, h4⟩
      · intro x hx
        rcases List.mem_cons.mp hx with rfl | hx
        · exact hal
        · exact h1 x hx
      · simp only [run, ht]
        exact h2
    · exact ⟨[], s, by simp, rfl, by omega, hs⟩

/-! ## The session: when the stream does not open -/

theorem workers_received_nil (s : Session) (h : QueueInv s) (he : s.enqueued = []) :
    ∀ w ∈ s.workers, w.received = [] ∧ w.invoked = [] := by
  intro w hw
  obtain ⟨i, hi⟩ := List.getElem?_of_mem hw
  have hrec : w.received = [] := by
    apply List.eq_nil_iff_forall_not_mem.mpr
    intro r hr
    have h1 := weight_le_sum (fun w : Worker => w.received.count r) s.workers i w hi
    have h2 := h.counts r
    rw [he] at h2
    simp only [List.count_nil] at h2
    have h3 : 0 < w.received.count r := List.count_pos_iff.mpr hr
    simp only at h1
    omega
  have hh := h.hand w hw
  rw [hrec] at hh
  have := List.append_eq_nil.mp hh.symm
  exact ⟨hrec, this.1⟩

theorem readerTrace_error (env : Env) (e : String) (ho : env.object = Except.error e) :
    readerTrace env = some ⟨[], some ("Failed to get file: " ++ e)⟩ := by
  simp [readerTrace, ho]

/-- With nothing handled the count of the key is what it was at the start. -/
theorem count_unchanged (env : Env) (c : Int64) (s : Session) (h : CountInv env c.val s)
    (hi : ∀ w ∈ s.workers, w.answers = []) : s.tools.GetLines env.fileName = c := by
  have h1 := h.handled
  have h2 : (s.workers.map Worker.handled).sum = 0 := by
    rw [sum_map_const _ _ 0 (by intro w hw; simp [Worker.handled, hi w hw])]
    simp
  have h3 : (s.workers.map Worker.incs).sum = 0 := by omega
  rw [h.count, h3]
  simp [Int64.ofInt_val]

/-- A session in which nothing is ever enqueued is never blocked. -/
theorem not_blocked_of_no_records (env : Env) (s : Session) (total : ReaderRun)
    (ht : readerTrace env = some total) (hrec : total.records = []) (h : TraceInv env s) :
    ¬ Blocked s := by
  intro hb
  obtain ⟨total1, run, h1, h2, h3, _⟩ := h.trace
  rw [ht] at h1
  simp only [Option.some.injEq] at h1
  subst h1
  rw [hrec] at h3
  have hrun : run.records = [] := (List.append_eq_nil.mp h3.symm).2
  rcases hb.1 with ⟨line, body, hp⟩ | ⟨line, hp⟩
  · rw [hp] at h2
    simp only [ReaderPc.rest] at h2
    cases hb2 : readerLoop body with
    | none => rw [hb2] at h2; cases h2
    | some r1 =>
      rw [hb2] at h2
      simp only [Option.some.injEq] at h2
      rw [← h2] at hrun
      simp at hrun
  · rw [hp] at h2
    simp only [ReaderPc.rest, Option.some.injEq] at h2
    rw [← h2] at hrun
    simp at hrun

/-- A session in which nothing is ever enqueued can always be run to its end. -/
theorem complete_of_no_records (env : Env) (a : AWSTools) (s : Session) (total : ReaderRun)
    (ht : readerTrace env = some total) (hrec : total.records = [])
    (hr : Reachable env a s) :
    (s.errCloses = 0 → ∃ task t, task.quiet = true ∧ step env s task = some t) ∧
      ∃ sched t, run env s sched = some t ∧ 0 < t.errCloses := by
  have hprog : ∀ u, Reachable env a u → u.errCloses = 0 →
      ∃ task t, task.quiet = true ∧ step env u task = some t := by
    intro u hu hopen
    rcases progress_or_blocked env _ u (countInv_reachable env a u hu)
      (traceInv_reachable env a u hu) hopen with h | h
    · exact h
    · exact absurd h (not_blocked_of_no_records env u total ht hrec
        (traceInv_reachable env a u hu))
  refine ⟨hprog s hr, ?_⟩
  obtain ⟨sched, t, _, h2, h3, _⟩ := complete_of_progress env (fun task => task.quiet = true)
    (Reachable env a) (fun u task t hu _ hs => reachable_step env a u t task hu hs) hprog
    (s.weight env) s (Nat.le_refl _) hr
  exact ⟨sched, t, h2, h3⟩

/-! ## The session: when a read fails -/

theorem splitAtDelim_of_not_mem (d : Byte) (l : List Byte) (h : d ∉ l) :
    splitAtDelim d l = (l, none) := by
  induction l with
  | nil => rfl
  | cons b bs ih =>
    simp only [List.mem_cons, not_or] at h
    have hb : ¬ b = d := fun e => h.1 e.symm
    simp [splitAtDelim, hb, ih h.2]

theorem splitAtDelim_append (d : Byte) (b rest : List Byte) (h : d ∉ b) :
    splitAtDelim d (b ++ d :: rest) = (b ++ [d], some rest) := by
  induction b with
  | nil => simp [splitAtDelim]
  | cons x xs ih =>
    simp only [List.mem_cons, not_or] at h
    have hx : ¬ x = d := fun e => h.1 e.symm
    simp [splitAtDelim, hx, ih h.2]

/-- The reader loop on complete lines followed by a fragment and a failing
read: the lines are the records, the fragment is not, and the error is the
one of the read. -/
theorem readerLoop_fail (lines : List Record) (frag : List Byte) (msg : String)
    (hl : ∀ l ∈ lines, CompleteLine l) (hf : newline ∉ frag) :
    readerLoop ⟨lines.flatten ++ frag, some msg⟩ =
      some ⟨lines, some ("Read line error: " ++ msg)⟩ := by
  induction lines with
  | nil =>
    rw [readerLoop_unfold]
    simp [ReadString, splitAtDelim_of_not_mem newline frag hf]
  | cons l ls ih =>
    obtain ⟨b, hb, hnb⟩ := hl l (List.mem_cons_self l ls)
    have hs : splitAtDelim newline ((l :: ls).flatten ++ frag) =
        (l, some (ls.flatten ++ frag)) := by
      rw [hb]
      simp only [List.flatten_cons, List.append_assoc, List.singleton_append]
      exact splitAtDelim_append newline b _ hnb
    rw [readerLoop_unfold]
    simp only [ReadString, hs]
    rw [ih (fun x hx => hl x (List.mem_cons_of_mem l hx))]

/-! ## The session: what reaches `errorChan` -/

/-- The error of the reader loop is the failure of a read of the body. -/
theorem readLoop_err (fuel : Nat) (body : Body) (run : ReaderRun) (m : String)
    (h : readLoop fuel body = some run) (hm : run.err = some m) :
    ∃ e, body.failure = some e ∧ m = "Read line error: " ++ e := by
  induction fuel generalizing body run with
  | zero => simp [readLoop] at h
  | succ fuel ih =>
    unfold readLoop at h
    simp only at h
    cases he : (ReadString body newline).err with
    | some e =>
      rw [he] at h
      obtain ⟨_, _, e3⟩ := ReadString_err body newline e he
      cases e with
      | eof =>
        simp only at h
        split at h <;> simp only [Option.some.injEq] at h <;> subst h <;> simp at hm
      | other msg =>
        simp only [Option.some.injEq] at h
        subst h
        simp only [Option.some.injEq] at hm
        cases hf : body.failure with
        | none => rw [hf] at e3; cases e3
        | some x =>
          rw [hf] at e3
          simp only [ReadError.other.injEq] at e3
          exact ⟨x, rfl, by rw [← hm, e3]⟩
    | none =>
      rw [he] at h
      simp only at h
      obtain ⟨_, e2, _⟩ := ReadString_ok body newline he
      cases hr : readLoop fuel (ReadString body newline).rest with
      | none => rw [hr] at h; cases h
      | some run1 =>
        rw [hr] at h
        simp only [Option.some.injEq] at h
        subst h
        obtain ⟨e, h1, h2⟩ := ih _ run1 hr hm
        exact ⟨e, by rw [← e2]; exact h1, h2⟩

/-- The error of the reader is the failure of `GetObject` or of a read. -/
theorem readerTrace_err (env : Env) (total : ReaderRun) (m : String)
    (h : readerTrace env = some total) (hm : total.err = some m) :
    (∃ e, env.object = Except.error e ∧ m = "Failed to get file: " ++ e) ∨
      (∃ body e, env.object = Except.ok body ∧ body.failure = some e ∧
        m = "Read line error: " ++ e) := by
  unfold readerTrace at h
  cases ho : env.object with
  | error e =>
    rw [ho] at h
    simp only [Option.some.injEq] at h
    subst h
    simp only [Option.some.injEq] at hm
    exact Or.inl ⟨e, rfl, hm.symm⟩
  | ok body =>
    rw [ho] at h
    obtain ⟨e, h1, h2⟩ := readLoop_err _ body total m h hm
    exact Or.inr ⟨body, e, rfl, h1, h2⟩

/-- Only the reader and the caller touch `errorChan`. -/
theorem step_errorChan (env : Env) (s t : Session) (task : Task)
    (hs : step env s task = some t) (h1 : task ≠ Task.reader) (h2 : task ≠ Task.caller) :
    t.errSent = s.errSent ∧ t.errorChan = s.errorChan ∧ t.errReceived = s.errReceived := by
  cases task with
  | reader => exact absurd rfl h1
  | caller => exact absurd rfl h2
  | worker i =>
    simp only [step, stepWorker] at hs
    split at hs
    · cases hs
    · split at hs
      · split at hs
        · cases hs
        · rename_i s1 line hr
          obtain ⟨_, _, _, _, _, _, _, f8, f9, f10, _⟩ := recvQueue_frame s s1 _ hr
          simp only [Option.some.injEq] at hs
          subst hs
          simp [Session.setWorker, f8, f9, f10]
        · rename_i s1 hr
          obtain ⟨_, _, _, _, _, _, _, f8, f9, f10, _⟩ := recvQueue_frame s s1 _ hr
          simp only [Option.some.injEq] at hs
          subst hs
          simp [Session.setWorker, f8, f9, f10]
      · split at hs <;> simp only [Option.some.injEq] at hs <;> subst hs <;>
          simp [Session.setWorker]
      · simp only [Option.some.injEq] at hs
        subst hs
        simp [Session.setWorker]
      · split at hs
        · simp only [Option.some.injEq] at hs
          subst hs
          simp [Session.setWorker]
        · cases hs
      · cases hs
  | workerExit i =>
    simp only [step, stepWorkerExit] at hs
    repeat' split at hs
    all_goals first
      | (simp only [Option.some.injEq] at hs; subst hs; simp [Session.setWorker])
      | cases hs
  | workerTimeout i =>
    simp only [step, stepWorkerTimeout] at hs
    repeat' split at hs
    all_goals first
      | (simp only [Option.some.injEq] at hs; subst hs; simp [Session.setWorker])
      | cases hs
  | closer =>
    simp only [step, stepCloser] at hs
    repeat' split at hs
    all_goals first
      | (simp only [Option.some.injEq] at hs; subst hs; simp)
      | cases hs
  | stop =>
    simp only [step, stepStop] at hs
    repeat' split at hs
    all_goals first
      | (simp only [Option.some.injEq] at hs; subst hs; simp [Session.setWorker])
      | cases hs

/-! ## The session: after the wait group has reached zero -/

/-- With the wait group at zero the reader and every worker have returned. -/
theorem countInv_wg_zero (env : Env) (c0 : Int) (s : Session) (h : CountInv env c0 s)
    (hwg : s.wg = 0) : s.reader = ReaderPc.finished ∧ ∀ w ∈ s.workers, w.pc = WorkerPc.finished := by
  have h2 := h.wg
  constructor
  · have hl : s.reader.live = 0 := by omega
    unfold ReaderPc.live at hl
    by_contra hne
    simp [hne] at hl
  · intro w hw
    have hl : (s.workers.map Worker.live).sum = 0 := by omega
    have := List.sum_eq_zero_iff.mp hl (w.live) (List.mem_map_of_mem _ hw)
    unfold Worker.live at this
    by_contra hne
    simp [hne] at this

/-- Once the reader and every worker have returned, no step touches the
registry or restarts one of them. -/
theorem step_after_done (env : Env) (s t : Session) (task : Task)
    (hr : s.reader = ReaderPc.finished) (hw : ∀ w ∈ s.workers, w.pc = WorkerPc.finished)
    (hs : step env s task = some t) :
    t.tools = s.tools ∧ t.reader = ReaderPc.finished ∧
      (∀ w ∈ t.workers, w.pc = WorkerPc.finished) ∧
      t.workers.map Worker.incs = s.workers.map Worker.incs ∧ t.enqueued = s.enqueued := by
  cases task with
  | reader => simp [step, stepReader, hr] at hs
  | worker i =>
    simp only [step, stepWorker] at hs
    rw [List.get?_eq_getElem?] at hs
    split at hs
    · cases hs
    · rename_i w hi
      have := hw w (List.getElem?_mem hi)
      simp [this] at hs
  | workerExit i =>
    simp only [step, stepWorkerExit] at hs
    rw [List.get?_eq_getElem?] at hs
    split at hs
    · cases hs
    · rename_i w hi
      have := hw w (List.getElem?_mem hi)
      simp [this] at hs
  | workerTimeout i =>
    simp only [step, stepWorkerTimeout] at hs
    rw [List.get?_eq_getElem?] at hs
    split at hs
    · cases hs
    · rename_i w hi
      have := hw w (List.getElem?_mem hi)
      simp [this] at hs
  | closer =>
    simp only [step, stepCloser] at hs
    repeat' split at hs
    all_goals first
      | (simp only [Option.some.injEq] at hs; subst hs; exact ⟨rfl, hr, hw, rfl, rfl⟩)
      | cases hs
  | stop =>
    simp only [step, stepStop] at hs
    rw [List.get?_eq_getElem?] at hs
    split at hs
    · cases hs
    · rename_i w hi
      split at hs
      · simp only [Option.some.injEq] at hs
        subst hs
        refine ⟨rfl, hr, ?_, ?_, rfl⟩
        · intro v hv
          simp only [Session.setWorker] at hv
          rcases List.mem_or_eq_of_mem_set hv with hv | hv
          · exact hw v hv
          · rw [hv]; exact hw w (List.getElem?_mem hi)
        · simp only [Session.setWorker]
          rw [List.map_set]
          exact set_of_getElem? _ _ _ (by simp [hi])
      · cases hs
  | caller =>
    simp only [step, stepCaller] at hs
    split at hs
    · simp only [Option.some.injEq] at hs
      subst hs
      exact ⟨rfl, hr, hw, rfl, rfl⟩
    · simp [hr] at hs

theorem run_after_done (env : Env) (sched : List Task) (s t : Session)
    (hr : s.reader = ReaderPc.finished) (hw : ∀ w ∈ s.workers, w.pc = WorkerPc.finished)
    (hs : run env s sched = some t) :
    t.tools = s.tools ∧ t.workers.map Worker.incs = s.workers.map Worker.incs ∧
      t.enqueued = s.enqueued := by
  induction sched generalizing s with
  | nil =>
    simp only [run, Option.some.injEq] at hs
    subst hs
    exact ⟨rfl, rfl, rfl⟩
  | cons task sched ih =>
    simp only [run] at hs
    cases h1 : step env s task with
    | none => rw [h1] at hs; cases hs
    | some s1 =>
      rw [h1] at hs
      obtain ⟨e1, e2, e3, e4, e5⟩ := step_after_done env s s1 task hr hw h1
      obtain ⟨g1, g2, g3⟩ := ih s1 e2 e3 hs
      exact ⟨by rw [g1, e1], by rw [g2, e4], by rw [g3, e5]⟩

/-! ## The session: without exit signal and idle timeout -/

theorem quietReachable_reachable (env : Env) (a : AWSTools) (s : Session)
    (h : QuietReachable env a s) : Reachable env a s := by
  obtain ⟨s0, sched, h0, _, hrun⟩ := h
  exact ⟨s0, sched, h0, hrun⟩

theorem recvQueue_closed (s s1 : Session) (h : recvQueue s = some (s1, none)) :
    s1 = s ∧ s.queue = [] ∧ 0 < s.queueCloses := by
  unfold recvQueue at h
  split at h
  · simp at h
  · rename_i hq
    split at h
    · simp at h
    · simp at h
    · split at h
      · simp only [Option.some.injEq, Prod.mk.injEq, and_true] at h
        exact ⟨h.symm, hq, by assumption⟩
      · cases h

theorem closedQueue_of_closes (env : Env) (s : Session) (hT : TraceInv env s)
    (hc : 0 < s.queueCloses) : s.reader.closedQueue = true := by
  have := hT.closes
  by_contra hne
  simp [hne] at this
  omega

theorem recvQueue_drained (env : Env) (s s1 : Session) (r : Option Record)
    (hT : TraceInv env s) (hc : 0 < s.queueCloses) (hq : s.queue = [])
    (h : recvQueue s = some (s1, r)) : r = none ∧ s1 = s := by
  have hcl := closedQueue_of_closes env s hT hc
  unfold recvQueue at h
  rw [hq] at h
  simp only at h
  split at h
  · rename_i hpc
    rw [hpc] at hcl
    simp [ReaderPc.closedQueue] at hcl
  · rename_i hpc
    rw [hpc] at hcl
    simp [ReaderPc.closedQueue] at hcl
  · simp only [hc, if_true, Option.some.injEq, Prod.mk.injEq] at h
    exact ⟨h.2.symm, h.1.symm⟩

theorem quietInv_frame (s t : Session) (h : QuietInv s) (hw : t.workers = s.workers)
    (hq : t.queue = s.queue) (hc : t.queueCloses = s.queueCloses) : QuietInv t := by
  intro w hmem hl
  rw [hw] at hmem
  rw [hq, hc]
  exact h w hmem hl

theorem quietInv_setWorker (s t : Session) (i : Nat) (v : Worker) (h : QuietInv s)
    (hw : t.workers = s.workers.set i v) (hq : t.queue = s.queue)
    (hc : t.queueCloses = s.queueCloses)
    (hv : v.pc.leftLoop = true → 0 < s.queueCloses ∧ s.queue = []) : QuietInv t := by
  intro w hmem hl
  rw [hw] at hmem
  rw [hq, hc]
  rcases List.mem_or_eq_of_mem_set hmem with hmem | hmem
  · exact h w hmem hl
  · rw [hmem] at hl
    exact hv hl

theorem quietInv_stepReader (env : Env) (s t : Session) (hT : TraceInv env s)
    (h : QuietInv s) (hs : stepReader env s = some t) : QuietInv t := by
  have hw : t.workers = s.workers := by
    have hs2 := hs
    simp only [stepReader, sendQueue, sendError] at hs2
    repeat' split at hs2
    all_goals first
      | (simp only [Option.some.injEq] at hs2; subst hs2; rfl)
      | cases hs2
  intro w hmem hl
  rw [hw] at hmem
  obtain ⟨hc, hq⟩ := h w hmem hl
  have hcl := closedQueue_of_closes env s hT hc
  unfold stepReader at hs
  split at hs <;> rename_i hpc <;> rw [hpc] at hcl <;>
    simp only [ReaderPc.closedQueue, Bool.false_eq_true] at hcl
  · split at hs
    · simp only [Option.some.injEq] at hs
      subst hs
      exact ⟨hc, hq⟩
    · cases hs
  · cases hs

theorem quietInv_stepWorker (env : Env) (hcb : ∀ calls line, env.cb calls line = none) (s t : Session)
    (i : Nat) (hT : TraceInv env s) (h : QuietInv s) (hs : stepWorker env s i = some t) :
    QuietInv t := by
  unfold stepWorker at hs
  rw [List.get?_eq_getElem?] at hs
  split at hs
  · cases hs
  · rename_i w hi
    have hwmem : w ∈ s.workers := List.getElem?_mem hi
    split at hs
    · split at hs
      · cases hs
      · rename_i s1 line hr
        obtain ⟨f1, _, _, _, _, _, f7, _⟩ := recvQueue_frame s s1 _ hr
        simp only [Option.some.injEq] at hs
        subst hs
        intro v hmem hl
        simp only [Session.setWorker] at hmem
        rcases List.mem_or_eq_of_mem_set hmem with hmem | hmem
        · rw [f1] at hmem
          obtain ⟨hc, hq⟩ := h v hmem hl
          have := (recvQueue_drained env s s1 _ hT hc hq hr).1
          cases this
        · rw [hmem] at hl
          simp [WorkerPc.leftLoop] at hl
      · rename_i s1 hr
        obtain ⟨e1, e2, e3⟩ := recvQueue_closed s s1 hr
        subst e1
        simp only [Option.some.injEq] at hs
        subst hs
        intro v _ _
        exact ⟨e3, e2⟩
    · rw [hcb] at hs
      simp only [Option.some.injEq] at hs
      subst hs
      exact quietInv_setWorker s _ i _ h rfl rfl rfl (by simp [WorkerPc.leftLoop])
    · simp only [Option.some.injEq] at hs
      subst hs
      exact quietInv_setWorker s _ i _ h rfl rfl rfl (by simp [WorkerPc.leftLoop])
    · rename_i hpc
      split at hs
      · simp only [Option.some.injEq] at hs
        subst hs
        exact quietInv_setWorker s _ i _ h rfl rfl rfl
          (fun _ => h w hwmem (by rw [hpc]; rfl))
      · cases hs
    · cases hs

theorem quietInv_step (env : Env) (hcb : ∀ calls line, env.cb calls line = none) (s t : Session)
    (task : Task) (hT : TraceInv env s) (h : QuietInv s) (hq : task.quiet = true)
    (hs : step env s task = some t) : QuietInv t := by
  cases task with
  | reader => exact quietInv_stepReader env s t hT h hs
  | worker i => exact quietInv_stepWorker env hcb s t i hT h hs
  | workerExit i => cases hq
  | workerTimeout i => cases hq
  | stop => cases hq
  | closer =>
    simp only [step, stepCloser] at hs
    repeat' split at hs
    all_goals first
      | (simp only [Option.some.injEq] at hs; subst hs; exact quietInv_frame s _ h rfl rfl rfl)
      | cases hs
  | caller =>
    simp only [step, stepCaller] at hs
    repeat' split at hs
    all_goals first
      | (simp only [Option.some.injEq] at hs; subst hs; exact quietInv_frame s _ h rfl rfl rfl)
      | cases hs

theorem quietInv_start (a : AWSTools) (s0 : Session)
    (h : ReadFileStreamFromS3WithContext a = some s0) : QuietInv s0 := by
  unfold ReadFileStreamFromS3WithContext at h
  split at h
  · cases h
  · split at h
    · cases h
    · simp only [Option.some.injEq] at h
      subst h
      intro w hw hl
      simp only [List.mem_replicate] at hw
      rw [hw.2] at hl
      simp [Worker.start, WorkerPc.leftLoop] at hl

theorem quietInv_run (env : Env) (hcb : ∀ calls line, env.cb calls line = none) (sched : List Task)
    (s t : Session) (hT : TraceInv env s) (h : QuietInv s)
    (hq : ∀ task ∈ sched, task.quiet = true) (hr : run env s sched = some t) : QuietInv t := by
  induction sched generalizing s with
  | nil =>
    simp only [run, Option.some.injEq] at hr
    subst hr
    exact h
  | cons task sched ih =>
    simp only [run] at hr
    cases h1 : step env s task with
    | none => rw [h1] at hr; cases hr
    | some s1 =>
      rw [h1] at hr
      exact ih s1 (traceInv_step env s s1 task hT h1)
        (quietInv_step env hcb s s1 task hT h (hq task (List.mem_cons_self _ _)) h1)
        (fun x hx => hq x (List.mem_cons_of_mem _ hx)) hr

theorem quietInv_reachable (env : Env) (hcb : ∀ calls line, env.cb calls line = none) (a : AWSTools)
    (s : Session) (h : QuietReachable env a s) : QuietInv s := by
  obtain ⟨s0, sched, h0, hq, hrun⟩ := h
  exact quietInv_run env hcb sched s0 s (traceInv_start env a s0 h0) (quietInv_start a s0 h0)
    hq hrun

theorem quiet_not_blocked (env : Env) (a : AWSTools) (s : Session) (hS : ShapeInv a s)
    (hq : 1 ≤ a.queueWorkers) (hT : TraceInv env s) (hQ : QuietInv s) : ¬ Blocked s := by
  intro hb
  obtain ⟨hpc, _, hfin⟩ := hb
  have hlen : 0 < s.workers.length := by rw [hS.workers]; omega
  obtain ⟨w, hw⟩ := List.exists_mem_of_length_pos hlen
  have hc := (hQ w hw (by rw [hfin w hw]; rfl)).1
  have hcl := closedQueue_of_closes env s hT hc
  rcases hpc with ⟨line, body, hpc⟩ | ⟨line, hpc⟩ <;> rw [hpc] at hcl <;>
    simp [ReaderPc.closedQueue] at hcl

theorem queueInv_perm (s : Session) (h : QueueInv s) :
    List.Perm ((s.workers.map (fun w => w.received)).flatten ++ s.queue) s.enqueued := by
  have hc : ∀ (r : Record) (l : List Record),
      @List.count _ instBEqOfDecidableEq r l = List.count r l := by
    intro r l
    induction l with
    | nil => rfl
    | cons x xs ih => simp [List.count_cons, ih]
  rw [List.perm_iff_count]
  intro r
  rw [hc, hc, List.count_append, List.count_flatten, List.map_map]
  exact h.counts r

/-- A session whose handler always succeeds, with at least one worker, run
without exit signal and idle timeout, can take a step as long as `errorChan`
is open, and can be run on to the close of `errorChan`. -/
theorem complete_of_quiet (env : Env) (hcb : ∀ calls line, env.cb calls line = none) (a : AWSTools)
    (s : Session) (hq : 1 ≤ a.queueWorkers) (hr : QuietReachable env a s) :
    (s.errCloses = 0 → ∃ task t, task.quiet = true ∧ step env s task = some t) ∧
      ∃ sched t, (∀ task ∈ sched, task.quiet = true) ∧ run env s sched = some t ∧
        0 < t.errCloses ∧ QuietInv t := by
  have hR := quietReachable_reachable env a s hr
  have hprog : ∀ u : Session,
      (CountInv env (a.GetLines env.fileName).val u ∧ TraceInv env u ∧ QuietInv u ∧
        ShapeInv a u) → u.errCloses = 0 →
      ∃ task t, task.quiet = true ∧ step env u task = some t := by
    intro u hu hopen
    obtain ⟨hC, hT, hQ, hS⟩ := hu
    rcases progress_or_blocked env _ u hC hT hopen with h | h
    · exact h
    · exact absurd h (quiet_not_blocked env a u hS hq hT hQ)
  have hP : CountInv env (a.GetLines env.fileName).val s ∧ TraceInv env s ∧ QuietInv s ∧
      ShapeInv a s :=
    ⟨countInv_reachable env a s hR, traceInv_reachable env a s hR,
      quietInv_reachable env hcb a s hr, shapeInv_reachable env a s hR⟩
  refine ⟨hprog s hP, ?_⟩
  obtain ⟨sched, t, h1, h2, h3, h4⟩ := complete_of_progress env (fun task => task.quiet = true)
    (fun u => CountInv env (a.GetLines env.fileName).val u ∧ TraceInv env u ∧ QuietInv u ∧
      ShapeInv a u)
    (by
      intro u task t hu hall hstep
      obtain ⟨hC, hT, hQ, hS⟩ := hu
      refine ⟨countInv_step env _ u t task hC hstep, traceInv_step env u t task hT hstep,
        quietInv_step env hcb u t task hT hQ hall hstep,
        shapeInv_run env a [task] u t hS (by simp [run, hstep])⟩)
    hprog (s.weight env) s (le_refl _) hP
  exact ⟨sched, t, h1, h2, h3, h4.2.2.1⟩

/-! ## The session: when the context is cancelled -/

/-- From a state in which the reader waits on the full queue and no worker is
left, the only step is a send of `stopReadFileStreamFromS3`, and it leaves the
reader where it is: waiting, with both channels open. -/
theorem stuck_step (env : Env) (s t : Session) (task : Task) (h : Stuck s)
    (hs : step env s task = some t) :
    Stuck t ∧ t.reader = s.reader ∧ t.errCloses = s.errCloses ∧
      t.queueCloses = s.queueCloses ∧ t.enqueued = s.enqueued ∧ t.errSent = s.errSent ∧
      t.tools = s.tools := by
  obtain ⟨⟨hpc, hfull, hfin⟩, hcl, hwg, hch⟩ := h
  have hworker : ∀ i w, s.workers.get? i = some w → w.pc = WorkerPc.finished := by
    intro i w hi
    rw [List.get?_eq_getElem?] at hi
    exact hfin w (List.getElem?_mem hi)
  cases task with
  | reader =>
    simp only [step, stepReader] at hs
    rcases hpc with ⟨line, body, hpc⟩ | ⟨line, hpc⟩ <;> rw [hpc] at hs <;>
      simp only [sendQueue] at hs <;> rw [if_neg (by omega)] at hs <;> cases hs
  | worker i =>
    simp only [step, stepWorker] at hs
    split at hs
    · cases hs
    · rename_i w hi
      rw [hworker i w hi] at hs
      cases hs
  | workerExit i =>
    simp only [step, stepWorkerExit] at hs
    split at hs
    · cases hs
    · rename_i w hi
      rw [hworker i w hi] at hs
      simp at hs
  | workerTimeout i =>
    simp only [step, stepWorkerTimeout] at hs
    split at hs
    · cases hs
    · rename_i w hi
      rw [hworker i w hi] at hs
      simp at hs
  | closer =>
    simp only [step, stepCloser, hcl] at hs
    rw [if_neg (by omega)] at hs
    cases hs
  | caller =>
    simp only [step, stepCaller, hch] at hs
    rcases hpc with ⟨line, body, hpc⟩ | ⟨line, hpc⟩ <;> rw [hpc] at hs <;> cases hs
  | stop =>
    simp only [step, stepStop] at hs
    split at hs
    · cases hs
    · rename_i w hi
      split at hs
      · simp only [Option.some.injEq] at hs
        subst hs
        refine ⟨⟨⟨hpc, hfull, ?_⟩, hcl, hwg, hch⟩, rfl, rfl, rfl, rfl, rfl, rfl⟩
        intro v hv
        simp only [Session.setWorker] at hv
        rcases List.mem_or_eq_of_mem_set hv with hv | hv
        · exact hfin v hv
        · rw [hv]
          exact hworker _ w hi
      · cases hs

theorem stuck_run (env : Env) (sched : List Task) (s t : Session) (h : Stuck s)
    (hs : run env s sched = some t) :
    Stuck t ∧ t.reader = s.reader ∧ t.errCloses = s.errCloses ∧
      t.queueCloses = s.queueCloses ∧ t.enqueued = s.enqueued ∧ t.errSent = s.errSent ∧
      t.tools = s.tools := by
  induction sched generalizing s with
  | nil =>
    simp only [run, Option.some.injEq] at hs
    subst hs
    exact ⟨h, rfl, rfl, rfl, rfl, rfl, rfl⟩
  | cons task sched ih =>
    simp only [run] at hs
    cases h1 : step env s task with
    | none => rw [h1] at hs; cases hs
    | some s1 =>
      rw [h1] at hs
      obtain ⟨e0, e1, e2, e3, e4, e5, e6⟩ := stuck_step env s s1 task h h1
      obtain ⟨g0, g1, g2, g3, g4, g5, g6⟩ := ih s1 e0 hs
      exact ⟨g0, by rw [g1, e1], by rw [g2, e2], by rw [g3, e3], by rw [g4, e4],
        by rw [g5, e5], by rw [g6, e6]⟩

/-- On a body whose reads fail in the end, the reader loop ends with the error
of the failing read. -/
theorem readLoop_failure (fuel : Nat) (body : Body) (run : ReaderRun) (msg : String)
    (h : readLoop fuel body = some run) (hf : body.failure = some msg) :
    run.err = some ("Read line error: " ++ msg) := by
  induction fuel generalizing body run with
  | zero => simp [readLoop] at h
  | succ fuel ih =>
    unfold readLoop at h
    simp only at h
    cases he : (ReadString body newline).err with
    | some e =>
      rw [he] at h
      obtain ⟨_, _, e3⟩ := ReadString_err body newline e he
      rw [hf] at e3
      simp only at e3
      subst e3
      simp only [Option.some.injEq] at h
      subst h
      rfl
    | none =>
      rw [he] at h
      simp only at h
      obtain ⟨_, e2, _⟩ := ReadString_ok body newline he
      cases hr : readLoop fuel (ReadString body newline).rest with
      | none => rw [hr] at h; cases h
      | some run1 =>
        rw [hr] at h
        simp only [Option.some.injEq] at h
        subst h
        exact ih _ run1 hr (by rw [e2]; exact hf)

/-- The reader at the send of its error takes the send, closes `queueFS` and
returns, in three steps of its own, when `errorChan` has capacity. -/
theorem reader_returns_after_error (env : Env) (c0 : Int) (s : Session) (msg : String)
    (hC : CountInv env c0 s) (hT : TraceInv env s) (hcap : 0 < s.errCap)
    (hpc : s.reader = ReaderPc.sendOpenErr msg ∨ s.reader = ReaderPc.sendReadErr msg) :
    ∃ t, run env s [Task.reader, Task.reader, Task.reader] = some t ∧
      t.reader = ReaderPc.finished ∧ t.enqueued = s.enqueued ∧ t.errSent = [msg] ∧
      t.queueCloses = 1 ∧ t.workers = s.workers ∧ t.queue = s.queue := by
  obtain ⟨hchan, _, _⟩ := sendErr_enabled env s msg hT hpc
  have hwg : 0 < s.wg := by
    have h2 := hC.wg
    have h3 : s.reader.live = 1 := by
      rcases hpc with h | h <;> rw [h] <;> rfl
    omega
  have hsent : s.errSent = [] := by
    have := hT.chan
    obtain ⟨total, run, h1, h2, h3, h4⟩ := hT.trace
    have hrun : run = ⟨[], some msg⟩ := by
      rcases hpc with hs | hs <;> rw [hs] at h2 <;>
        simp only [ReaderPc.rest, Option.some.injEq] at h2 <;> exact h2.symm
    subst hrun
    have hl := congrArg List.length h4
    cases hte : total.err <;> rw [hte] at hl <;> simp [Option.toList] at hl
    exact hl
  have hcl : s.queueCloses = 0 := by
    have := hT.closes
    rcases hpc with h | h <;> rw [h] at this <;> simpa [ReaderPc.closedQueue] using this
  have hstep : stepReader env s = sendError s msg := by
    rcases hpc with hm | hm <;> simp [stepReader, hm]
  have e1 : step env s Task.reader =
      some { s with errorChan := s.errorChan ++ [msg], errSent := s.errSent ++ [msg],
                    reader := ReaderPc.closeQueue } := by
    simp only [step, hstep, sendError, hchan, List.length_nil, hcap, if_true]
  have e2 : step env { s with errorChan := s.errorChan ++ [msg], errSent := s.errSent ++ [msg],
                              reader := ReaderPc.closeQueue } Task.reader =
      some { s with errorChan := s.errorChan ++ [msg], errSent := s.errSent ++ [msg],
                    queueCloses := s.queueCloses + 1, reader := ReaderPc.wgDone } := rfl
  have e3 : step env { s with errorChan := s.errorChan ++ [msg], errSent := s.errSent ++ [msg],
                              queueCloses := s.queueCloses + 1, reader := ReaderPc.wgDone }
        Task.reader =
      some { s with errorChan := s.errorChan ++ [msg], errSent := s.errSent ++ [msg],
                    queueCloses := s.queueCloses + 1, wg := s.wg - 1,
                    reader := ReaderPc.finished } := by
    simp only [step, stepReader, hwg, if_true]
  refine ⟨{ s with errorChan := s.errorChan ++ [msg], errSent := s.errSent ++ [msg],
                   queueCloses := s.queueCloses + 1, wg := s.wg - 1,
                   reader := ReaderPc.finished },
    by simp only [run, e1, e2, e3], rfl, rfl, ?_, ?_, rfl, rfl⟩
  · simp only [hsent, List.nil_append]
  · simp only [hcl, Nat.zero_add]

/-- A worker that has not returned can take a step: at the `select` one of the
three cases is ready, elsewhere its next statement. -/
theorem worker_enabled (env : Env) (c0 : Int) (s : Session) (i : Nat) (w : Worker)
    (hC : CountInv env c0 s) (hw : s.workers[i]? = some w) (hfin : w.pc ≠ WorkerPc.finished) :
    ∃ task t, (task = Task.worker i ∨ task = Task.workerExit i ∨ task = Task.workerTimeout i) ∧
      step env s task = some t := by
  by_cases hpc : w.pc = WorkerPc.select
  · by_cases hr : recvQueue s = none
    · by_cases hx : w.exitChan = 0
      · have e : ∃ t, step env s (Task.workerTimeout i) = some t := by
          simp only [step, stepWorkerTimeout]
          rw [List.get?_eq_getElem?, hw]
          simp only [hpc, hx, hr, Option.isNone_none, and_self, if_true]
          exact ⟨_, rfl⟩
        obtain ⟨t, ht⟩ := e
        exact ⟨Task.workerTimeout i, t, Or.inr (Or.inr rfl), ht⟩
      · have e : ∃ t, step env s (Task.workerExit i) = some t := by
          simp only [step, stepWorkerExit]
          rw [List.get?_eq_getElem?, hw]
          have : 0 < w.exitChan := by omega
          simp only [hpc, this, and_self, if_true]
          exact ⟨_, rfl⟩
        obtain ⟨t, ht⟩ := e
        exact ⟨Task.workerExit i, t, Or.inr (Or.inl rfl), ht⟩
    · obtain ⟨t, ht⟩ := stepWorker_select env s i w hw hpc hr
      exact ⟨Task.worker i, t, Or.inl rfl, ht⟩
  · obtain ⟨t, ht⟩ := stepWorker_busy env c0 s i w hC hw hpc hfin
    exact ⟨Task.worker i, t, Or.inl rfl, ht⟩

/-- A worker at the `select` takes the oldest record of the queue and goes on
to the handler, whatever the reader has done. -/
theorem worker_receives (env : Env) (s : Session) (i : Nat) (w : Worker) (line : Record)
    (rest : List Record) (hw : s.workers[i]? = some w) (hpc : w.pc = WorkerPc.select)
    (hq : s.queue = line :: rest) :
    ∃ t v, step env s (Task.worker i) = some t ∧ t.workers[i]? = some v ∧
      v.pc = WorkerPc.callback line ∧ v.received = w.received ++ [line] ∧ t.queue = rest := by
  have hlt : i < s.workers.length := by
    by_contra hge
    rw [List.getElem?_eq_none (by omega)] at hw
    cases hw
  refine ⟨({ s with queue := rest } : Session).setWorker i
      { w with pc := WorkerPc.callback line, received := w.received ++ [line] },
    { w with pc := WorkerPc.callback line, received := w.received ++ [line] }, ?_, ?_, rfl, rfl,
    rfl⟩
  · simp only [step, stepWorker]
    rw [List.get?_eq_getElem?, hw]
    simp only [hpc, recvQueue, hq]
  · simp only [Session.setWorker]
    rw [List.getElem?_set_self hlt]

/-! ## The session: the close of the queue -/

/-- Only the reader closes `queueFS`, and only at the `close` of its deferred
function; the close enqueues nothing. -/
theorem step_queueCloses (env : Env) (s t : Session) (task : Task)
    (hs : step env s task = some t) :
    s.queueCloses ≤ t.queueCloses ∧
      (task ≠ Task.reader → t.queueCloses = s.queueCloses) ∧
      (t.queueCloses ≠ s.queueCloses →
        task = Task.reader ∧ s.reader = ReaderPc.closeQueue ∧ t.reader = ReaderPc.wgDone ∧
          t.queueCloses = s.queueCloses + 1 ∧ t.enqueued = s.enqueued ∧ t.queue = s.queue) := by
  cases task with
  | reader =>
    simp only [step, stepReader, sendQueue, sendError] at hs
    repeat' split at hs
    all_goals first
      | (simp only [Option.some.injEq] at hs; subst hs; simp_all)
      | cases hs
  | worker i =>
    have hq : t.queueCloses = s.queueCloses := by
      simp only [step, stepWorker] at hs
      split at hs
      · cases hs
      · split at hs
        · split at hs
          · cases hs
          · rename_i s1 line hr
            obtain ⟨_, _, _, _, _, _, f7, _⟩ := recvQueue_frame s s1 _ hr
            simp only [Option.some.injEq] at hs
            subst hs
            simp [Session.setWorker, f7]
          · rename_i s1 hr
            obtain ⟨_, _, _, _, _, _, f7, _⟩ := recvQueue_frame s s1 _ hr
            simp only [Option.some.injEq] at hs
            subst hs
            simp [Session.setWorker, f7]
        · split at hs <;> simp only [Option.some.injEq] at hs <;> subst hs <;>
            simp [Session.setWorker]
        · simp only [Option.some.injEq] at hs
          subst hs
          simp [Session.setWorker]
        · split at hs
          · simp only [Option.some.injEq] at hs
            subst hs
            simp [Session.setWorker]
          · cases hs
        · cases hs
    exact ⟨by omega, fun _ => hq, fun h => absurd hq h⟩
  | workerExit i =>
    have hq : t.queueCloses = s.queueCloses := by
      simp only [step, stepWorkerExit] at hs
      repeat' split at hs
      all_goals first
        | (simp only [Option.some.injEq] at hs; subst hs; simp [Session.setWorker])
        | cases hs
    exact ⟨by omega, fun _ => hq, fun h => absurd hq h⟩
  | workerTimeout i =>
    have hq : t.queueCloses = s.queueCloses := by
      simp only [step, stepWorkerTimeout] at hs
      repeat' split at hs
      all_goals first
        | (simp only [Option.some.injEq] at hs; subst hs; simp [Session.setWorker])
        | cases hs
    exact ⟨by omega, fun _ => hq, fun h => absurd hq h⟩
  | closer =>
    have hq : t.queueCloses = s.queueCloses := by
      simp only [step, stepCloser] at hs
      repeat' split at hs
      all_goals first
        | (simp only [Option.some.injEq] at hs; subst hs; simp)
        | cases hs
    exact ⟨by omega, fun _ => hq, fun h => absurd hq h⟩
  | stop =>
    have hq : t.queueCloses = s.queueCloses := by
      simp only [step, stepStop] at hs
      repeat' split at hs
      all_goals first
        | (simp only [Option.some.injEq] at hs; subst hs; simp [Session.setWorker])
        | cases hs
    exact ⟨by omega, fun _ => hq, fun h => absurd hq h⟩
  | caller =>
    have hq : t.queueCloses = s.queueCloses := by
      simp only [step, stepCaller] at hs
      repeat' split at hs
      all_goals first
        | (simp only [Option.some.injEq] at hs; subst hs; simp)
        | cases hs
    exact ⟨by omega, fun _ => hq, fun h => absurd hq h⟩

theorem run_queueCloses (env : Env) (sched : List Task) (s t : Session)
    (hs : run env s sched = some t) : s.queueCloses ≤ t.queueCloses := by
  induction sched generalizing s with
  | nil =>
    simp only [run, Option.some.injEq] at hs
    subst hs
    exact le_refl _
  | cons task sched ih =>
    simp only [run] at hs
    cases h1 : step env s task with
    | none => rw [h1] at hs; cases hs
    | some s1 =>
      rw [h1] at hs
      exact le_trans (step_queueCloses env s s1 task h1).1 (ih s1 hs)

/-! ## The session: a worker on its own -/

/-- A step of the session leaves the workers as they are or lets one of them
take a step of its own. -/
theorem step_next (env : Env) (s t : Session) (task : Task) (hs : step env s task = some t) :
    t.workers = s.workers ∨
      ∃ (i : Nat) (w v : Worker), s.workers[i]? = some w ∧ t.workers = s.workers.set i v ∧
        Worker.Next env.cb s.calls w v := by
  cases task with
  | reader =>
    left
    simp only [step, stepReader, sendQueue, sendError] at hs
    repeat' split at hs
    all_goals first
      | (simp only [Option.some.injEq] at hs; subst hs; rfl)
      | cases hs
  | closer =>
    left
    simp only [step, stepCloser] at hs
    repeat' split at hs
    all_goals first
      | (simp only [Option.some.injEq] at hs; subst hs; rfl)
      | cases hs
  | caller =>
    left
    simp only [step, stepCaller] at hs
    repeat' split at hs
    all_goals first
      | (simp only [Option.some.injEq] at hs; subst hs; rfl)
      | cases hs
  | worker i =>
    right
    simp only [step, stepWorker] at hs
    rw [List.get?_eq_getElem?] at hs
    split at hs
    · cases hs
    · rename_i w hi
      split at hs
      · rename_i hpc
        split at hs
        · cases hs
        · rename_i s1 line hr
          obtain ⟨f1, _⟩ := recvQueue_frame s s1 _ hr
          simp only [Option.some.injEq] at hs
          subst hs
          exact ⟨i, w, _, hi, by simp [Session.setWorker, f1], Worker.Next.receive line hpc⟩
        · rename_i s1 hr
          obtain ⟨f1, _⟩ := recvQueue_frame s s1 _ hr
          simp only [Option.some.injEq] at hs
          subst hs
          exact ⟨i, w, _, hi, by simp [Session.setWorker, f1], Worker.Next.closed hpc⟩
      · rename_i line hpc
        split at hs
        · rename_i err hcb
          simp only [Option.some.injEq] at hs
          subst hs
          exact ⟨i, w, _, hi, rfl, Worker.Next.failed line err hpc hcb⟩
        · rename_i hcb
          simp only [Option.some.injEq] at hs
          subst hs
          exact ⟨i, w, _, hi, rfl, Worker.Next.handled line hpc hcb⟩
      · rename_i hpc
        simp only [Option.some.injEq] at hs
        subst hs
        exact ⟨i, w, _, hi, rfl, Worker.Next.counted hpc⟩
      · rename_i hpc
        split at hs
        · simp only [Option.some.injEq] at hs
          subst hs
          exact ⟨i, w, _, hi, rfl, Worker.Next.returned hpc⟩
        · cases hs
      · cases hs
  | workerExit i =>
    right
    simp only [step, stepWorkerExit] at hs
    rw [List.get?_eq_getElem?] at hs
    split at hs
    · cases hs
    · rename_i w hi
      split at hs
      · rename_i hc
        simp only [Option.some.injEq] at hs
        subst hs
        exact ⟨i, w, _, hi, rfl, Worker.Next.exitSignal hc.1 hc.2⟩
      · cases hs
  | workerTimeout i =>
    right
    simp only [step, stepWorkerTimeout] at hs
    rw [List.get?_eq_getElem?] at hs
    split at hs
    · cases hs
    · rename_i w hi
      split at hs
      · rename_i hc
        simp only [Option.some.injEq] at hs
        subst hs
        exact ⟨i, w, _, hi, rfl, Worker.Next.timeout hc.1⟩
      · cases hs
  | stop =>
    right
    simp only [step, stepStop] at hs
    rw [List.get?_eq_getElem?] at hs
    split at hs
    · cases hs
    · rename_i w hi
      split at hs
      · rename_i hc
        simp only [Option.some.injEq] at hs
        subst hs
        exact ⟨s.stopNext, w, _, hi, rfl, Worker.Next.signalled hc⟩
      · cases hs

/-- What a step of the session does to worker `i`: nothing, or a step of its
own. -/
theorem step_worker_at (env : Env) (s t : Session) (task : Task) (i : Nat) (w : Worker)
    (hs : step env s task = some t) (hw : s.workers[i]? = some w) :
    ∃ v, t.workers[i]? = some v ∧ (v = w ∨ Worker.Next env.cb s.calls w v) := by
  rcases step_next env s t task hs with h | ⟨j, w1, v, hj, hset, hn⟩
  · exact ⟨w, by rw [h]; exact hw, Or.inl rfl⟩
  · by_cases hij : j = i
    · subst hij
      rw [hw] at hj
      simp only [Option.some.injEq] at hj
      subst hj
      have hlt : j < s.workers.length := by
        by_contra hge
        rw [List.getElem?_eq_none (by omega)] at hw
        cases hw
      exact ⟨v, by rw [hset, List.getElem?_set_self hlt], Or.inr hn⟩
    · exact ⟨w, by rw [hset, List.getElem?_set_ne hij]; exact hw, Or.inl rfl⟩

/-- A worker that has left its loop receives nothing, calls the handler and
`IncLine` no more, and stays out of the loop. -/
theorem next_after_loop (cb : CallBack) (calls : List Record) (w v : Worker)
    (h : Worker.Next cb calls w v)
    (hl : w.pc.leftLoop = true) :
    v.received = w.received ∧ v.invoked = w.invoked ∧ v.incs = w.incs ∧ v.exit = w.exit ∧
      v.answers = w.answers ∧ v.pc.leftLoop = true := by
  cases h with
  | receive line h => rw [h] at hl; cases hl
  | closed h => rw [h] at hl; cases hl
  | failed line err h hcb => rw [h] at hl; cases hl
  | handled line h hcb => rw [h] at hl; cases hl
  | counted h => rw [h] at hl; cases hl
  | returned h => exact ⟨rfl, rfl, rfl, rfl, rfl, rfl⟩
  | exitSignal h hx => rw [h] at hl; cases hl
  | timeout h => rw [h] at hl; cases hl
  | signalled h => exact ⟨rfl, rfl, rfl, rfl, rfl, hl⟩

theorem workerInv_start : WorkerInv Worker.start :=
  ⟨rfl, rfl, fun _ x hx => (by simp [Worker.start] at hx),
    fun x hx => (by simp [Worker.start] at hx), rfl,
    fun err hx => (by simp [Worker.start] at hx)⟩

theorem getLast?_of_all_none (l : List (Option String)) (h : ∀ r ∈ l, r = none)
    (err : String) (hx : l.getLast? = some (some err)) : False := by
  have := h _ (List.mem_of_getLast?_eq_some hx)
  cases this

theorem workerInv_next (cb : CallBack) (calls : List Record) (w v : Worker)
    (hi : WorkerInv w) (h : Worker.Next cb calls w v) :
    WorkerInv v := by
  obtain ⟨h1, h0, h2, h3, h4, h5⟩ := hi
  cases h with
  | receive line h =>
    have hl : w.pc.leftLoop = false := by rw [h]; rfl
    refine ⟨?_, h0, fun _ => h2 hl, h3, ?_, ?_⟩
    · simp only [Worker.inHand, h, List.append_nil] at h1
      simp only [Worker.inHand, h1]
    · simpa [Worker.pending, Worker.handled, h] using h4
    · intro err hx
      exact (getLast?_of_all_none _ (h2 hl) err hx).elim
  | closed h =>
    have hl : w.pc.leftLoop = false := by rw [h]; rfl
    refine ⟨?_, h0, fun hq => (by cases hq), h3, ?_, ?_⟩
    · simpa [Worker.inHand, h] using h1
    · simpa [Worker.pending, Worker.handled, h] using h4
    · intro err hx
      exact (getLast?_of_all_none _ (h2 hl) err hx).elim
  | failed line err h hcb =>
    have hl : w.pc.leftLoop = false := by rw [h]; rfl
    refine ⟨?_, ?_, fun hq => (by cases hq), ?_, ?_, ?_⟩
    · simpa [Worker.inHand, h] using h1
    · simp [h0]
    · simpa using h2 hl
    · simpa [Worker.pending, Worker.handled, h, List.filter_append] using h4
    · intro err1 hx
      rw [List.getLast?_concat] at hx
      simp only [Option.some.injEq] at hx
      subst hx
      exact ⟨rfl, rfl⟩
  | handled line h hcb =>
    have hl : w.pc.leftLoop = false := by rw [h]; rfl
    refine ⟨?_, ?_, ?_, ?_, ?_, ?_⟩
    · simpa [Worker.inHand, h] using h1
    · simp [h0]
    · intro _ r hr
      simp only [List.mem_append, List.mem_singleton] at hr
      rcases hr with hr | hr
      · exact h2 hl r hr
      · exact hr
    · simpa using h2 hl
    · simpa [Worker.pending, Worker.handled, h, List.filter_append] using h4
    · intro err hx
      rw [List.getLast?_concat] at hx
      cases hx
  | counted h =>
    have hl : w.pc.leftLoop = false := by rw [h]; rfl
    refine ⟨?_, h0, fun _ => h2 hl, h3, ?_, ?_⟩
    · simpa [Worker.inHand, h] using h1
    · simpa [Worker.pending, Worker.handled, h] using h4
    · intro err hx
      exact (getLast?_of_all_none _ (h2 hl) err hx).elim
  | returned h =>
    refine ⟨?_, h0, fun hq => (by cases hq), h3, ?_, ?_⟩
    · simpa [Worker.inHand, h] using h1
    · simpa [Worker.pending, Worker.handled, h] using h4
    · intro err hx
      exact ⟨rfl, (h5 err hx).2⟩
  | exitSignal h hx =>
    have hl : w.pc.leftLoop = false := by rw [h]; rfl
    refine ⟨?_, h0, fun hq => (by cases hq), h3, ?_, ?_⟩
    · simpa [Worker.inHand, h] using h1
    · simpa [Worker.pending, Worker.handled, h] using h4
    · intro err hx
      exact (getLast?_of_all_none _ (h2 hl) err hx).elim
  | timeout h =>
    have hl : w.pc.leftLoop = false := by rw [h]; rfl
    refine ⟨?_, h0, fun hq => (by cases hq), h3, ?_, ?_⟩
    · simpa [Worker.inHand, h] using h1
    · simpa [Worker.pending, Worker.handled, h] using h4
    · intro err hx
      exact (getLast?_of_all_none _ (h2 hl) err hx).elim
  | signalled h => exact ⟨h1, h0, h2, h3, h4, h5⟩

theorem workerInv_step (env : Env) (s t : Session) (task : Task)
    (h : ∀ w ∈ s.workers, WorkerInv w) (hs : step env s task = some t) :
    ∀ w ∈ t.workers, WorkerInv w := by
  rcases step_next env s t task hs with e | ⟨j, w1, v, hj, hset, hn⟩
  · rw [e]; exact h
  · intro w hw
    rw [hset] at hw
    rcases List.mem_or_eq_of_mem_set hw with hw | hw
    · exact h w hw
    · rw [hw]
      exact workerInv_next _ _ w1 v (h w1 (List.getElem?_mem hj)) hn

theorem workerInv_run (env : Env) (sched : List Task) (s t : Session)
    (h : ∀ w ∈ s.workers, WorkerInv w) (hs : run env s sched = some t) :
    ∀ w ∈ t.workers, WorkerInv w := by
  induction sched generalizing s with
  | nil =>
    simp only [run, Option.some.injEq] at hs
    subst hs
    exact h
  | cons task sched ih =>
    simp only [run] at hs
    cases h1 : step env s task with
    | none => rw [h1] at hs; cases hs
    | some s1 =>
      rw [h1] at hs
      exact ih s1 (workerInv_step env s s1 task h h1) hs

theorem workerInv_reachable (env : Env) (a : AWSTools) (s : Session)
    (h : Reachable env a s) : ∀ w ∈ s.workers, WorkerInv w := by
  obtain ⟨s0, sched, h0, hrun⟩ := h
  refine workerInv_run env sched s0 s ?_ hrun
  unfold ReadFileStreamFromS3WithContext at h0
  split at h0
  · cases h0
  · split at h0
    · cases h0
    · simp only [Option.some.injEq] at h0
      subst h0
      intro w hw
      simp only [List.mem_replicate] at hw
      rw [hw.2]
      exact workerInv_start

theorem run_worker_after_loop (env : Env) (sched : List Task) (s t : Session) (i : Nat)
    (w : Worker) (hw : s.workers[i]? = some w) (hl : w.pc.leftLoop = true)
    (hs : run env s sched = some t) :
    ∃ v, t.workers[i]? = some v ∧ v.received = w.received ∧ v.invoked = w.invoked ∧
      v.incs = w.incs ∧ v.exit = w.exit ∧ v.answers = w.answers ∧
      v.pc.leftLoop = true := by
  induction sched generalizing s w with
  | nil =>
    simp only [run, Option.some.injEq] at hs
    subst hs
    exact ⟨w, hw, rfl, rfl, rfl, rfl, rfl, hl⟩
  | cons task sched ih =>
    simp only [run] at hs
    cases h1 : step env s task with
    | none => rw [h1] at hs; cases hs
    | some s1 =>
      rw [h1] at hs
      obtain ⟨v, hv, hn⟩ := step_worker_at env s s1 task i w h1 hw
      rcases hn with hn | hn
      · subst hn
        exact ih s1 v hv hl hs
      · obtain ⟨e1, e2, e3, e4, e5, e6⟩ := next_after_loop _ _ w v hn hl
        obtain ⟨u, hu, g1, g2, g3, g4, g5, g6⟩ := ih s1 v hv e6 hs
        exact ⟨u, hu, by rw [g1, e1], by rw [g2, e2], by rw [g3, e3], by rw [g4, e4],
          by rw [g5, e5], g6⟩

/-- The worker at the call of the handler, when the handler fails: it returns
from its loop without calling `IncLine`. -/
theorem worker_callback_fail (env : Env) (s : Session) (i : Nat) (w : Worker) (line : Record)
    (err : String) (hw : s.workers[i]? = some w) (hpc : w.pc = WorkerPc.callback line)
    (hcb : env.cb s.calls line = some err) :
    ∃ t v, step env s (Task.worker i) = some t ∧ t.workers[i]? = some v ∧
      v.pc = WorkerPc.wgDone ∧ v.invoked = w.invoked ++ [line] ∧
      v.answers = w.answers ++ [some err] ∧ v.received = w.received ∧
      v.incs = w.incs ∧ v.exit = some (WorkerExit.handlerError err) ∧ t.tools = s.tools ∧
      t.calls = s.calls ++ [line] := by
  have hlt : i < s.workers.length := by
    by_contra hge
    rw [List.getElem?_eq_none (by omega)] at hw
    cases hw
  refine ⟨({ s with calls := s.calls ++ [line] } : Session).setWorker i
      { w with pc := WorkerPc.wgDone, invoked := w.invoked ++ [line],
               exit := some (WorkerExit.handlerError err),
               answers := w.answers ++ [some err] },
    { w with pc := WorkerPc.wgDone, invoked := w.invoked ++ [line],
             exit := some (WorkerExit.handlerError err),
             answers := w.answers ++ [some err] }, ?_, ?_, rfl, rfl, rfl, rfl, rfl, rfl, rfl,
    rfl⟩
  · simp only [step, stepWorker]
    rw [List.get?_eq_getElem?, hw]
    simp only [hpc, hcb]
  · simp only [Session.setWorker]
    rw [List.getElem?_set_self hlt]

/-- The worker at the call of the handler, when the handler succeeds: it calls
`IncLine(fileName)` once and is back at the `select`. -/
theorem worker_callback_ok (env : Env) (s : Session) (i : Nat) (w : Worker) (line : Record)
    (hw : s.workers[i]? = some w) (hpc : w.pc = WorkerPc.callback line)
    (hcb : env.cb s.calls line = none) :
    ∃ t v, run env s [Task.worker i, Task.worker i] = some t ∧ t.workers[i]? = some v ∧
      v.pc = WorkerPc.select ∧ v.invoked = w.invoked ++ [line] ∧
      v.answers = w.answers ++ [none] ∧ v.received = w.received ∧
      v.incs = w.incs + 1 ∧ t.tools = s.tools.IncLine env.fileName ∧
      t.calls = s.calls ++ [line] := by
  have hlt : i < s.workers.length := by
    by_contra hge
    rw [List.getElem?_eq_none (by omega)] at hw
    cases hw
  have e1 : step env s (Task.worker i) =
      some (({ s with calls := s.calls ++ [line] } : Session).setWorker i
        { w with pc := WorkerPc.incLine, invoked := w.invoked ++ [line],
                 answers := w.answers ++ [none] }) := by
    simp only [step, stepWorker]
    rw [List.get?_eq_getElem?, hw]
    simp only [hpc, hcb]
  have hw1 : (({ s with calls := s.calls ++ [line] } : Session).setWorker i
      { w with pc := WorkerPc.incLine, invoked := w.invoked ++ [line],
               answers := w.answers ++ [none] }).workers[i]? =
      some { w with pc := WorkerPc.incLine, invoked := w.invoked ++ [line],
                    answers := w.answers ++ [none] } := by
    simp only [Session.setWorker]
    rw [List.getElem?_set_self hlt]
  have e2 : step env (({ s with calls := s.calls ++ [line] } : Session).setWorker i
      { w with pc := WorkerPc.incLine, invoked := w.invoked ++ [line],
               answers := w.answers ++ [none] }) (Task.worker i) =
      some (({ (({ s with calls := s.calls ++ [line] } : Session).setWorker i
          { w with pc := WorkerPc.incLine, invoked := w.invoked ++ [line],
                   answers := w.answers ++ [none] }) with
          tools := s.tools.IncLine env.fileName } : Session).setWorker i
        { w with pc := WorkerPc.select, invoked := w.invoked ++ [line], incs := w.incs + 1,
                 answers := w.answers ++ [none] }) := by
    simp only [step, stepWorker]
    rw [List.get?_eq_getElem?, hw1]
    rfl
  refine ⟨({ (({ s with calls := s.calls ++ [line] } : Session).setWorker i
          { w with pc := WorkerPc.incLine, invoked := w.invoked ++ [line],
                   answers := w.answers ++ [none] }) with
          tools := s.tools.IncLine env.fileName } : Session).setWorker i
        { w with pc := WorkerPc.select, invoked := w.invoked ++ [line], incs := w.incs + 1,
                 answers := w.answers ++ [none] },
    { w with pc := WorkerPc.select, invoked := w.invoked ++ [line], incs := w.incs + 1,
             answers := w.answers ++ [none] },
    by simp only [run, e1, e2], ?_, rfl, rfl, rfl, rfl, rfl, rfl, rfl⟩
  simp only [Session.setWorker]
  rw [List.getElem?_set_self (by simp [hlt])]

/-- The worker at its deferred `wg.Done()` returns. -/
theorem worker_returns (env : Env) (c0 : Int) (s : Session) (i : Nat) (w : Worker)
    (hC : CountInv env c0 s) (hw : s.workers[i]? = some w) (hpc : w.pc = WorkerPc.wgDone) :
    ∃ t v, step env s (Task.worker i) = some t ∧ t.workers[i]? = some v ∧
      v.pc = WorkerPc.finished ∧ v.invoked = w.invoked ∧ v.received = w.received ∧
      v.incs = w.incs := by
  have hlt : i < s.workers.length := by
    by_contra hge
    rw [List.getElem?_eq_none (by omega)] at hw
    cases hw
  have hwg : 0 < s.wg := by
    have h1 := weight_le_sum Worker.live s.workers i w hw
    have h2 := hC.wg
    have h3 : w.live = 1 := by simp [Worker.live, hpc]
    omega
  refine ⟨({ s with wg := s.wg - 1 } : Session).setWorker i { w with pc := WorkerPc.finished },
    { w with pc := WorkerPc.finished }, ?_, ?_, rfl, rfl, rfl, rfl⟩
  · simp only [step, stepWorker]
    rw [List.get?_eq_getElem?, hw]
    simp only [hpc, hwg, if_true]
  · simp only [Session.setWorker]
    rw [List.getElem?_set_self hlt]

/-! ## The session: every worker fails while the reader produces -/

theorem ReadString_complete (l more : List Byte) (f : Option String) (h : CompleteLine l) :
    ReadString ⟨l ++ more, f⟩ newline = ⟨l, none, ⟨more, f⟩⟩ := by
  obtain ⟨b, hb, hnb⟩ := h
  have hs : splitAtDelim newline (l ++ more) = (l, some more) := by
    rw [hb]
    simp only [List.append_assoc, List.singleton_append]
    exact splitAtDelim_append newline b _ hnb
  simp only [ReadString, hs]

/-- The reader reads a complete line and goes to its send. -/
theorem reader_reads (env : Env) (s : Session) (l more : List Byte) (f : Option String)
    (hl : CompleteLine l) (hpc : s.reader = ReaderPc.readString ⟨l ++ more, f⟩) :
    ∃ t, step env s Task.reader = some t ∧ t.reader = ReaderPc.sendLine l ⟨more, f⟩ ∧
      t.queue = s.queue ∧ t.workers = s.workers ∧ t.closer = s.closer ∧
      t.errorChan = s.errorChan ∧ t.errSent = s.errSent := by
  simp only [step, stepReader, hpc, ReadString_complete l more f hl]
  exact ⟨_, rfl, rfl, rfl, rfl, rfl, rfl, rfl⟩

/-- The reader sends its line into the buffer of the queue when there is room. -/
theorem reader_sends (env : Env) (s : Session) (l : Record) (body : Body)
    (hpc : s.reader = ReaderPc.sendLine l body) (hroom : s.queue.length < s.queueCap) :
    ∃ t, step env s Task.reader = some t ∧ t.reader = ReaderPc.readString body ∧
      t.queue = s.queue ++ [l] ∧ t.workers = s.workers ∧ t.closer = s.closer ∧
      t.errorChan = s.errorChan ∧ t.errSent = s.errSent := by
  simp only [step, stepReader, hpc, sendQueue, hroom, if_true]
  exact ⟨_, rfl, rfl, rfl, rfl, rfl, rfl, rfl⟩

/-- A worker at the `select` takes the line of the reader waiting in its send
on the empty queue. -/
theorem worker_takes (env : Env) (s : Session) (k : Nat) (w : Worker) (l : Record)
    (body : Body) (hpc : s.reader = ReaderPc.sendLine l body) (hq : s.queue = [])
    (hw : s.workers[k]? = some w) (hsel : w.pc = WorkerPc.select) :
    ∃ t v, step env s (Task.worker k) = some t ∧ t.reader = ReaderPc.readString body ∧
      t.queue = [] ∧ t.workers = s.workers.set k v ∧ v.pc = WorkerPc.callback l ∧
      t.closer = s.closer ∧ t.errorChan = s.errorChan ∧ t.errSent = s.errSent := by
  simp only [step, stepWorker]
  rw [List.get?_eq_getElem?, hw]
  simp only [hsel, recvQueue, hq, hpc]
  exact ⟨_, _, rfl, rfl, rfl, rfl, rfl, rfl, rfl, rfl⟩

/-- A worker at the call of the handler, when the handler fails, goes to its
deferred `wg.Done()`. -/
theorem worker_fails (env : Env) (s : Session) (k : Nat) (w : Worker) (l : Record)
    (err : String) (hw : s.workers[k]? = some w) (hpc : w.pc = WorkerPc.callback l)
    (hcb : env.cb s.calls l = some err) :
    ∃ t v, step env s (Task.worker k) = some t ∧ t.reader = s.reader ∧
      t.queue = s.queue ∧ t.workers = s.workers.set k v ∧ v.pc = WorkerPc.wgDone ∧
      v.exit = some (WorkerExit.handlerError err) ∧
      t.closer = s.closer ∧ t.errorChan = s.errorChan ∧ t.errSent = s.errSent := by
  simp only [step, stepWorker]
  rw [List.get?_eq_getElem?, hw]
  simp only [hpc, hcb]
  exact ⟨_, _, rfl, rfl, rfl, rfl, rfl, rfl, rfl, rfl, rfl⟩

/-- A worker at its deferred `wg.Done()` returns. -/
theorem worker_done (env : Env) (c0 : Int) (s : Session) (k : Nat) (w : Worker)
    (hC : CountInv env c0 s) (hw : s.workers[k]? = some w) (hpc : w.pc = WorkerPc.wgDone) :
    ∃ t v, step env s (Task.worker k) = some t ∧ t.reader = s.reader ∧
      t.queue = s.queue ∧ t.workers = s.workers.set k v ∧ v.pc = WorkerPc.finished ∧
      v.exit = w.exit ∧
      t.closer = s.closer ∧ t.errorChan = s.errorChan ∧ t.errSent = s.errSent := by
  have hwg : 0 < s.wg := by
    have h1 := weight_le_sum Worker.live s.workers k w hw
    have h2 := hC.wg
    have h3 : w.live = 1 := by simp [Worker.live, hpc]
    omega
  simp only [step, stepWorker]
  rw [List.get?_eq_getElem?, hw]
  simp only [hpc, hwg, if_true]
  exact ⟨_, _, rfl, rfl, rfl, rfl, rfl, rfl, rfl, rfl, rfl⟩

theorem getElem?_set_self_of_some {α : Type} (l : List α) (k : Nat) (a b : α)
    (h : l[k]? = some a) : (l.set k b)[k]? = some b := by
  have hlt : k < l.length := by
    by_contra hge
    rw [List.getElem?_eq_none (by omega)] at h
    cases h
  rw [List.getElem?_set_self hlt]

/-- One round of the first phase: the reader reads a line, worker `k` takes it
from the reader, the handler fails on it and the worker returns. -/
theorem round_worker_fails (env : Env) (a : AWSTools) (s : Session) (k : Nat) (w : Worker)
    (l more : List Byte) (f : Option String) (hr : Reachable env a s)
    (hl : CompleteLine l) (hcb : ∀ calls, env.cb calls l ≠ none)
    (hpc : s.reader = ReaderPc.readString ⟨l ++ more, f⟩) (hq : s.queue = [])
    (hw : s.workers[k]? = some w) (hsel : w.pc = WorkerPc.select) :
    ∃ t v, Reachable env a t ∧ t.reader = ReaderPc.readString ⟨more, f⟩ ∧ t.queue = [] ∧
      t.workers = s.workers.set k v ∧ v.failed ∧ t.closer = s.closer ∧
      t.errorChan = s.errorChan ∧ t.errSent = s.errSent := by
  obtain ⟨s1, e1, a1, a2, a3, a4, a5, a6⟩ := reader_reads env s l more f hl hpc
  have r1 := reachable_step env a s s1 _ hr e1
  obtain ⟨s2, v2, e2, b1, b2, b3, b4, b5, b6, b7⟩ :=
    worker_takes env s1 k w l ⟨more, f⟩ a1 (by rw [a2, hq]) (by rw [a3]; exact hw) hsel
  have r2 := reachable_step env a s1 s2 _ r1 e2
  have hw2 : s2.workers[k]? = some v2 := by
    rw [b3, a3]
    exact getElem?_set_self_of_some _ _ _ _ hw
  obtain ⟨err, herr⟩ := Option.ne_none_iff_exists'.mp (hcb s2.calls)
  obtain ⟨s3, v3, e3, c1, c2, c3, c4, c5, c6, c7, c8⟩ :=
    worker_fails env s2 k v2 l err hw2 b4 herr
  have r3 := reachable_step env a s2 s3 _ r2 e3
  have hw3 : s3.workers[k]? = some v3 := by
    rw [c3]
    exact getElem?_set_self_of_some _ _ _ _ hw2
  obtain ⟨s4, v4, e4, d1, d2, d3, d4, d5, d6, d7, d8⟩ :=
    worker_done env _ s3 k v3 (countInv_reachable env a s3 r3) hw3 c4
  have r4 := reachable_step env a s3 s4 _ r3 e4
  refine ⟨s4, v4, r4, by rw [d1, c1, b1], by rw [d2, c2, b2], ?_, ⟨d4, err, by rw [d5, c5]⟩,
    by rw [d6, c6, b5, a4], by rw [d7, c7, b6, a5], by rw [d8, c8, b7, a6]⟩
  rw [d3, c3, b3, a3, List.set_set, List.set_set]

/-- The first phase: with one line for every worker still at its `select`,
every worker takes a line, fails on it and returns; the queue stays empty. -/
theorem phase_workers_fail (env : Env) (a : AWSTools) (more : List Byte) (f : Option String)
    (hcb : ∀ calls l, env.cb calls l ≠ none) (ls : List Record) :
    ∀ (s : Session) (k : Nat), Reachable env a s → (∀ l ∈ ls, CompleteLine l) →
      s.reader = ReaderPc.readString ⟨ls.flatten ++ more, f⟩ → s.queue = [] →
      k + ls.length = s.workers.length →
      (∀ (j : Nat) (w : Worker), s.workers[j]? = some w →
        (j < k → w.failed) ∧ (k ≤ j → w.pc = WorkerPc.select)) →
      ∃ t, Reachable env a t ∧ t.reader = ReaderPc.readString ⟨more, f⟩ ∧ t.queue = [] ∧
        t.workers.length = s.workers.length ∧ (∀ w ∈ t.workers, w.failed) ∧
        t.closer = s.closer ∧ t.errorChan = s.errorChan ∧ t.errSent = s.errSent := by
  induction ls with
  | nil =>
    intro s k hr _ hpc hq hlen hws
    refine ⟨s, hr, by simpa using hpc, hq, rfl, ?_, rfl, rfl, rfl⟩
    intro w hw
    obtain ⟨j, hj⟩ := List.getElem?_of_mem hw
    have hjlt : j < s.workers.length := by
      by_contra hge
      rw [List.getElem?_eq_none (by omega)] at hj
      cases hj
    simp only [List.length_nil, Nat.add_zero] at hlen
    exact (hws j w hj).1 (by omega)
  | cons l ls ih =>
    intro s k hr hl hpc hq hlen hws
    simp only [List.length_cons] at hlen
    have hk : k < s.workers.length := by omega
    have hwk : s.workers[k]? = some (s.workers[k]) := List.getElem?_eq_getElem hk
    have hsel := (hws k _ hwk).2 (le_refl _)
    have hpc1 : s.reader = ReaderPc.readString ⟨l ++ (ls.flatten ++ more), f⟩ := by
      rw [hpc]
      simp only [List.flatten_cons, List.append_assoc]
    obtain ⟨t, v, r1, t1, t2, t3, t4, t5, t6, t7⟩ :=
      round_worker_fails env a s k _ l (ls.flatten ++ more) f hr
        (hl l (List.mem_cons_self l ls)) (fun calls => hcb calls l) hpc1 hq hwk hsel
    have hlen1 : t.workers.length = s.workers.length := by rw [t3, List.length_set]
    obtain ⟨u, u0, u1, u2, u3, u4, u5, u6, u7⟩ := ih t (k + 1) r1
      (fun x hx => hl x (List.mem_cons_of_mem l hx)) t1 t2 (by rw [hlen1]; omega)
      (by
        intro j w hj
        rw [t3] at hj
        by_cases hjk : k = j
        · subst hjk
          rw [getElem?_set_self_of_some _ _ _ _ hwk] at hj
          simp only [Option.some.injEq] at hj
          subst hj
          exact ⟨fun _ => t4, fun h => absurd h (by omega)⟩
        · rw [List.getElem?_set_ne hjk] at hj
          obtain ⟨g1, g2⟩ := hws j w hj
          exact ⟨fun h => g1 (by omega), fun h => g2 (by omega)⟩)
    exact ⟨u, u0, u1, u2, by rw [u3, hlen1], u4, by rw [u5, t5], by rw [u6, t6],
      by rw [u7, t7]⟩

/-- The second phase: with no worker left to receive, the reader fills the
buffer of the queue. -/
theorem phase_queue_fills (env : Env) (a : AWSTools) (more : List Byte) (f : Option String)
    (ls : List Record) :
    ∀ (s : Session), Reachable env a s → (∀ l ∈ ls, CompleteLine l) →
      s.reader = ReaderPc.readString ⟨ls.flatten ++ more, f⟩ →
      s.queue.length + ls.length ≤ s.queueCap →
      ∃ t, Reachable env a t ∧ t.reader = ReaderPc.readString ⟨more, f⟩ ∧
        t.queue.length = s.queue.length + ls.length ∧ t.workers = s.workers ∧
        t.closer = s.closer ∧ t.errorChan = s.errorChan ∧ t.errSent = s.errSent := by
  induction ls with
  | nil =>
    intro s hr _ hpc _
    exact ⟨s, hr, by simpa using hpc, rfl, rfl, rfl, rfl, rfl⟩
  | cons l ls ih =>
    intro s hr hl hpc hroom
    simp only [List.length_cons] at hroom
    have hpc1 : s.reader = ReaderPc.readString ⟨l ++ (ls.flatten ++ more), f⟩ := by
      rw [hpc]
      simp only [List.flatten_cons, List.append_assoc]
    obtain ⟨s1, e1, a1, a2, a3, a4, a5, a6⟩ :=
      reader_reads env s l (ls.flatten ++ more) f (hl l (List.mem_cons_self l ls)) hpc1
    have r1 := reachable_step env a s s1 _ hr e1
    have hcap1 : s1.queueCap = s.queueCap := (step_shape env s s1 _ e1).1
    obtain ⟨s2, e2, b1, b2, b3, b4, b5, b6⟩ :=
      reader_sends env s1 l _ a1 (by rw [a2, hcap1]; omega)
    have r2 := reachable_step env a s1 s2 _ r1 e2
    have hcap2 : s2.queueCap = s1.queueCap := (step_shape env s1 s2 _ e2).1
    have hq2 : s2.queue.length = s.queue.length + 1 := by
      rw [b2, a2, List.length_append, List.length_singleton]
    obtain ⟨u, u0, u1, u2, u3, u4, u5, u6⟩ := ih s2 r2
      (fun x hx => hl x (List.mem_cons_of_mem l hx)) b1 (by rw [hq2, hcap2, hcap1]; omega)
    exact ⟨u, u0, u1, by rw [u2, hq2, List.length_cons]; omega, by rw [u3, b3, a3],
      by rw [u4, b4, a4], by rw [u5, b5, a5], by rw [u6, b6, a6]⟩

theorem split_lines {α : Type} (lines : List α) (n b : Nat) (h : n + b < lines.length) :
    ∃ l1 l2 x l3, lines = l1 ++ (l2 ++ x :: l3) ∧ l1.length = n ∧ l2.length = b := by
  have h1 : lines = lines.take n ++ lines.drop n := (List.take_append_drop n lines).symm
  have h2 : lines.drop n = (lines.drop n).take b ++ (lines.drop n).drop b :=
    (List.take_append_drop b (lines.drop n)).symm
  have h3 : 0 < ((lines.drop n).drop b).length := by
    simp only [List.length_drop]
    omega
  obtain ⟨x, l3, h4⟩ := List.exists_cons_of_length_pos h3
  refine ⟨lines.take n, (lines.drop n).take b, x, l3, ?_, ?_, ?_⟩
  · rw [← h4, ← h2, ← h1]
  · rw [List.length_take]
    omega
  · rw [List.length_take, List.length_drop]
    omega

/-- The start of a session and the first step of the reader on an object that
opens. -/
theorem start_opens (env : Env) (a : AWSTools) (body : Body) (hN : 0 ≤ a.queueWorkers)
    (hB : 0 ≤ a.params.BufferLimit) (ho : env.object = Except.ok body) :
    ∃ s, Reachable env a s ∧ s.reader = ReaderPc.readString body ∧ s.queue = [] ∧
      s.workers = List.replicate a.queueWorkers.toNat Worker.start ∧
      s.closer = CloserPc.wait ∧ s.errorChan = [] ∧ s.errSent = [] := by
  have h0 : ∃ s0, ReadFileStreamFromS3WithContext a = some s0 ∧
      s0.reader = ReaderPc.getObject ∧ s0.queue = [] ∧
      s0.workers = List.replicate a.queueWorkers.toNat Worker.start ∧
      s0.closer = CloserPc.wait ∧ s0.errorChan = [] ∧ s0.errSent = [] := by
    unfold ReadFileStreamFromS3WithContext
    rw [if_neg (by omega), if_neg (by omega)]
    exact ⟨_, rfl, rfl, rfl, rfl, rfl, rfl, rfl⟩
  obtain ⟨s0, e0, a1, a2, a3, a4, a5, a6⟩ := h0
  have h1 : ∃ s, step env s0 Task.reader = some s ∧ s.reader = ReaderPc.readString body ∧
      s.queue = s0.queue ∧ s.workers = s0.workers ∧ s.closer = s0.closer ∧
      s.errorChan = s0.errorChan ∧ s.errSent = s0.errSent := by
    simp only [step, stepReader, a1, ho]
    exact ⟨_, rfl, rfl, rfl, rfl, rfl, rfl, rfl⟩
  obtain ⟨s, e1, b1, b2, b3, b4, b5, b6⟩ := h1
  exact ⟨s, ⟨s0, [Task.reader], e0, by simp only [run, e1]⟩, b1, by rw [b2, a2],
    by rw [b3, a3], by rw [b4, a4], by rw [b5, a5], by rw [b6, a6]⟩

/-! ## The session: the count of non-empty lines -/

theorem zip_filter_length {α β : Type} (p : β → Bool) (q : α → Bool) (xs : List α) :
    ∀ ys : List β, ys.length = xs.length → (∀ x ∈ xs, q x = true) →
      ((xs.zip ys).filter (fun z => p z.2 && q z.1)).length = (ys.filter p).length := by
  induction xs with
  | nil =>
    intro ys hlen _
    have : ys = [] := List.length_eq_zero.mp hlen
    subst this
    rfl
  | cons x xs ih =>
    intro ys hlen hq
    cases ys with
    | nil => simp at hlen
    | cons y ys =>
      simp only [List.length_cons, Nat.add_right_cancel_iff] at hlen
      have hx : q x = true := hq x (List.mem_cons_self x xs)
      have h := ih ys hlen (fun z hz => hq z (List.mem_cons_of_mem x hz))
      simp only [List.zip_cons_cons, List.filter_cons, hx, Bool.and_true]
      cases p y <;> simp [h]

/-- Every record a worker called the handler on was enqueued by the reader. -/
theorem invoked_mem_enqueued (s : Session) (h : QueueInv s) (w : Worker) (hw : w ∈ s.workers)
    (x : Record) (hx : x ∈ w.invoked) : x ∈ s.enqueued := by
  obtain ⟨i, hi⟩ := List.getElem?_of_mem hw
  have hrec : x ∈ w.received := by
    rw [h.hand w hw]
    exact List.mem_append_left _ hx
  have h1 := weight_le_sum (fun w : Worker => w.received.count x) s.workers i w hi
  have h2 := h.counts x
  have h3 : 0 < w.received.count x := List.count_pos_iff.mpr hrec
  simp only at h1
  exact List.count_pos_iff.mp (by omega)

/-- On a stream without empty line the lines handled are all non-empty. -/
theorem handledNonEmpty_of_stream (env : Env) (s : Session) (total : ReaderRun)
    (htr : readerTrace env = some total) (hne : ∀ r ∈ total.records, emptyLine r = false)
    (hT : TraceInv env s) (hQ : QueueInv s) (hW : ∀ w ∈ s.workers, WorkerInv w) :
    (∀ w ∈ s.workers, w.handledNonEmpty = w.handled) ∧ s.handledNonEmpty = s.handled := by
  obtain ⟨f1, _⟩ := traceInv_facts env s total htr hT
  have hw : ∀ w ∈ s.workers, w.handledNonEmpty = w.handled := by
    intro w hmem
    unfold Worker.handledNonEmpty Worker.handled
    apply zip_filter_length (fun r : Option String => r.isNone)
      (fun x : Record => !emptyLine x) w.invoked w.answers (hW w hmem).answered
    intro x hx
    have := hne x (f1.subset (invoked_mem_enqueued s hQ w hmem x hx))
    simp [this]
  refine ⟨hw, ?_⟩
  unfold Session.handledNonEmpty Session.handled
  exact congrArg List.sum (List.map_congr_left hw)

/-- With a handler that always succeeds no recorded answer is an error. -/
theorem noFail_step (env : Env) (hcb : ∀ calls line, env.cb calls line = none)
    (s t : Session) (task : Task) (h : ∀ w ∈ s.workers, ∀ r ∈ w.answers, r = none)
    (hs : step env s task = some t) : ∀ w ∈ t.workers, ∀ r ∈ w.answers, r = none := by
  rcases step_next env s t task hs with e | ⟨j, w1, v, hj, hset, hn⟩
  · rw [e]; exact h
  · intro w hw
    rw [hset] at hw
    rcases List.mem_or_eq_of_mem_set hw with hw | hw
    · exact h w hw
    · rw [hw]
      have h1 := h w1 (List.getElem?_mem hj)
      cases hn with
      | receive line hp => exact h1
      | closed hp => exact h1
      | failed line err hp hf => rw [hcb] at hf; cases hf
      | handled line hp hf =>
        intro r hr
        simp only [List.mem_append, List.mem_singleton] at hr
        rcases hr with hr | hr
        · exact h1 r hr
        · exact hr
      | counted hp => exact h1
      | returned hp => exact h1
      | exitSignal hp hx => exact h1
      | timeout hp => exact h1
      | signalled hp => exact h1

/-- A call from outside that does not write the key of the session leaves the
invariants of the session as they are. -/
theorem countInv_call (env : Env) (c0 : Int) (s : Session) (c : RegistryCall)
    (h : CountInv env c0 s) (hc : (Event.call c).leaves env.fileName = true) :
    CountInv env c0 { s with tools := s.tools.call c } := by
  refine ⟨h.wg, h.closer, h.closes, ?_, h.handled⟩
  have hk : c.writes = true → c.ref ≠ env.fileName := by
    intro hwr hre
    simp [Event.leaves, hwr, hre] at hc
  have := lines_call_other s.tools c env.fileName hk
  have hg : (s.tools.call c).GetLines env.fileName = s.tools.GetLines env.fileName := by
    simp only [AWSTools.GetLines, LineMap.read, this]
  show (s.tools.call c).GetLines env.fileName = _
  rw [hg]
  exact h.count

/-- The invariants of a session hold along every sequence of events in which
no call from outside writes the key of the session. -/
theorem events_inv (env : Env) (hcb : ∀ calls line, env.cb calls line = none) (c0 : Int)
    (evs : List Event) :
    ∀ s t, runEvents env s evs = some t → (∀ e ∈ evs, e.leaves env.fileName = true) →
      CountInv env c0 s → TraceInv env s → QueueInv s → (∀ w ∈ s.workers, WorkerInv w) →
      (∀ w ∈ s.workers, ∀ r ∈ w.answers, r = none) →
      CountInv env c0 t ∧ TraceInv env t ∧ QueueInv t ∧ (∀ w ∈ t.workers, WorkerInv w) ∧
        (∀ w ∈ t.workers, ∀ r ∈ w.answers, r = none) := by
  induction evs with
  | nil =>
    intro s t hrun _ h1 h2 h3 h4 h5
    simp only [runEvents, Option.some.injEq] at hrun
    subst hrun
    exact ⟨h1, h2, h3, h4, h5⟩
  | cons e evs ih =>
    intro s t hrun hout h1 h2 h3 h4 h5
    simp only [runEvents] at hrun
    have hout1 : ∀ x ∈ evs, x.leaves env.fileName = true :=
      fun x hx => hout x (List.mem_cons_of_mem e hx)
    cases e with
    | task task =>
      simp only [stepEvent] at hrun
      cases hs : step env s task with
      | none => rw [hs] at hrun; cases hrun
      | some s1 =>
        rw [hs] at hrun
        exact ih s1 t hrun hout1 (countInv_step env c0 s s1 task h1 hs)
          (traceInv_step env s s1 task h2 hs) (queueInv_step env s s1 task h3 hs)
          (workerInv_step env s s1 task h4 hs) (noFail_step env hcb s s1 task h5 hs)
    | call c =>
      simp only [stepEvent] at hrun
      exact ih _ t hrun hout1
        (countInv_call env c0 s c h1 (hout _ (List.mem_cons_self _ _)))
        ⟨h2.trace, h2.chan, h2.closes⟩ ⟨h3.counts, h3.hand, h3.bound⟩ h4 h5

theorem readerLoop_lines (n : Nat) :
    readerLoop ⟨(List.replicate n [120, 10]).flatten, none⟩ =
      some ⟨List.replicate n [120, 10], none⟩ := by
  induction n with
  | zero => rfl
  | succ n ih =>
    rw [readerLoop_unfold]
    have hc : CompleteLine [120, 10] := ⟨[120], rfl, by decide⟩
    have hr := ReadString_complete [120, 10] (List.replicate n [120, 10]).flatten none hc
    simp only [List.replicate_succ, List.flatten_cons]
    rw [hr]
    simp only [ih]

theorem emptyLine_replicate (n : Nat) : ∀ r ∈ List.replicate n ([120, 10] : Record),
    emptyLine r = false := by
  intro r hr
  rw [(List.mem_replicate.mp hr).2]
  decide

/-- A session on `n` lines "x\n" with one worker can complete with `n`
non-empty lines handled; its count is then `n` wrapped into `int64`. -/
theorem run_lines (n : Nat) :
    ∃ t, Reachable (envLines n) toolsOne t ∧ 0 < t.errCloses ∧
      t.handledNonEmpty = n ∧
      t.tools.GetLines (envLines n).fileName = Int64.ofInt ((n : Nat) : Int) := by
  obtain ⟨recs, t, hrecs, hr, hcl, _, hh⟩ :=
    run_complete (envLines n) (fun _ _ => rfl) toolsOne (List.replicate n [120, 10]).flatten
      rfl (by decide) rfl
  rw [readerLoop_lines] at hrecs
  injection hrecs with hrecs
  injection hrecs with hrecs
  have hh2 : t.handled = n := by rw [hh, ← hrecs, List.length_replicate]
  have hne := (handledNonEmpty_of_stream (envLines n) t ⟨List.replicate n [120, 10], none⟩
    (readerLoop_lines n) (emptyLine_replicate n) (traceInv_reachable _ _ t hr)
    (queueInv_reachable _ _ t hr) (workerInv_reachable _ _ t hr)).2
  have hpos : 0 < t.errCloses := by omega
  have h := (countInv_closed (envLines n) _ t (countInv_reachable (envLines n) toolsOne t hr)
    hpos).1
  have h0v : (toolsOne.GetLines (envLines n).fileName).val = 0 := rfl
  rw [h0v, hh2, zero_add] at h
  exact ⟨t, hr, hpos, by rw [hne, hh2], h⟩

/-! # The claims -/

/-- C1: on a stream whose reads all succeed the reader loop ends without error
and the records it enqueues are the stream cut after each newline: they
concatenate to the stream, every record is non-empty, no record has a newline
before its last byte, every record but the last ends with a newline, and there
is a last record without newline exactly when the stream is non-empty and does
not end with a newline. The stream "a\nb" gives the records "a\n" and "b", the
empty stream gives none. -/
theorem C1_reader_records (data : List Byte) :
    (∃ recs, readerLoop ⟨data, none⟩ = some ⟨recs, none⟩ ∧
      recs.flatten = data ∧
      (∀ r ∈ recs, r ≠ []) ∧
      (∀ r ∈ recs, newline ∉ r.dropLast) ∧
      (∀ pre r post, recs = pre ++ r :: post → post ≠ [] → r.getLast? = some newline) ∧
      ((∃ r, recs.getLast? = some r ∧ newline ∉ r) ↔
        (data ≠ [] ∧ data.getLast? ≠ some newline))) ∧
    readerLoop ⟨[97, 10, 98], none⟩ = some ⟨[[97, 10], [98]], none⟩ ∧
    readerLoop ⟨[], none⟩ = some ⟨[], none⟩ := by
  refine ⟨?_, by decide, by decide⟩
  obtain ⟨recs, hr, hs⟩ := readLoop_lineSplit (data.length + 1) data (Nat.lt_succ_self _)
  exact ⟨recs, hr, hs.flatten_eq, hs.ne_nil, hs.inner, hs.not_last, hs.last_iff⟩

/-- C2: on a stream whose reads all succeed, in every reachable state of a
session, whatever the queue capacity and the number of workers, the records
enqueued so far, concatenated in order, are a prefix of the stream, and once
the reader has left its loop they are the stream exactly. -/
theorem C2_enqueued_concat (env : Env) (a : AWSTools) (data : List Byte) (s : Session)
    (ho : env.object = Except.ok ⟨data, none⟩) (hr : Reachable env a s) :
    s.enqueued.flatten <+: data ∧ (s.reader.leftLoop = true → s.enqueued.flatten = data) := by
  obtain ⟨s0, sched, h0, hrun⟩ := hr
  exact readerInv_prefix data s
    (readerInv_run env data sched s0 s ho (readerInv_start data a s0 h0) hrun)

/-- C2, witness: a session on "a\nb" in which the reader has returned has
enqueued records that concatenate to "a\nb". -/
theorem C2_enqueued_concat_witness :
    ∃ t, Reachable envAB toolsOne t ∧ t.reader = ReaderPc.finished ∧
      t.enqueued.flatten = [97, 10, 98] := by
  obtain ⟨recs, t, _, hr, _, hfin, _⟩ :=
    run_complete envAB (fun _ _ => rfl) toolsOne [97, 10, 98] rfl (by decide) rfl
  exact ⟨t, hr, hfin,
    (C2_enqueued_concat envAB toolsOne [97, 10, 98] t rfl hr).2 (by rw [hfin]; rfl)⟩

/-- C4 (as amended): after `IncLine(r)` the value of `GetLines(r)` is the `int64`
successor of the value before: exactly one more whenever the count before is
below `2^63 - 1`, and 1 when `r` had no entry before the call. -/
theorem C4_incLine_adds_one (a : AWSTools) (r : String) :
    ((a.IncLine r).GetLines r).val = wrapInt64 ((a.GetLines r).val + 1) ∧
    ((a.GetLines r).val < 2 ^ 63 - 1 →
      ((a.IncLine r).GetLines r).val = (a.GetLines r).val + 1) ∧
    (a.lines r = none → ((a.IncLine r).GetLines r).val = 1) := by
  rw [GetLines_IncLine_same]
  refine ⟨rfl, ?_, ?_⟩
  · intro h
    rw [Int64.succ_val]
    exact wrapInt64_of_inRange _ (by have := (a.GetLines r).lower; omega) (by omega)
  · intro h
    have h0 : a.GetLines r = Int64.zero := by simp [AWSTools.GetLines, LineMap.read, h]
    rw [h0]
    decide

/-- C4, witness: from the count 41 to 42, and from no entry to 1. -/
theorem C4_incLine_adds_one_witness :
    (({ toolsAtMax with lines := LineMap.empty.write "f" (Int64.ofInt 41) } : AWSTools).IncLine
        "f").GetLines "f" = Int64.ofInt 42 ∧
    ((toolsAtMax.IncLine "g").GetLines "g").val = 1 := by
  constructor
  · apply Int64.ext_val
    have h := (C4_incLine_adds_one
      ({ toolsAtMax with lines := LineMap.empty.write "f" (Int64.ofInt 41) } : AWSTools) "f").2.1
      (by decide)
    rw [h]
    decide
  · exact (C4_incLine_adds_one toolsAtMax "g").2.2 (by decide)

/-- C4, counterexample: at the count `2^63 - 1` the increment wraps to `-2^63`,
which is not one more than the count before. -/
theorem C4_incLine_wraps_at_max :
    (toolsAtMax.GetLines "f").val = 2 ^ 63 - 1 ∧
    ((toolsAtMax.IncLine "f").GetLines "f").val = -(2 ^ 63) ∧
    ((toolsAtMax.IncLine "f").GetLines "f").val ≠ (toolsAtMax.GetLines "f").val + 1 := by
  decide

/-- C5: `GetLines(r)` returns 0, and `r` has no entry, on a freshly constructed
`AWSTools` and after any sequence of calls in which `IncLine` and `ResetLines`
were never called on `r`. -/
theorem C5_getLines_untouched (load : String → String → String → String → Except String Unit)
    (opts : List Options) (a : AWSTools) (cs : List RegistryCall) (r : String)
    (ha : NewAWSTools load opts = Except.ok a)
    (hcs : ∀ c ∈ cs, c.writes = true → c.ref ≠ r) :
    (a.calls cs).GetLines r = Int64.zero ∧ ((a.calls cs).GetLines r).val = 0 ∧
      (a.calls cs).lines r = none := by
  have h1 := lines_calls_other cs a r hcs
  have h2 := NewAWSTools_lines load opts a ha
  have h3 : (a.calls cs).lines r = none := by rw [h1, h2]; rfl
  have h4 : (a.calls cs).GetLines r = Int64.zero := by
    simp [AWSTools.GetLines, LineMap.read, h3]
  exact ⟨h4, by rw [h4]; rfl, h3⟩

/-- C5, witness: the receiver and key of `TestLineCounter`, after calls on
other keys. -/
theorem C5_getLines_untouched_witness :
    ∃ a, NewAWSTools (fun _ _ _ _ => Except.ok ())
        [WithAccessKeyID "test-key", WithSecretKey "test-secret", WithRegion "us-east-1"]
        = Except.ok a ∧
      a.GetLines "test-file.txt" = Int64.zero ∧
      (a.calls [RegistryCall.incLine "other", RegistryCall.getLines "test-file.txt",
        RegistryCall.resetLines "x"]).GetLines "test-file.txt" = Int64.zero :=
  ⟨_, rfl,
    (C5_getLines_untouched (fun _ _ _ _ => Except.ok ())
      [WithAccessKeyID "test-key", WithSecretKey "test-secret", WithRegion "us-east-1"]
      _ [] "test-file.txt" rfl (by simp)).1,
    (C5_getLines_untouched (fun _ _ _ _ => Except.ok ())
      [WithAccessKeyID "test-key", WithSecretKey "test-secret", WithRegion "us-east-1"]
      _ [RegistryCall.incLine "other", RegistryCall.getLines "test-file.txt",
        RegistryCall.resetLines "x"] "test-file.txt" rfl (by decide)).1⟩

/-- C6: after `ResetLines(r)` the value of `GetLines(r)` is 0 and `r` has an
entry in the map, with value 0, whatever the map held before. -/
theorem C6_resetLines_sets_zero (a : AWSTools) (r : String) :
    ((a.ResetLines r).GetLines r).val = 0 ∧ (a.ResetLines r).lines r = some Int64.zero := by
  rw [GetLines_ResetLines_same]
  refine ⟨rfl, ?_⟩
  simp [AWSTools.ResetLines, LineMap.write]

/-- C7: `ResetLines(r)` followed by `IncLine(r)` leaves `GetLines(r)` equal to 1. -/
theorem C7_reset_then_inc (a : AWSTools) (r : String) :
    (((a.ResetLines r).IncLine r).GetLines r).val = 1 := by
  rw [GetLines_IncLine_same, GetLines_ResetLines_same]
  decide

/-- C8 (as amended): when `k` concurrent callers each issue `m` calls of
`IncLine(r)`, under every interleaving of the statements of `IncLine` that
brings all callers to completion the final `GetLines(r)` is the initial count
plus `k * m`, wrapped into `int64`: from the count 0 it is exactly `k * m`
whenever `k * m < 2^63`. Such an interleaving exists for every `k` and `m`. -/
theorem C8_concurrent_incLine (a : AWSTools) (r : String) (k m : Nat) :
    (∀ sched s, (LockedCounter.start a k m).run r sched = some s → s.allDone = true →
      s.tools.GetLines r = Int64.ofInt ((a.GetLines r).val + ((k * m : Nat) : Int))) ∧
    (∀ sched s, (a.GetLines r).val = 0 → k * m < 2 ^ 63 →
      (LockedCounter.start a k m).run r sched = some s → s.allDone = true →
      (s.tools.GetLines r).val = ((k * m : Nat) : Int)) ∧
    (∃ s, (LockedCounter.start a k m).run r (seqSchedule m k) = some s ∧ s.allDone = true) := by
  have main : ∀ sched s, (LockedCounter.start a k m).run r sched = some s → s.allDone = true →
      s.tools.GetLines r = Int64.ofInt ((a.GetLines r).val + ((k * m : Nat) : Int)) := by
    intro sched s hr hd
    exact LockedCounter.inv_done r k m _ s
      (LockedCounter.inv_run r k m _ sched _ s (LockedCounter.inv_start r a k m) hr) hd
  refine ⟨main, ?_, LockedCounter.run_seq_done r a k m⟩
  intro sched s h0 hlt hr hd
  rw [main sched s hr hd, h0]
  simp only [Int64.ofInt, zero_add]
  apply wrapInt64_of_inRange
  · have : (0 : Int) ≤ ((k * m : Nat) : Int) := Int.ofNat_nonneg _
    omega
  · exact_mod_cast hlt

/-- C8, witness: the 10 callers with 1000 calls each of `TestLineCounterConcurrency`. -/
theorem C8_concurrent_incLine_witness :
    ∃ s, (LockedCounter.start toolsFresh 10 1000).run "concurrent-test.txt"
        (seqSchedule 1000 10) = some s ∧ s.allDone = true ∧
      (s.tools.GetLines "concurrent-test.txt").val = 10000 := by
  obtain ⟨s, hs, hd⟩ := (C8_concurrent_incLine toolsFresh "concurrent-test.txt" 10 1000).2.2
  exact ⟨s, hs, hd,
    (C8_concurrent_incLine toolsFresh "concurrent-test.txt" 10 1000).2.1 _ s rfl
      (by norm_num) hs hd⟩

/-- C8, counterexample: one caller with `2^63` calls from the count 0 ends with
the count `-2^63`, not `2^63`. -/
theorem C8_wraps_at_two_pow_63 :
    ∃ s, (LockedCounter.start toolsFresh 1 (2 ^ 63)).run "f" (seqSchedule (2 ^ 63) 1) = some s ∧
      s.allDone = true ∧ (toolsFresh.GetLines "f").val = 0 ∧
      (s.tools.GetLines "f").val = -(2 ^ 63) ∧
      (s.tools.GetLines "f").val ≠ ((1 * 2 ^ 63 : Nat) : Int) := by
  obtain ⟨s, hs, hd⟩ := LockedCounter.run_seq_done "f" toolsFresh 1 (2 ^ 63)
  have h := LockedCounter.inv_done "f" 1 (2 ^ 63) _ s
    (LockedCounter.inv_run "f" 1 (2 ^ 63) _ _ _ s (LockedCounter.inv_start "f" toolsFresh 1 (2 ^ 63)) hs)
    hd
  have h0 : (toolsFresh.GetLines "f").val = 0 := rfl
  have hv : (s.tools.GetLines "f").val = -(2 ^ 63) := by
    rw [h, h0]
    simp only [Int64.ofInt, wrapInt64]
    norm_num
  refine ⟨s, hs, hd, h0, hv, ?_⟩
  rw [hv]
  norm_num

/-- C9: the worker count of the `AWSTools` returned by `NewAWSTools` is the
worker amount the options leave when that amount is positive and 4 otherwise,
so it is at least 1; with `WithAmountWorkersRLS(n)` as the last option that
touches the amount it is `n` for a positive `n` and 4 for any other `n`; with
no option touching the amount it is 4. `NewAWSTools` returns whenever the
options and the configuration load succeed. -/
theorem C9_queueWorkers (load : String → String → String → String → Except String Unit) :
    (∀ opts a, NewAWSTools load opts = Except.ok a →
      1 ≤ a.queueWorkers ∧
      ∃ p, applyOptions opts AWSToolsParams.empty = Except.ok p ∧
        a.queueWorkers = (if 0 < p.workersRLS then p.workersRLS else 4)) ∧
    (∀ pre post n a, (∀ o ∈ post, KeepsWorkers o) →
      NewAWSTools load (pre ++ WithAmountWorkersRLS n :: post) = Except.ok a →
      a.queueWorkers = (if 0 < n then n else 4)) ∧
    (∀ opts a, (∀ o ∈ opts, KeepsWorkers o) → NewAWSTools load opts = Except.ok a →
      a.queueWorkers = 4) ∧
    (∀ opts p, applyOptions opts AWSToolsParams.empty = Except.ok p →
      (∀ r k s t, load r k s t = Except.ok ()) → ∃ a, NewAWSTools load opts = Except.ok a) := by
  refine ⟨?_, ?_, ?_, ?_⟩
  · intro opts a h
    obtain ⟨p, hp, hq, _⟩ := NewAWSTools_ok load opts a h
    refine ⟨?_, p, hp, hq⟩
    rw [hq]
    split <;> omega
  · intro pre post n a hk h
    obtain ⟨p, hp, hq, _⟩ := NewAWSTools_ok load _ a h
    rw [applyOptions_append] at hp
    cases hpre : applyOptions pre AWSToolsParams.empty with
    | error err => rw [hpre] at hp; cases hp
    | ok p1 =>
      rw [hpre] at hp
      simp only [applyOptions, WithAmountWorkersRLS] at hp
      have h2 := applyOptions_keepsWorkers post _ p hk hp
      rw [hq, h2]
  · intro opts a hk h
    obtain ⟨p, hp, hq, _⟩ := NewAWSTools_ok load opts a h
    have h2 := applyOptions_keepsWorkers opts _ p hk hp
    rw [hq, h2]
    rfl
  · intro opts p hp hl
    exact NewAWSTools_returns load opts p hp hl

/-- C9, witness: the options of `TestNewAWSTools` give 4 workers and those of
`TestNewAWSToolsWithCustomWorkers` give 8. -/
theorem C9_queueWorkers_witness :
    (∃ a, NewAWSTools (fun _ _ _ _ => Except.ok ())
        [WithAccessKeyID "test-key", WithSecretKey "test-secret", WithRegion "us-east-1"]
        = Except.ok a ∧ a.queueWorkers = 4) ∧
    (∃ a, NewAWSTools (fun _ _ _ _ => Except.ok ())
        ([WithAccessKeyID "test-key", WithSecretKey "test-secret", WithRegion "us-east-1"] ++
          WithAmountWorkersRLS 8 :: []) = Except.ok a ∧ a.queueWorkers = 8) := by
  constructor
  · obtain ⟨a, ha⟩ := (C9_queueWorkers (fun _ _ _ _ => Except.ok ())).2.2.2
      [WithAccessKeyID "test-key", WithSecretKey "test-secret", WithRegion "us-east-1"] _ rfl
      (fun _ _ _ _ => rfl)
    refine ⟨a, ha, (C9_queueWorkers (fun _ _ _ _ => Except.ok ())).2.2.1 _ a ?_ ha⟩
    intro o ho
    simp only [List.mem_cons, List.mem_singleton, List.not_mem_nil, or_false] at ho
    rcases ho with rfl | rfl | rfl <;> intro p q h <;>
      simp only [WithAccessKeyID, WithSecretKey, WithRegion] at h <;> cases h <;> rfl
  · obtain ⟨a, ha⟩ := (C9_queueWorkers (fun _ _ _ _ => Except.ok ())).2.2.2
      ([WithAccessKeyID "test-key", WithSecretKey "test-secret", WithRegion "us-east-1"] ++
          WithAmountWorkersRLS 8 :: []) _ rfl (fun _ _ _ _ => rfl)
    exact ⟨a, ha, (C9_queueWorkers (fun _ _ _ _ => Except.ok ())).2.1 _ [] 8 a (by simp) ha⟩

/-- C10, at the failing input: with `WithBufferLimit(-1)` the parameters are
accepted, `BufferLimit()` is -1, and `ReadFileStreamFromS3WithContext` does not
get past `make(chan string, -1)`; with no buffer limit configured
`BufferLimit()` is 100. -/
theorem C10_negative_bufferLimit :
    (∃ p, newAWSToolsParams [WithBufferLimit (-1)] = Except.ok p ∧ p.BufferLimit = -1) ∧
    (∃ a, NewAWSTools (fun _ _ _ _ => Except.ok ()) [WithBufferLimit (-1)] = Except.ok a ∧
      a.params.BufferLimit = -1 ∧ (ReadFileStreamFromS3WithContext a).isNone = true) ∧
    (∀ opts p, (∀ o ∈ opts, KeepsBufferLimit o) → newAWSToolsParams opts = Except.ok p →
      p.BufferLimit = 100) := by
  refine ⟨⟨_, rfl, rfl⟩, ⟨_, rfl, rfl, rfl⟩, ?_⟩
  intro opts p hk h
  unfold newAWSToolsParams at h
  cases hp : applyOptions opts AWSToolsParams.empty with
  | error err => rw [hp] at h; cases h
  | ok q =>
    rw [hp] at h
    have hq := applyOptions_keepsBufferLimit opts _ q hk hp
    have hq0 : q.bufferLimit = 0 := by rw [hq]; rfl
    cases h
    by_cases hw : q.workersRLS = 0 <;> simp [hq0, hw, AWSToolsParams.BufferLimit]

/-- C18 (as amended): the parameters built from the six options return no
error, and the getters return the values given, except that a buffer limit of
0 comes back as 100 and a worker amount of 0 comes back as 4. -/
theorem C18_options_roundtrip (region accessKeyID secretKey sessionToken : String)
    (bufferLimit workersRLS : Int) :
    ∃ p, newAWSToolsParams (testOptions region accessKeyID secretKey sessionToken bufferLimit
        workersRLS) = Except.ok p ∧
      p.Region = region ∧ p.AccessKeyID = accessKeyID ∧ p.SecretKey = secretKey ∧
      p.SessionToken = sessionToken ∧
      p.BufferLimit = (if bufferLimit = 0 then 100 else bufferLimit) ∧
      p.AmountWorkersRLS = (if workersRLS = 0 then 4 else workersRLS) ∧
      (bufferLimit ≠ 0 → p.BufferLimit = bufferLimit) ∧
      (workersRLS ≠ 0 → p.AmountWorkersRLS = workersRLS) := by
  refine ⟨_, newAWSToolsParams_testOptions _ _ _ _ _ _, rfl, rfl, rfl, rfl, rfl, rfl, ?_, ?_⟩
  · intro h; simp [AWSToolsParams.BufferLimit, h]
  · intro h; simp [AWSToolsParams.AmountWorkersRLS, h]

/-- C18, witness: the values of `TestNewAWSToolsParams`. -/
theorem C18_options_roundtrip_witness :
    ∃ p, newAWSToolsParams (testOptions "us-west-2" "testAccessKey" "testSecretKey"
        "testSessionToken" 10 5) = Except.ok p ∧
      p.Region = "us-west-2" ∧ p.AccessKeyID = "testAccessKey" ∧
      p.SecretKey = "testSecretKey" ∧ p.SessionToken = "testSessionToken" ∧
      p.BufferLimit = 10 ∧ p.AmountWorkersRLS = 5 := by
  obtain ⟨p, h, h1, h2, h3, h4, _, _, h7, h8⟩ :=
    C18_options_roundtrip "us-west-2" "testAccessKey" "testSecretKey" "testSessionToken" 10 5
  exact ⟨p, h, h1, h2, h3, h4, h7 (by decide), h8 (by decide)⟩

/-- C18, counterexample: with the buffer limit 0 and the worker amount 0 the
parameters are accepted and `BufferLimit()` returns 100 and
`AmountWorkersRLS()` returns 4, not the values given. -/
theorem C18_zero_replaced_by_default :
    ∃ p, newAWSToolsParams (testOptions "us-west-2" "testAccessKey" "testSecretKey"
        "testSessionToken" 0 0) = Except.ok p ∧
      p.BufferLimit = 100 ∧ p.BufferLimit ≠ 0 ∧ p.AmountWorkersRLS = 4 ∧
      p.AmountWorkersRLS ≠ 0 :=
  ⟨_, rfl, rfl, by decide, rfl, by decide⟩

/-- C19: each of the seven setters makes its getter return the value set and
leaves what every other getter returns as it was. -/
theorem C19_setters (p : AWSToolsParams) (v : String) (n : Int) :
    (p.SetRegion v).getters =
      (v, p.AccessKeyID, p.SecretKey, p.SessionToken, p.BufferLimit, p.AmountWorkersRLS,
        p.Endpoint, p.DisableSSL) ∧
    (p.SetAccessKeyID v).getters =
      (p.Region, v, p.SecretKey, p.SessionToken, p.BufferLimit, p.AmountWorkersRLS,
        p.Endpoint, p.DisableSSL) ∧
    (p.SetSecretKey v).getters =
      (p.Region, p.AccessKeyID, v, p.SessionToken, p.BufferLimit, p.AmountWorkersRLS,
        p.Endpoint, p.DisableSSL) ∧
    (p.SetSessionToken v).getters =
      (p.Region, p.AccessKeyID, p.SecretKey, v, p.BufferLimit, p.AmountWorkersRLS,
        p.Endpoint, p.DisableSSL) ∧
    (p.SetBufferLimit n).getters =
      (p.Region, p.AccessKeyID, p.SecretKey, p.SessionToken, n, p.AmountWorkersRLS,
        p.Endpoint, p.DisableSSL) ∧
    (p.SetAmountWorkersRLS n).getters =
      (p.Region, p.AccessKeyID, p.SecretKey, p.SessionToken, p.BufferLimit, n,
        p.Endpoint, p.DisableSSL) ∧
    (p.SetEndpoint v).getters =
      (p.Region, p.AccessKeyID, p.SecretKey, p.SessionToken, p.BufferLimit,
        p.AmountWorkersRLS, v, p.DisableSSL) :=
  ⟨rfl, rfl, rfl, rfl, rfl, rfl, rfl⟩

/-- C20 (as amended): in every registry state reached from a freshly
constructed `AWSTools` by calls of which fewer than `2^63` are `IncLine(r)`,
`GetLines(r)` is non-negative and at most the number of those calls; in every
state whatever it is an `int64`, between `-2^63` and `2^63 - 1`. -/
theorem C20_counts_nonneg (load : String → String → String → String → Except String Unit)
    (opts : List Options) (a : AWSTools) (cs : List RegistryCall) (r : String)
    (ha : NewAWSTools load opts = Except.ok a) :
    (cs.count (RegistryCall.incLine r) < 2 ^ 63 →
      0 ≤ ((a.calls cs).GetLines r).val ∧
        ((a.calls cs).GetLines r).val ≤ cs.count (RegistryCall.incLine r)) ∧
    (-(2 ^ 63) ≤ ((a.calls cs).GetLines r).val ∧ ((a.calls cs).GetLines r).val < 2 ^ 63) := by
  have h0 : (a.GetLines r).val = 0 := by
    simp [AWSTools.GetLines, LineMap.read, NewAWSTools_lines load opts a ha, LineMap.empty,
      Int64.zero]
  refine ⟨?_, ((a.calls cs).GetLines r).lower, ((a.calls cs).GetLines r).upper⟩
  intro hlt
  have := calls_count_bounds cs a r 0 (by omega) (by omega) (by simpa using hlt)
  simpa using this

/-- C20, witness: after the three increments and the reset of `TestLineCounter`
the count is not negative. -/
theorem C20_counts_nonneg_witness :
    ∃ a, NewAWSTools (fun _ _ _ _ => Except.ok ()) [] = Except.ok a ∧
      0 ≤ ((a.calls [RegistryCall.incLine "test-file.txt", RegistryCall.incLine "test-file.txt",
        RegistryCall.incLine "test-file.txt", RegistryCall.resetLines "test-file.txt"]).GetLines
          "test-file.txt").val :=
  ⟨_, rfl, ((C20_counts_nonneg (fun _ _ _ _ => Except.ok ()) [] _
    [RegistryCall.incLine "test-file.txt", RegistryCall.incLine "test-file.txt",
      RegistryCall.incLine "test-file.txt", RegistryCall.resetLines "test-file.txt"]
    "test-file.txt" rfl).1 (by decide)).1⟩

/-- C20, counterexample: `2^63` calls of `IncLine("f")` on a freshly constructed
`AWSTools` leave the count `-2^63`, which is negative. -/
theorem C20_negative_after_two_pow_63 :
    ∃ a, NewAWSTools (fun _ _ _ _ => Except.ok ()) [] = Except.ok a ∧
      ((a.calls (List.replicate (2 ^ 63) (RegistryCall.incLine "f"))).GetLines "f").val
        = -(2 ^ 63) ∧
      ((a.calls (List.replicate (2 ^ 63) (RegistryCall.incLine "f"))).GetLines "f").val < 0 := by
  refine ⟨_, rfl, ?_⟩
  rw [calls_incLine_replicate]
  have h0 : ∀ a : AWSTools, a.lines = LineMap.empty → (a.GetLines "f").val = 0 := by
    intro a h
    simp [AWSTools.GetLines, LineMap.read, h, LineMap.empty, Int64.zero]
  rw [h0 _ rfl]
  simp only [Int64.ofInt, wrapInt64]
  norm_num

/-- C11: in every state of a session in which `GetObject` fails, no record has
been enqueued, no worker has received a record or invoked the handler,
`GetLines(fileName)` is what it was at the start, the values sent on
`errorChan` are at most the one error of the failure, every value sent was
received or is in the channel, and the channel is closed at most once; once
it is closed exactly that one error has been sent. The session is never stuck
and can always be run until `errorChan` is closed. -/
theorem C11_open_failure (env : Env) (a : AWSTools) (e : String) (s : Session)
    (ho : env.object = Except.error e) (hr : Reachable env a s) :
    s.enqueued = [] ∧
    (∀ w ∈ s.workers, w.received = [] ∧ w.invoked = []) ∧
    s.tools.GetLines env.fileName = a.GetLines env.fileName ∧
    s.errSent <+: ["Failed to get file: " ++ e] ∧
    s.errReceived ++ s.errorChan = s.errSent ∧
    s.errCloses ≤ 1 ∧
    (0 < s.errCloses → s.errSent = ["Failed to get file: " ++ e]) ∧
    (s.errCloses = 0 → ∃ task t, step env s task = some t) ∧
    (∃ sched t, run env s sched = some t ∧ 0 < t.errCloses) := by
  have htr := readerTrace_error env e ho
  have hT := traceInv_reachable env a s hr
  have hQ := queueInv_reachable env a s hr
  have hC := countInv_reachable env a s hr
  obtain ⟨f1, f2, f3, _, _⟩ := traceInv_facts env s _ htr hT
  have henq : s.enqueued = [] := List.prefix_nil.mp f1
  have hw := workers_received_nil s hQ henq
  obtain ⟨p1, p2⟩ := complete_of_no_records env a s _ htr rfl hr
  refine ⟨henq, hw, count_unchanged env _ s hC
    (fun w h => List.length_eq_zero.mp
      (by rw [(workerInv_reachable env a s hr w h).answered, (hw w h).2]; rfl)), f2, hT.chan, ?_, ?_, ?_,
    p2⟩
  · have := hC.closes
    rw [this]
    split <;> omega
  · intro hcl
    have hfin := (countInv_closed env _ s hC hcl).2.2
    exact (f3 (by rw [hfin]; rfl)).2
  · intro hopen
    obtain ⟨task, t, _, ht⟩ := p1 hopen
    exact ⟨task, t, ht⟩

/-- C11, witness: a session on a missing object, started at the count 0, runs
to a state in which `errorChan` is closed, the one error was sent, nothing was
enqueued and the count is still 0. -/
theorem C11_open_failure_witness :
    ∃ t, Reachable envNoObject toolsOne t ∧ 0 < t.errCloses ∧
      t.errSent = ["Failed to get file: NoSuchKey"] ∧ t.enqueued = [] ∧
      (t.tools.GetLines "f").val = 0 := by
  have h0 : Reachable envNoObject toolsOne _ := ⟨_, [], rfl, rfl⟩
  obtain ⟨sched, t, hrun, hcl⟩ := (C11_open_failure envNoObject toolsOne "NoSuchKey" _ rfl h0).2.2.2.2.2.2.2.2
  have ht := reachable_run envNoObject toolsOne sched _ t h0 hrun
  have h := C11_open_failure envNoObject toolsOne "NoSuchKey" t rfl ht
  refine ⟨t, ht, hcl, h.2.2.2.2.2.2.1 hcl, h.1, ?_⟩
  have := h.2.2.1
  rw [show ("f" : String) = envNoObject.fileName from rfl, this]
  rfl

/-- C12: on a stream made of `k` complete lines, a fragment without newline and
a read failure, the reader loop sends exactly the `k` lines and then the
error of the read; in every state of a session the records enqueued are a
prefix of the `k` lines and the values sent on `errorChan` at most that one
error; once the reader has left its loop, and in every later state, the
records enqueued are exactly the `k` lines, without the fragment, and exactly
the one error was sent. -/
theorem C12_read_failure (env : Env) (a : AWSTools) (lines : List Record) (frag : List Byte)
    (msg : String) (s : Session) (hl : ∀ l ∈ lines, CompleteLine l) (hf : newline ∉ frag)
    (ho : env.object = Except.ok ⟨lines.flatten ++ frag, some msg⟩)
    (hr : Reachable env a s) :
    readerLoop ⟨lines.flatten ++ frag, some msg⟩ =
      some ⟨lines, some ("Read line error: " ++ msg)⟩ ∧
    s.enqueued <+: lines ∧
    s.errSent <+: ["Read line error: " ++ msg] ∧
    (s.reader.leftLoop = true →
      s.enqueued = lines ∧ s.errSent = ["Read line error: " ++ msg]) ∧
    (∀ m, s.reader = ReaderPc.sendReadErr m →
      s.enqueued = lines ∧ m = "Read line error: " ++ msg ∧ s.errSent = []) := by
  have hloop := readerLoop_fail lines frag msg hl hf
  have htr : readerTrace env = some ⟨lines, some ("Read line error: " ++ msg)⟩ := by
    simp [readerTrace, ho, hloop]
  have hT := traceInv_reachable env a s hr
  obtain ⟨f1, f2, f3, _, _⟩ := traceInv_facts env s _ htr hT
  refine ⟨hloop, f1, f2, f3, ?_⟩
  intro m hm
  obtain ⟨total, run, h1, h2, h3, h4⟩ := hT.trace
  rw [htr] at h1
  simp only [Option.some.injEq] at h1
  subst h1
  rw [hm] at h2
  simp only [ReaderPc.rest, Option.some.injEq] at h2
  subst h2
  simp only [List.append_nil, Option.toList] at h3 h4
  have hs0 : s.errSent = [] := by
    cases hse : s.errSent with
    | nil => rfl
    | cons x xs =>
      rw [hse] at h4
      have hlen := congrArg List.length h4
      simp at hlen
  rw [hs0] at h4
  simp at h4
  exact ⟨h3.symm, h4.symm, hs0⟩

/-- C12, witness: on "a\nb\nc" with a failing read after the two lines, a
session reaches a state in which the reader has returned, the two lines were
enqueued and the one error was sent. -/
theorem C12_read_failure_witness :
    ∃ t, Reachable envReset toolsOne t ∧ t.reader = ReaderPc.finished ∧
      t.enqueued = [[97, 10], [98, 10]] ∧ t.errSent = ["Read line error: reset"] := by
  have hr : ∃ t, Reachable envReset toolsOne t ∧ t.reader = ReaderPc.finished := by
    refine ⟨_, ⟨_, [Task.reader, Task.reader, Task.reader, Task.worker 0, Task.worker 0,
      Task.worker 0, Task.reader, Task.reader, Task.worker 0, Task.worker 0, Task.worker 0,
      Task.reader, Task.reader, Task.reader, Task.reader], rfl, rfl⟩, rfl⟩
  obtain ⟨t, ht, hfin⟩ := hr
  have h := (C12_read_failure envReset toolsOne [[97, 10], [98, 10]] [99] "reset" t
    (by
      intro l hl
      simp only [List.mem_cons, List.mem_singleton, List.not_mem_nil, or_false] at hl
      rcases hl with rfl | rfl
      · exact ⟨[97], rfl, by decide⟩
      · exact ⟨[98], rfl, by decide⟩)
    (by decide) rfl ht).2.2.2.1 (by rw [hfin]; rfl)
  exact ⟨t, ht, hfin, h.1, h.2⟩

/-- C13: in every state of a session, every value sent on `errorChan` is the
error of a failed `GetObject` or of a failed read of the body, and so is the
value the reader holds while it is at one of its two sends; at most one value
is sent; every value sent was received or is in the channel; a step of a
worker (a receive, a handler call with or without error, an exit signal, an
idle timeout), of the closing goroutine or of `stopReadFileStreamFromS3`
leaves the channel and what was sent on it as they are; and with
`queueWorkers >= 1` the reader at a send finds the channel empty and takes
its step whether or not the caller receives. -/
theorem C13_errors_from_reader (env : Env) (a : AWSTools) (s : Session)
    (hr : Reachable env a s) :
    (∀ m, (m ∈ s.errSent ∨ s.reader = ReaderPc.sendOpenErr m ∨
        s.reader = ReaderPc.sendReadErr m) →
      (∃ e, env.object = Except.error e ∧ m = "Failed to get file: " ++ e) ∨
        (∃ body e, env.object = Except.ok body ∧ body.failure = some e ∧
          m = "Read line error: " ++ e)) ∧
    s.errSent.length ≤ 1 ∧
    s.errReceived ++ s.errorChan = s.errSent ∧
    (∀ task t, step env s task = some t → task ≠ Task.reader → task ≠ Task.caller →
      t.errSent = s.errSent ∧ t.errorChan = s.errorChan ∧ t.errReceived = s.errReceived) ∧
    (1 ≤ a.queueWorkers →
      ∀ m, (s.reader = ReaderPc.sendOpenErr m ∨ s.reader = ReaderPc.sendReadErr m) →
        s.errorChan = [] ∧ s.errSent = [] ∧
          ∃ t, step env s Task.reader = some t ∧ t.errorChan = [m] ∧ t.errSent = [m] ∧
            t.reader = ReaderPc.closeQueue) := by
  have hT := traceInv_reachable env a s hr
  have hS := shapeInv_reachable env a s hr
  obtain ⟨total, run, h1, h2, h3, h4⟩ := hT.trace
  obtain ⟨_, f2, _, _, _⟩ := traceInv_facts env s total h1 hT
  have hsend : ∀ m, (s.reader = ReaderPc.sendOpenErr m ∨ s.reader = ReaderPc.sendReadErr m) →
      s.errSent = [] ∧ total.err = some m := by
    intro m hm
    have hrun : run = ⟨[], some m⟩ := by
      rcases hm with hm | hm <;> rw [hm] at h2 <;>
        simp only [ReaderPc.rest, Option.some.injEq] at h2 <;> exact h2.symm
    subst hrun
    cases hte : total.err with
    | none => rw [hte] at h4; simp at h4
    | some x =>
      rw [hte] at h4
      cases hse : s.errSent with
      | nil =>
        rw [hse] at h4
        simp at h4
        exact ⟨rfl, by rw [h4]⟩
      | cons y ys =>
        rw [hse] at h4
        have hlen := congrArg List.length h4
        simp at hlen
  refine ⟨?_, ?_, hT.chan, ?_, ?_⟩
  · intro m hm
    apply readerTrace_err env total m h1
    rcases hm with hm | hm
    · have := f2.subset hm
      cases hte : total.err with
      | none => rw [hte] at this; simp at this
      | some x => rw [hte] at this; simp at this; rw [this]
    · exact (hsend m hm).2
  · have := f2.length_le
    cases hte : total.err <;> rw [hte] at this <;>
      simp only [Option.toList, List.length_nil, List.length_singleton] at this <;> omega
  · intro task t hs h1 h2
    exact step_errorChan env s t task hs h1 h2
  · intro hq m hm
    obtain ⟨e1, e2, _⟩ := sendErr_enabled env s m hT hm
    have hcap : 0 < s.errCap := by rw [hS.errCap]; omega
    have hs0 := (hsend m hm).1
    refine ⟨e1, hs0, ?_⟩
    have hstep : stepReader env s = sendError s m := by
      rcases hm with hm | hm <;> simp [stepReader, hm]
    refine ⟨{ s with errorChan := s.errorChan ++ [m], errSent := s.errSent ++ [m],
                     reader := ReaderPc.closeQueue }, ?_, ?_, ?_, rfl⟩
    · simp only [step, hstep, sendError, e1, List.length_nil, hcap, if_true]
    · simp [e1]
    · simp [hs0]

/-- C13, witness: with one worker on a missing object, the reader at its send
finds `errorChan` empty and sends the error of `GetObject` without the caller
receiving. -/
theorem C13_errors_from_reader_witness :
    ∃ s, Reachable envNoObject toolsOne s ∧
      s.reader = ReaderPc.sendOpenErr "Failed to get file: NoSuchKey" ∧
      ∃ t, step envNoObject s Task.reader = some t ∧
        t.errorChan = ["Failed to get file: NoSuchKey"] ∧
        t.errSent = ["Failed to get file: NoSuchKey"] := by
  have hr : ∃ s, Reachable envNoObject toolsOne s ∧
      s.reader = ReaderPc.sendOpenErr "Failed to get file: NoSuchKey" :=
    ⟨_, ⟨_, [Task.reader], rfl, rfl⟩, rfl⟩
  obtain ⟨s, hs, hpc⟩ := hr
  obtain ⟨_, _, t, h1, h2, h3, _⟩ :=
    (C13_errors_from_reader envNoObject toolsOne s hs).2.2.2.2 (by decide) _ (Or.inl hpc)
  exact ⟨s, hs, hpc, t, h1, h2, h3⟩

/-- C14: in every state of a session `errorChan` has been closed at most once;
from the moment `wg.Wait()` has returned, so also when the channel is closed,
the reader and every worker have returned; and from such a state on, whatever
steps follow, the registry stays as it is and no worker calls `IncLine`. -/
theorem C14_close_after_all (env : Env) (a : AWSTools) (s : Session)
    (hr : Reachable env a s) :
    s.errCloses ≤ 1 ∧
    (0 < s.errCloses ↔ s.closer = CloserPc.finished) ∧
    (s.closer ≠ CloserPc.wait →
      s.wg = 0 ∧ s.reader = ReaderPc.finished ∧ (∀ w ∈ s.workers, w.pc = WorkerPc.finished) ∧
      ∀ sched t, run env s sched = some t →
        t.tools = s.tools ∧ t.workers.map Worker.incs = s.workers.map Worker.incs ∧
          t.errCloses ≤ 1) := by
  have hC := countInv_reachable env a s hr
  have hcl : ∀ u : Session, CountInv env (a.GetLines env.fileName).val u → u.errCloses ≤ 1 := by
    intro u hu
    rw [hu.closes]
    split <;> omega
  refine ⟨hcl s hC, ?_, ?_⟩
  · rw [hC.closes]
    split <;> simp [*]
  · intro hne
    have hwg := hC.closer hne
    obtain ⟨h1, h2⟩ := countInv_wg_zero env _ s hC hwg
    refine ⟨hwg, h1, h2, ?_⟩
    intro sched t hrun
    obtain ⟨g1, g2, _⟩ := run_after_done env sched s t h1 h2 hrun
    exact ⟨g1, g2, hcl t (countInv_reachable env a t (reachable_run env a sched s t hr hrun))⟩

/-- C14, witness: a session on "a\nb" with one worker runs to the close of
`errorChan`; the reader and the worker have returned by then and the count is
the 2 lines handled. -/
theorem C14_close_after_all_witness :
    ∃ s, Reachable envAB toolsOne s ∧ s.errCloses = 1 ∧ s.reader = ReaderPc.finished ∧
      (∀ w ∈ s.workers, w.pc = WorkerPc.finished) ∧ (s.tools.GetLines "f").val = 2 := by
  have hr : ∃ s, Reachable envAB toolsOne s ∧ s.errCloses = 1 ∧
      (s.tools.GetLines "f").val = 2 :=
    ⟨_, ⟨_, [Task.reader, Task.reader, Task.reader, Task.worker 0, Task.worker 0,
      Task.worker 0, Task.reader, Task.reader, Task.worker 0, Task.worker 0, Task.worker 0,
      Task.reader, Task.reader, Task.worker 0, Task.worker 0, Task.closer, Task.closer],
      rfl, rfl⟩, rfl, by decide⟩
  obtain ⟨s, hs, hcl, hcount⟩ := hr
  have h := C14_close_after_all envAB toolsOne s hs
  have hne : s.closer ≠ CloserPc.wait := by
    rw [h.2.1.mp (by omega)]
    decide
  obtain ⟨_, h1, h2, _⟩ := h.2.2 hne
  exact ⟨s, hs, hcl, h1, h2, hcount⟩

/-- C15: in every state of a session, for every record `r`, the number of times
`r` was received by the workers, all together, plus the number of times it
waits in the queue is the number of times the reader enqueued it: what the
workers received and what waits in the queue is a rearrangement of what was
enqueued, for every worker count and queue capacity. Every worker passes to
the handler a prefix of what it received, so the handler is invoked on `r`,
by all workers together, at most as often as `r` was enqueued. -/
theorem C15_at_most_once (env : Env) (a : AWSTools) (s : Session)
    (hr : Reachable env a s) :
    List.Perm ((s.workers.map (fun w => w.received)).flatten ++ s.queue) s.enqueued ∧
    (∀ w ∈ s.workers, w.invoked <+: w.received ∧
      w.received.length ≤ w.invoked.length + 1) ∧
    (∀ r : Record, (s.workers.map (fun w => w.invoked.count r)).sum ≤ s.enqueued.count r) ∧
    ((s.workers.map (fun w => w.invoked.length)).sum ≤ s.enqueued.length) := by
  have hQ := queueInv_reachable env a s hr
  have hperm : List.Perm ((s.workers.map (fun w => w.received)).flatten ++ s.queue)
      s.enqueued := by
    have hc : ∀ (r : Record) (l : List Record),
        @List.count _ instBEqOfDecidableEq r l = List.count r l := by
      intro r l
      induction l with
      | nil => rfl
      | cons x xs ih => simp [List.count_cons, ih]
    rw [List.perm_iff_count]
    intro r
    rw [hc, hc, List.count_append, List.count_flatten, List.map_map]
    exact hQ.counts r
  have hinv : ∀ w ∈ s.workers, w.invoked <+: w.received ∧
      w.received.length ≤ w.invoked.length + 1 := by
    intro w hw
    have h := hQ.hand w hw
    refine ⟨⟨w.inHand, h.symm⟩, ?_⟩
    rw [h, List.length_append]
    unfold Worker.inHand
    split <;> simp
  refine ⟨hperm, hinv, ?_, ?_⟩
  · intro r
    have h1 := hQ.counts r
    have h2 : (s.workers.map (fun w => w.invoked.count r)).sum ≤
        (s.workers.map (fun w => w.received.count r)).sum := by
      apply List.sum_le_sum
      intro w hw
      exact ((hinv w hw).1.sublist.count_le r)
    omega
  · have h1 := hperm.length_eq
    rw [List.length_append, List.length_flatten, List.map_map] at h1
    have h2 : (s.workers.map (fun w => w.invoked.length)).sum ≤
        (s.workers.map ((List.length) ∘ (fun w : Worker => w.received))).sum := by
      apply List.sum_le_sum
      intro w hw
      exact (hinv w hw).1.length_le
    omega

/-- C15, witness: in a session on "a\nb" with 4 workers, after worker 2
received the record "a\n", no other worker has it and the queue is empty. -/
theorem C15_at_most_once_witness :
    ∃ s, Reachable envAB toolsFresh s ∧ s.enqueued = [[97, 10]] ∧
      List.Perm ((s.workers.map (fun w => w.received)).flatten ++ s.queue) [[97, 10]] ∧
      s.workers.map (fun w => w.received) = [[], [], [[97, 10]], []] := by
  have hr : ∃ s, Reachable envAB toolsFresh s ∧ s.enqueued = [[97, 10]] ∧
      s.workers.map (fun w => w.received) = [[], [], [[97, 10]], []] :=
    ⟨_, ⟨_, [Task.reader, Task.reader, Task.reader, Task.worker 2], rfl, rfl⟩, rfl, rfl⟩
  obtain ⟨s, hs, he, hw⟩ := hr
  have h := (C15_at_most_once envAB toolsFresh s hs).1
  rw [he] at h
  exact ⟨s, hs, he, h, hw⟩

/-- C16: take a stream `data` whose reads all succeed, a handler that always
succeeds, at least one worker and any queue capacity (so also capacity 1), and
a state the session reaches without exit signal and without idle timeout,
however the steps of the handler are delayed. Then: as long as `errorChan` is
open some task can take a step, and the state is not one in which the reader
waits at a send with every worker gone; the queue holds at most its capacity,
and what the workers received together with what waits in the queue is a
rearrangement of what was enqueued; while the reader is at a send (blocked on
the full queue when it cannot step) the records enqueued, the record it holds
and what is left to read make up `data`; every run from the state has at most
`weight` steps; and the session can be run on to the close of `errorChan`,
where the reader and all workers have returned, the queue is empty, the
records enqueued make up `data` and the handler was invoked on each of them. -/
theorem C16_no_deadlock (env : Env) (a : AWSTools) (data : List Byte) (s : Session)
    (ho : env.object = Except.ok ⟨data, none⟩) (hcb : ∀ calls line, env.cb calls line = none)
    (hq : 1 ≤ a.queueWorkers) (hr : QuietReachable env a s) :
    (s.errCloses = 0 → ∃ task t, task.quiet = true ∧ step env s task = some t) ∧
    ¬ Blocked s ∧
    (s.queueCap = a.params.BufferLimit.toNat ∧ s.queue.length ≤ s.queueCap) ∧
    List.Perm ((s.workers.map (fun w => w.received)).flatten ++ s.queue) s.enqueued ∧
    (∀ line body, s.reader = ReaderPc.sendLine line body →
      s.enqueued.flatten ++ (line ++ body.data) = data ∧
      (step env s Task.reader = none → s.queue.length = s.queueCap)) ∧
    (∀ line, s.reader = ReaderPc.sendLast line →
      s.enqueued.flatten ++ line = data ∧
      (step env s Task.reader = none → s.queue.length = s.queueCap)) ∧
    (∀ sched t, run env s sched = some t → sched.length ≤ s.weight env) ∧
    (∃ sched t, (∀ task ∈ sched, task.quiet = true) ∧ run env s sched = some t ∧
      0 < t.errCloses ∧ t.reader = ReaderPc.finished ∧
      (∀ w ∈ t.workers, w.pc = WorkerPc.finished) ∧ t.queue = [] ∧
      t.enqueued.flatten = data ∧
      List.Perm (t.workers.map (fun w => w.invoked)).flatten t.enqueued) := by
  have hR := quietReachable_reachable env a s hr
  have hT := traceInv_reachable env a s hR
  have hS := shapeInv_reachable env a s hR
  have hQ := queueInv_reachable env a s hR
  have hRI : ∀ u, Reachable env a u → ReaderInv data u := by
    intro u hu
    obtain ⟨s0, sched0, h0, hrun0⟩ := hu
    exact readerInv_run env data sched0 s0 u ho (readerInv_start data a s0 h0) hrun0
  have hfull : ∀ line next, sendQueue s line next = none → s.queue.length = s.queueCap := by
    intro line next hn
    have hb := hQ.bound
    unfold sendQueue at hn
    split at hn
    · cases hn
    · omega
  obtain ⟨p1, sched, t, h1, h2, h3, h4⟩ := complete_of_quiet env hcb a s hq hr
  refine ⟨p1, quiet_not_blocked env a s hS hq hT (quietInv_reachable env hcb a s hr),
    ⟨hS.queueCap, hQ.bound⟩, queueInv_perm s hQ, ?_, ?_, ?_, ?_⟩
  · intro line body hpc
    have h := hRI s hR
    unfold ReaderInv at h
    rw [hpc] at h
    refine ⟨h.2, ?_⟩
    intro hn
    simp only [step, stepReader, hpc] at hn
    exact hfull _ _ hn
  · intro line hpc
    have h := hRI s hR
    unfold ReaderInv at h
    rw [hpc] at h
    refine ⟨h, ?_⟩
    intro hn
    simp only [step, stepReader, hpc] at hn
    exact hfull _ _ hn
  · intro sched1 t1 hrun
    have := run_length_le env sched1 s t1 hrun
    omega
  · have hRt := reachable_run env a sched s t hR h2
    have hSt := shapeInv_reachable env a t hRt
    have hQt := queueInv_reachable env a t hRt
    obtain ⟨_, hfin, hrd⟩ := countInv_closed env _ t (countInv_reachable env a t hRt) h3
    have hlen : 0 < t.workers.length := by rw [hSt.workers]; omega
    obtain ⟨w, hw⟩ := List.exists_mem_of_length_pos hlen
    have hqe := (h4 w hw (by rw [hfin w hw]; rfl)).2
    have hdata := ( readerInv_prefix data t (hRI t hRt)).2 (by rw [hrd]; rfl)
    refine ⟨sched, t, h1, h2, h3, hrd, hfin, hqe, hdata, ?_⟩
    have hperm := queueInv_perm t hQt
    rw [hqe, List.append_nil] at hperm
    have hmap : t.workers.map (fun w => w.invoked) = t.workers.map (fun w => w.received) := by
      apply List.map_congr_left
      intro v hv
      have := hQt.hand v hv
      simp only [Worker.inHand, hfin v hv, List.append_nil] at this
      exact this.symm
    rw [hmap]
    exact hperm

/-- C16, witness: a session on "a\nb" with one worker and a queue of capacity 1
reaches, after the reader has enqueued "a\n" and read "b", a state in which
the reader is blocked at its send on the full queue; the record "b" it holds
is not lost, the worker can take a step, and the session can be run on to the
close of `errorChan` with both records enqueued. -/
theorem C16_no_deadlock_witness :
    ∃ s, QuietReachable envAB toolsOne s ∧ s.reader = ReaderPc.sendLast [98] ∧
      step envAB s Task.reader = none ∧ s.queue.length = 1 ∧ s.errCloses = 0 ∧
      (∃ task t, task.quiet = true ∧ step envAB s task = some t) ∧
      ∃ sched t, run envAB s sched = some t ∧ 0 < t.errCloses ∧
        t.enqueued.flatten = [97, 10, 98] := by
  have hr : ∃ s, QuietReachable envAB toolsOne s ∧ s.reader = ReaderPc.sendLast [98] ∧
      step envAB s Task.reader = none ∧ s.errCloses = 0 ∧ s.queueCap = 1 :=
    ⟨_, ⟨_, [Task.reader, Task.reader, Task.reader, Task.reader], rfl, by decide, rfl⟩,
      rfl, rfl, rfl, rfl⟩
  obtain ⟨s, hs, hpc, hblk, hopen, hcap⟩ := hr
  obtain ⟨h1, _, _, _, _, h6, _, sched, t, _, h8, h9, _, _, _, h10, _⟩ :=
    C16_no_deadlock envAB toolsOne [97, 10, 98] s rfl (fun _ _ => rfl) (by decide) hs
  exact ⟨s, hs, hpc, hblk, by rw [(h6 _ hpc).2 hblk, hcap], hopen, h1 hopen, sched, t, h8, h9,
    h10⟩

/-- C17, amended: take a session whose `GetObject` succeeded and whose body
fails a read with `msg` (for a cancelled `ctx`, "context canceled"), with
`queueWorkers >= 1`. The reader enqueues only records read before the failing
read and sends at most the one error of that read; when it is at the send of
the error it holds "Read line error: msg", takes the send without blocking,
closes `queueFS` and returns, leaving the workers and the queue as they are.
Workers do not look at the context: a worker at the `select` with a record in
the queue receives it and goes on to the handler, also after the reader has
returned; and a worker that has not returned can always take a step (a
receive, an exit signal or the idle timeout at the `select`, its next
statement elsewhere). Nothing is said of a reader that waits in a send on the
full queue. -/
theorem C17_cancel_as_read_failure (env : Env) (a : AWSTools) (body : Body) (msg : String)
    (s : Session) (ho : env.object = Except.ok body) (hf : body.failure = some msg)
    (hq : 1 ≤ a.queueWorkers) (hr : Reachable env a s) :
    (∃ total, readerTrace env = some total ∧
      total.err = some ("Read line error: " ++ msg) ∧
      s.enqueued <+: total.records ∧
      s.errSent <+: ["Read line error: " ++ msg] ∧
      (s.reader.leftLoop = true →
        s.enqueued = total.records ∧ s.errSent = ["Read line error: " ++ msg])) ∧
    (∀ m, s.reader = ReaderPc.sendReadErr m →
      m = "Read line error: " ++ msg ∧
      ∃ t, run env s [Task.reader, Task.reader, Task.reader] = some t ∧
        t.reader = ReaderPc.finished ∧ t.enqueued = s.enqueued ∧ t.errSent = [m] ∧
        t.queueCloses = 1 ∧ t.workers = s.workers ∧ t.queue = s.queue) ∧
    (∀ (i : Nat) (w : Worker) (line : Record) (rest : List Record),
      s.workers[i]? = some w → w.pc = WorkerPc.select → s.queue = line :: rest →
      ∃ t v, step env s (Task.worker i) = some t ∧ t.workers[i]? = some v ∧
        v.pc = WorkerPc.callback line ∧ v.received = w.received ++ [line] ∧ t.queue = rest) ∧
    (∀ (i : Nat) (w : Worker), s.workers[i]? = some w → w.pc ≠ WorkerPc.finished →
      ∃ task t, (task = Task.worker i ∨ task = Task.workerExit i ∨
        task = Task.workerTimeout i) ∧ step env s task = some t) := by
  have hT := traceInv_reachable env a s hr
  have hC := countInv_reachable env a s hr
  have hS := shapeInv_reachable env a s hr
  obtain ⟨total, htr⟩ := readerTrace_total env
  have herr : total.err = some ("Read line error: " ++ msg) := by
    have h := htr
    unfold readerTrace at h
    rw [ho] at h
    exact readLoop_failure _ body total msg h hf
  obtain ⟨f1, f2, f3, _, _⟩ := traceInv_facts env s total htr hT
  rw [herr] at f2 f3
  refine ⟨⟨total, htr, herr, f1, f2, f3⟩, ?_, ?_, ?_⟩
  · intro m hm
    have hcap : 0 < s.errCap := by rw [hS.errCap]; omega
    refine ⟨?_, reader_returns_after_error env _ s m hC hT hcap (Or.inr hm)⟩
    obtain ⟨total1, run, h1, h2, h3, h4⟩ := hT.trace
    rw [htr] at h1
    simp only [Option.some.injEq] at h1
    subst h1
    rw [hm] at h2
    simp only [ReaderPc.rest, Option.some.injEq] at h2
    subst h2
    rw [herr] at h4
    have hl := congrArg List.length h4
    simp only [Option.toList, List.length_singleton, List.length_append] at hl
    have hs0 : s.errSent = [] := List.length_eq_zero.mp (by omega)
    rw [hs0] at h4
    simp only [Option.toList, List.nil_append, List.cons.injEq, and_true] at h4
    exact h4.symm
  · intro i w line rest hw hpc hqueue
    exact worker_receives env s i w line rest hw hpc hqueue
  · intro i w hw hfin
    exact worker_enabled env _ s i w hC hw hfin

/-- C17, witness: on "a\nb\n" with a cancelled context, one worker and a queue
of capacity 1, the reader at the send of "Read line error: context canceled"
sends it, closes the queue and returns. -/
theorem C17_cancel_as_read_failure_witness :
    ∃ s t, Reachable envCancel toolsOne s ∧
      s.reader = ReaderPc.sendReadErr "Read line error: context canceled" ∧
      run envCancel s [Task.reader, Task.reader, Task.reader] = some t ∧
      t.reader = ReaderPc.finished ∧ t.errSent = ["Read line error: context canceled"] ∧
      t.queueCloses = 1 := by
  have hr : ∃ s, Reachable envCancel toolsOne s ∧
      s.reader = ReaderPc.sendReadErr "Read line error: context canceled" :=
    ⟨_, ⟨_, [Task.reader, Task.reader, Task.reader, Task.reader, Task.worker 0, Task.reader,
      Task.reader], rfl, rfl⟩, rfl⟩
  obtain ⟨s, hs, hpc⟩ := hr
  obtain ⟨_, t, h1, h2, _, h4, h5, _⟩ :=
    (C17_cancel_as_read_failure envCancel toolsOne _ "context canceled" s rfl rfl (by decide)
      hs).2.1 _ hpc
  exact ⟨s, t, hs, hpc, h1, h2, h4, h5⟩

/-- C17, counterexample: on "a\nb\nc\n" with a cancelled context, a handler
that fails, one worker and a queue of capacity 1, a session reaches a state in
which the worker has returned on the failure of the handler and the reader
waits at the send of "c\n" on the full queue. Whatever the cancellation does
to the rest of the body, from there on the reader stays at that send in every
run: it never reads again, never closes the queue, and `errorChan` receives no
value and is never closed. -/
theorem C17_reader_blocked_after_cancel :
    ∃ s, Reachable envCancelFail toolsOne s ∧
      s.reader = ReaderPc.sendLine [99, 10] ⟨[], some "context canceled"⟩ ∧
      s.queue = [[98, 10]] ∧ s.queueCap = 1 ∧
      (∀ w ∈ s.workers, w.pc = WorkerPc.finished) ∧
      ∀ (body : Body) (sched : List Task) (t : Session),
        run envCancelFail { s with reader := ReaderPc.sendLine [99, 10] body } sched = some t →
        t.reader = ReaderPc.sendLine [99, 10] body ∧ t.queueCloses = 0 ∧ t.errCloses = 0 ∧
          t.errSent = [] := by
  have hr : ∃ s, Reachable envCancelFail toolsOne s ∧
      s.reader = ReaderPc.sendLine [99, 10] ⟨[], some "context canceled"⟩ ∧
      s.queue = [[98, 10]] ∧ s.queueCap = 1 ∧
      s.workers.map (fun w => w.pc) = [WorkerPc.finished] ∧ s.closer = CloserPc.wait ∧
      s.wg = 1 ∧ s.errorChan = [] ∧ s.queueCloses = 0 ∧ s.errCloses = 0 ∧ s.errSent = [] :=
    ⟨_, ⟨_, [Task.reader, Task.reader, Task.reader, Task.reader, Task.worker 0, Task.worker 0,
      Task.worker 0, Task.reader, Task.reader], rfl, rfl⟩, rfl, rfl, rfl, rfl, rfl, rfl, rfl,
      rfl, rfl, rfl⟩
  obtain ⟨s, hs, hpc, hq, hcap, hw, hcl, hwg, hch, hqc, hec, hes⟩ := hr
  have hfin : ∀ w ∈ s.workers, w.pc = WorkerPc.finished := by
    intro w hmem
    have : w.pc ∈ s.workers.map (fun w => w.pc) := List.mem_map_of_mem _ hmem
    rw [hw] at this
    simpa using this
  refine ⟨s, hs, hpc, hq, hcap, hfin, ?_⟩
  intro body sched t hrun
  have hst : Stuck { s with reader := ReaderPc.sendLine [99, 10] body } :=
    ⟨⟨Or.inl ⟨_, _, rfl⟩, by simp [hq, hcap], hfin⟩, hcl, by simp [hwg], hch⟩
  obtain ⟨_, g1, g2, g3, _, g5, _⟩ := stuck_run envCancelFail sched _ t hst hrun
  exact ⟨g1, by rw [g3]; exact hqc, by rw [g2]; exact hec, by rw [g5]; exact hes⟩

/-- C22: in every state of a session, whatever `GetObject` and the reads of the
body return, `queueFS` has been closed at most once, and it has been closed
exactly when the reader is past the `close` of its deferred function; when
the reader has returned the queue has been closed once, and the records
enqueued and the error sent are those of the reader's trace (none, the error
of `GetObject`, or the error of a read). A step of any other task leaves the
number of closes as it is; a step of the reader changes it only at the
deferred `close`, which enqueues nothing; the reader at that `close` can take
the step. From a state in which the queue is closed on, no run enqueues a
record or closes the queue again. -/
theorem C22_queue_closed_once (env : Env) (a : AWSTools) (s : Session)
    (hr : Reachable env a s) :
    s.queueCloses ≤ 1 ∧
    (s.queueCloses = 1 ↔ (s.reader = ReaderPc.wgDone ∨ s.reader = ReaderPc.finished)) ∧
    (s.reader = ReaderPc.finished →
      s.queueCloses = 1 ∧
      ∃ total, readerTrace env = some total ∧ s.enqueued = total.records ∧
        s.errSent = total.err.toList) ∧
    (∀ task t, step env s task = some t → task ≠ Task.reader →
      t.queueCloses = s.queueCloses) ∧
    (∀ t, step env s Task.reader = some t → t.queueCloses ≠ s.queueCloses →
      s.reader = ReaderPc.closeQueue ∧ s.queueCloses = 0 ∧ t.queueCloses = 1 ∧
        t.enqueued = s.enqueued ∧ t.queue = s.queue) ∧
    (s.reader = ReaderPc.closeQueue →
      ∃ t, step env s Task.reader = some t ∧ t.queueCloses = 1 ∧
        t.reader = ReaderPc.wgDone ∧ t.enqueued = s.enqueued) ∧
    (0 < s.queueCloses → ∀ sched t, run env s sched = some t →
      t.enqueued = s.enqueued ∧ t.queueCloses = 1) := by
  have hT := traceInv_reachable env a s hr
  obtain ⟨total, htr⟩ := readerTrace_total env
  obtain ⟨f1, f2, f3, f4, f5⟩ := traceInv_facts env s total htr hT
  have hiff : s.queueCloses = 1 ↔ (s.reader = ReaderPc.wgDone ∨ s.reader = ReaderPc.finished) := by
    have hc := hT.closes
    constructor
    · intro h1
      have := f5.mp (by omega)
      cases hpc : s.reader <;> rw [hpc] at this <;> simp [ReaderPc.closedQueue] at this <;> simp
    · intro h1
      rcases h1 with h1 | h1 <;> rw [h1] at hc <;> simpa [ReaderPc.closedQueue] using hc
  refine ⟨f4, hiff, ?_, ?_, ?_, ?_, ?_⟩
  · intro hfin
    obtain ⟨e1, e2⟩ := f3 (by rw [hfin]; rfl)
    exact ⟨hiff.mpr (Or.inr hfin), total, htr, e1, e2⟩
  · intro task t hs hne
    exact (step_queueCloses env s t task hs).2.1 hne
  · intro t hs hne
    obtain ⟨_, h2, _, h4, h5, h6⟩ := (step_queueCloses env s t Task.reader hs).2.2 hne
    have h0 : s.queueCloses = 0 := by
      have hc := hT.closes
      rw [h2] at hc
      simpa [ReaderPc.closedQueue] using hc
    exact ⟨h2, h0, by omega, h5, h6⟩
  · intro hpc
    have h0 : s.queueCloses = 0 := by
      have hc := hT.closes
      rw [hpc] at hc
      simpa [ReaderPc.closedQueue] using hc
    refine ⟨{ s with queueCloses := s.queueCloses + 1, reader := ReaderPc.wgDone }, ?_, ?_, rfl,
      rfl⟩
    · simp only [step, stepReader, hpc]
    · simp only [h0]
  · intro hpos sched t hrun
    have hRt := reachable_run env a sched s t hr hrun
    have hTt := traceInv_reachable env a t hRt
    obtain ⟨_, _, g3, g4, g5⟩ := traceInv_facts env t total htr hTt
    have hmono := run_queueCloses env sched s t hrun
    have hl : ∀ u : Session, u.reader.closedQueue = true → u.reader.leftLoop = true := by
      intro u hu
      cases hpc : u.reader <;> rw [hpc] at hu <;> simp [ReaderPc.closedQueue] at hu <;> rfl
    have e1 := (f3 (hl s (f5.mp hpos))).1
    have e2 := (g3 (hl t (g5.mp (by omega)))).1
    exact ⟨by rw [e1, e2], by omega⟩

/-- C22, witness: on a missing object (the exit path of a failed `GetObject`)
the reader returns with the queue closed once and nothing enqueued. -/
theorem C22_queue_closed_once_witness :
    ∃ s, Reachable envNoObject toolsOne s ∧ s.reader = ReaderPc.finished ∧
      s.queueCloses = 1 ∧ s.enqueued = [] := by
  have hr : ∃ s, Reachable envNoObject toolsOne s ∧ s.reader = ReaderPc.finished ∧
      s.enqueued = [] :=
    ⟨_, ⟨_, [Task.reader, Task.reader, Task.reader, Task.reader], rfl, rfl⟩, rfl, rfl⟩
  obtain ⟨s, hs, hfin, he⟩ := hr
  exact ⟨s, hs, hfin, ((C22_queue_closed_once envNoObject toolsOne s hs).2.2.1 hfin).1, he⟩

/-- C23: for resource identifiers `s ≠ r`, `IncLine(r)` and `ResetLines(r)`
leave `GetLines(s)` and the entry of `s` as they are; `GetLines(r)` leaves the
whole registry as it is (it makes no entry for an absent `r`), so the result
of every later `GetLines`, after any further calls, is the same as without
it. -/
theorem C23_other_counts_untouched (a : AWSTools) (r s : String) (h : s ≠ r) :
    (a.IncLine r).GetLines s = a.GetLines s ∧
    (a.ResetLines r).GetLines s = a.GetLines s ∧
    (a.IncLine r).lines s = a.lines s ∧
    (a.ResetLines r).lines s = a.lines s ∧
    (a.call (RegistryCall.getLines r)).lines = a.lines ∧
    (∀ k, (a.call (RegistryCall.getLines r)).GetLines k = a.GetLines k) ∧
    (∀ (cs : List RegistryCall) (k : String),
      (a.calls (RegistryCall.getLines r :: cs)).GetLines k = (a.calls cs).GetLines k) :=
  ⟨GetLines_IncLine_other a r s h, GetLines_ResetLines_other a r s h,
    by simp [AWSTools.IncLine, LineMap.write, h],
    by simp [AWSTools.ResetLines, LineMap.write, h], rfl, fun _ => rfl, fun _ _ => rfl⟩

/-- C23, witness: on a fresh registry `IncLine("f")` and `ResetLines("f")` leave
the count of "g" at 0, and `GetLines("g")` makes no entry for "g". -/
theorem C23_other_counts_untouched_witness :
    ((toolsFresh.IncLine "f").GetLines "g").val = 0 ∧
      ((toolsFresh.ResetLines "f").GetLines "g").val = 0 ∧
      (toolsFresh.call (RegistryCall.getLines "g")).lines "g" = none := by
  have h := C23_other_counts_untouched toolsFresh "f" "g" (by decide)
  have h2 := C23_other_counts_untouched toolsFresh "g" "f" (by decide)
  refine ⟨?_, ?_, ?_⟩
  · rw [h.1]; rfl
  · rw [h.2.1]; rfl
  · rw [h2.2.2.2.2.1]; rfl

/-- C24: take `n = queueWorkers` workers, a queue of capacity `b = BufferLimit()`,
a handler that fails on every record, and a stream that starts with more than
`n + b` complete lines. The session reaches a state in which every worker has
returned on a failure of the handler, the reader waits at the send of a line
on the full queue, no value was sent on `errorChan` and neither channel is
closed; and in every run from that state the reader is still at that send,
nothing more is enqueued, no value is sent on `errorChan`, and `queueFS` and
`errorChan` are never closed. -/
theorem C24_reader_blocked_forever (env : Env) (a : AWSTools) (n b : Nat)
    (lines : List Record) (rest : List Byte) (failure : Option String)
    (hn : a.queueWorkers = n) (hb : a.params.BufferLimit = b)
    (ho : env.object = Except.ok ⟨lines.flatten ++ rest, failure⟩)
    (hl : ∀ l ∈ lines, CompleteLine l) (hmore : n + b < lines.length)
    (hcb : ∀ calls l, env.cb calls l ≠ none) :
    ∃ s, Reachable env a s ∧
      s.workers.length = n ∧
      (∀ w ∈ s.workers, w.pc = WorkerPc.finished ∧
        ∃ err, w.exit = some (WorkerExit.handlerError err)) ∧
      (∃ line body, s.reader = ReaderPc.sendLine line body) ∧
      s.queueCap = b ∧ s.queue.length = b ∧
      s.errSent = [] ∧ s.errCloses = 0 ∧ s.queueCloses = 0 ∧
      ∀ sched t, run env s sched = some t →
        t.reader = s.reader ∧ t.enqueued = s.enqueued ∧ t.errSent = [] ∧
          t.errCloses = 0 ∧ t.queueCloses = 0 := by
  have hN : a.queueWorkers.toNat = n := by rw [hn]; rfl
  have hB : a.params.BufferLimit.toNat = b := by rw [hb]; rfl
  obtain ⟨l1, l2, x, l3, hsplit, hlen1, hlen2⟩ := split_lines lines n b hmore
  have hdata : lines.flatten ++ rest =
      l1.flatten ++ (l2.flatten ++ (x ++ (l3.flatten ++ rest))) := by
    rw [hsplit]
    simp only [List.flatten_append, List.flatten_cons, List.append_assoc]
  have hl1 : ∀ l ∈ l1, CompleteLine l := fun l h => hl l (by rw [hsplit]; simp [h])
  have hl2 : ∀ l ∈ l2, CompleteLine l := fun l h => hl l (by rw [hsplit]; simp [h])
  have hx : CompleteLine x := hl x (by rw [hsplit]; simp)
  -- the session starts and the object opens
  obtain ⟨s1, r1, a1, a2, a3, a4, a5, a6⟩ := start_opens env a _ (by omega) (by omega) ho
  rw [hdata] at a1
  rw [hN] at a3
  -- every worker takes a line and fails on it
  obtain ⟨s2, r2, b1, b2, b3, b4, b5, b6, b7⟩ :=
    phase_workers_fail env a _ failure hcb l1 s1 0 r1 hl1 a1 a2
      (by rw [a3, List.length_replicate]; omega)
      (by
        intro j w hj
        rw [a3] at hj
        have hw : w = Worker.start := (List.mem_replicate.mp (List.getElem?_mem hj)).2
        exact ⟨fun h => absurd h (by omega), fun _ => by rw [hw]; rfl⟩)
  -- the reader fills the queue
  have hcap2 : s2.queueCap = b := by rw [(shapeInv_reachable env a s2 r2).queueCap, hB]
  obtain ⟨s3, r3, c1, c2, c3, c4, c5, c6⟩ :=
    phase_queue_fills env a _ failure l2 s2 r2 hl2 b1 (by rw [b2, hcap2]; simp [hlen2])
  -- the reader reads one more line and waits at its send
  obtain ⟨s4, e4, d1, d2, d3, d4, d5, d6⟩ := reader_reads env s3 x _ failure hx c1
  have r4 := reachable_step env a s3 s4 _ r3 e4
  have hcap4 : s4.queueCap = b := by rw [(shapeInv_reachable env a s4 r4).queueCap, hB]
  have hq4 : s4.queue.length = b := by rw [d2, c2, b2, hlen2]; simp
  have hw4 : ∀ w ∈ s4.workers, w.failed := by rw [d3, c3]; exact b4
  have hC := countInv_reachable env a s4 r4
  have hT := traceInv_reachable env a s4 r4
  have hclo : s4.closer = CloserPc.wait := by rw [d4, c4, b5, a4]
  have hes : s4.errSent = [] := by rw [d6, c6, b7, a6]
  have hec : s4.errCloses = 0 := by
    rw [hC.closes, hclo]
    rfl
  have hqc : s4.queueCloses = 0 := by
    rw [hT.closes, d1]
    rfl
  have hst : Stuck s4 := by
    refine ⟨⟨Or.inl ⟨_, _, d1⟩, by omega, fun w hw => (hw4 w hw).1⟩, hclo, ?_,
      by rw [d5, c5, b6, a5]⟩
    have h2 := hC.wg
    have h3 : s4.reader.live = 1 := by rw [d1]; rfl
    omega
  refine ⟨s4, r4, ?_, hw4, ⟨_, _, d1⟩, hcap4, hq4, hes, hec, hqc, ?_⟩
  · rw [(shapeInv_reachable env a s4 r4).workers, hN]
  · intro sched t hrun
    obtain ⟨_, g1, g2, g3, g4, g5, _⟩ := stuck_run env sched s4 t hst hrun
    exact ⟨g1, g4, by rw [g5, hes], by rw [g2, hec], by rw [g3, hqc]⟩

/-- C24, witness: one worker, a queue of capacity 1, the stream "a\nb\nc\n" of
three lines and a handler that fails on every record. -/
theorem C24_reader_blocked_forever_witness :
    ∃ s, Reachable envFailing toolsOne s ∧
      s.workers.length = 1 ∧
      (∀ w ∈ s.workers, w.pc = WorkerPc.finished ∧
        ∃ err, w.exit = some (WorkerExit.handlerError err)) ∧
      (∃ line body, s.reader = ReaderPc.sendLine line body) ∧
      s.queueCap = 1 ∧ s.queue.length = 1 ∧
      s.errSent = [] ∧ s.errCloses = 0 ∧ s.queueCloses = 0 ∧
      ∀ sched t, run envFailing s sched = some t →
        t.reader = s.reader ∧ t.enqueued = s.enqueued ∧ t.errSent = [] ∧
          t.errCloses = 0 ∧ t.queueCloses = 0 :=
  C24_reader_blocked_forever envFailing toolsOne 1 1 [[97, 10], [98, 10], [99, 10]] [] none
    rfl rfl rfl
    (by
      intro l hl
      simp only [List.mem_cons, List.mem_singleton, List.not_mem_nil, or_false] at hl
      rcases hl with rfl | rfl | rfl
      · exact ⟨[97], rfl, by decide⟩
      · exact ⟨[98], rfl, by decide⟩
      · exact ⟨[99], rfl, by decide⟩)
    (by decide) (fun _ => by simp [envFailing])

/-- C21: take any worker `w` of a session, in any state the session reaches,
with any handler, also one whose answer on a line depends on the calls made
before. The records the handler was called on are a prefix of the records `w`
dequeued, in dequeue order, at most one behind, and all of them when `w` is
at its `select` or has left its loop; `answers` holds what the handler
returned on each of them. The handler returned `nil` on every call before the
last one, so no record is handed to the handler after a failure. The calls of
`IncLine` made, and the one about to be made, are as many as the calls on
which the handler returned `nil`. When the handler returned an error on the
last call, `w` has dequeued nothing further, has called `IncLine` once for
each record before that one and not for it, and has left its loop with that
error. At the call of the handler: on an error `w` goes to its deferred
`wg.Done()` without touching the registry; on `nil` it calls
`IncLine(fileName)` once and is back at the `select`. Once `w` has left its
loop, in every run what it dequeued, what it called the handler on, what the
handler returned and what it counted stay as they are; and at its `wg.Done()`
it returns. -/
theorem C21_worker_stops_at_failure (env : Env) (a : AWSTools) (s : Session) (i : Nat)
    (w : Worker) (hr : Reachable env a s) (hw : s.workers[i]? = some w) :
    (w.invoked <+: w.received ∧ w.received.length ≤ w.invoked.length + 1 ∧
      (w.pc = WorkerPc.select ∨ w.pc.leftLoop = true → w.invoked = w.received)) ∧
    w.answers.length = w.invoked.length ∧
    (∀ r ∈ w.answers.dropLast, r = none) ∧
    w.incs + w.pending = (w.answers.filter (fun r => r.isNone)).length ∧
    (∀ err, w.answers.getLast? = some (some err) →
      w.received = w.invoked ∧ w.incs = w.invoked.dropLast.length ∧
        w.exit = some (WorkerExit.handlerError err) ∧ w.pc.leftLoop = true) ∧
    (∀ line err, w.pc = WorkerPc.callback line → env.cb s.calls line = some err →
      ∃ t v, step env s (Task.worker i) = some t ∧ t.workers[i]? = some v ∧
        v.pc = WorkerPc.wgDone ∧ v.invoked = w.invoked ++ [line] ∧
        v.answers = w.answers ++ [some err] ∧ v.received = w.received ∧
        v.incs = w.incs ∧ v.exit = some (WorkerExit.handlerError err) ∧ t.tools = s.tools ∧
        t.calls = s.calls ++ [line]) ∧
    (∀ line, w.pc = WorkerPc.callback line → env.cb s.calls line = none →
      ∃ t v, run env s [Task.worker i, Task.worker i] = some t ∧ t.workers[i]? = some v ∧
        v.pc = WorkerPc.select ∧ v.invoked = w.invoked ++ [line] ∧
        v.answers = w.answers ++ [none] ∧ v.received = w.received ∧
        v.incs = w.incs + 1 ∧ t.tools = s.tools.IncLine env.fileName ∧
        t.calls = s.calls ++ [line]) ∧
    (w.pc.leftLoop = true → ∀ sched t, run env s sched = some t →
      ∃ v, t.workers[i]? = some v ∧ v.received = w.received ∧ v.invoked = w.invoked ∧
        v.incs = w.incs ∧ v.exit = w.exit ∧ v.answers = w.answers ∧
        v.pc.leftLoop = true) ∧
    (w.pc = WorkerPc.wgDone →
      ∃ t v, step env s (Task.worker i) = some t ∧ t.workers[i]? = some v ∧
        v.pc = WorkerPc.finished ∧ v.invoked = w.invoked ∧ v.received = w.received ∧
        v.incs = w.incs) := by
  have hmem : w ∈ s.workers := List.getElem?_mem hw
  obtain ⟨h1, h0, h2, h3, h4, h5⟩ := workerInv_reachable env a s hr w hmem
  have hC := countInv_reachable env a s hr
  refine ⟨⟨⟨w.inHand, h1.symm⟩, ?_, ?_⟩, h0, h3, h4, ?_, ?_, ?_, ?_, ?_⟩
  · rw [h1, List.length_append]
    unfold Worker.inHand
    split <;> simp
  · intro hpc
    rw [h1]
    rcases hpc with hpc | hpc
    · simp [Worker.inHand, hpc]
    · cases hp : w.pc <;> rw [hp] at hpc <;> simp [WorkerPc.leftLoop] at hpc <;>
        simp [Worker.inHand, hp]
  · intro err hx
    obtain ⟨g1, g2⟩ := h5 err hx
    have hin : w.inHand = [] := by
      cases hp : w.pc <;> rw [hp] at g1 <;> simp [WorkerPc.leftLoop] at g1 <;>
        simp [Worker.inHand, hp]
    have hpend : w.pending = 0 := by
      cases hp : w.pc <;> rw [hp] at g1 <;> simp [WorkerPc.leftLoop] at g1 <;>
        simp [Worker.pending, hp]
    refine ⟨by rw [h1, hin, List.append_nil], ?_, g2, g1⟩
    obtain ⟨ys, hys⟩ := List.getLast?_eq_some_iff.mp hx
    unfold Worker.handled at h4
    rw [hys] at h3 h4 h0
    rw [List.dropLast_concat] at h3
    rw [List.filter_append, List.length_append] at h4
    rw [List.length_append, List.length_singleton] at h0
    have hf : List.filter (fun r : Option String => r.isNone) ys = ys :=
      List.filter_eq_self.mpr (fun y hy => by rw [h3 y hy]; rfl)
    have hg : List.filter (fun r : Option String => r.isNone) [some err] = [] := rfl
    rw [hf, hg] at h4
    simp only [List.length_nil] at h4
    rw [List.length_dropLast]
    omega
  · intro line err hpc hcb
    exact worker_callback_fail env s i w line err hw hpc hcb
  · intro line hpc hcb
    exact worker_callback_ok env s i w line hw hpc hcb
  · intro hl sched t hrun
    exact run_worker_after_loop env sched s t i w hw hl hrun
  · intro hpc
    exact worker_returns env _ s i w hC hw hpc

/-- C21, witness: on three equal lines "x\n", with one worker, a queue of
capacity 1 and a handler that returns `nil` on its first call and an error on
the second, the worker handles the first line and calls `IncLine` for it,
then the handler fails on the second line, equal to the first, and the worker
returns: it called the handler on two records, counted one, and dequeued
nothing more although the third line waits in the queue. -/
theorem C21_worker_stops_at_failure_witness :
    ∃ s w, Reachable envFailsSecond toolsOne s ∧ s.workers[0]? = some w ∧
      w.pc = WorkerPc.finished ∧ w.received = [[120, 10], [120, 10]] ∧
      w.invoked = [[120, 10], [120, 10]] ∧ w.answers = [none, some "boom"] ∧
      w.incs = 1 ∧ w.exit = some (WorkerExit.handlerError "boom") ∧
      s.queue = [[120, 10]] ∧ (s.tools.GetLines "f").val = 1 := by
  have hr : ∃ s w, Reachable envFailsSecond toolsOne s ∧ s.workers[0]? = some w ∧
      w.invoked = [[120, 10], [120, 10]] ∧ w.answers = [none, some "boom"] ∧
      w.pc = WorkerPc.finished ∧ s.queue = [[120, 10]] ∧ (s.tools.GetLines "f").val = 1 :=
    ⟨_, _, ⟨_, [Task.reader, Task.reader, Task.reader, Task.reader, Task.worker 0,
      Task.worker 0, Task.worker 0, Task.reader, Task.reader, Task.worker 0, Task.worker 0,
      Task.worker 0, Task.reader], rfl, rfl⟩, rfl, rfl, rfl, rfl, rfl, by decide⟩
  obtain ⟨s, w, hs, hw, hinv, hans, hpc, hq, hcount⟩ := hr
  obtain ⟨_, _, _, _, h5, _⟩ := C21_worker_stops_at_failure envFailsSecond toolsOne s 0 w hs hw
  obtain ⟨g1, g2, g3, _⟩ := h5 "boom" (by rw [hans]; rfl)
  exact ⟨s, w, hs, hw, hpc, by rw [g1, hinv], hinv, hans, by rw [g2, hinv]; rfl, g3, hq,
    hcount⟩

/-- C3 (as amended): take a session that starts with the counter of `fileName`
at 0, in which the stream opens and its reads succeed, no line of the stream
is empty, the handler succeeds on every call, and no call from outside the
session writes the counter of `fileName` (other calls on the registry may
come at any moment). Once `errorChan` is closed, `GetLines(fileName)` is the
number of non-empty lines handled successfully by all workers together,
wrapped into `int64`, and exactly that number when it is below `2^63`; that
number is the number of records the handler was called on; and `K` workers
that handled `M` lines each give `K * M`, exactly when `K * M < 2^63`,
whatever the schedule and however the records went to the workers. -/
theorem C3_final_count (env : Env) (a : AWSTools) (data : List Byte) (recs : List Record)
    (s0 s : Session) (evs : List Event)
    (hstart : ReadFileStreamFromS3WithContext a = some s0)
    (hrun : runEvents env s0 evs = some s)
    (hout : ∀ e ∈ evs, e.leaves env.fileName = true)
    (hzero : (a.GetLines env.fileName).val = 0)
    (ho : env.object = Except.ok ⟨data, none⟩)
    (hrecs : readerLoop ⟨data, none⟩ = some ⟨recs, none⟩)
    (hne : ∀ r ∈ recs, emptyLine r = false)
    (hcb : ∀ calls line, env.cb calls line = none)
    (hc : 0 < s.errCloses) :
    s.tools.GetLines env.fileName = Int64.ofInt ((s.handledNonEmpty : Nat) : Int) ∧
    (s.handledNonEmpty < 2 ^ 63 →
      (s.tools.GetLines env.fileName).val = ((s.handledNonEmpty : Nat) : Int)) ∧
    s.handledNonEmpty = (s.workers.map (fun w => w.invoked.length)).sum ∧
    (∀ K M, s.workers.length = K → (∀ w ∈ s.workers, w.handledNonEmpty = M) →
      s.handledNonEmpty = K * M ∧
      (K * M < 2 ^ 63 → (s.tools.GetLines env.fileName).val = ((K * M : Nat) : Int))) := by
  have htr : readerTrace env = some ⟨recs, none⟩ := by
    unfold readerTrace
    rw [ho]
    exact hrecs
  obtain ⟨hC, hT, hQ, hW, hF⟩ := events_inv env hcb (a.GetLines env.fileName).val evs s0 s hrun
    hout (countInv_start env a s0 hstart) (traceInv_start env a s0 hstart)
    (queueInv_start a s0 hstart)
    (by
      intro w hw
      unfold ReadFileStreamFromS3WithContext at hstart
      split at hstart
      · cases hstart
      · split at hstart
        · cases hstart
        · simp only [Option.some.injEq] at hstart
          subst hstart
          simp only [List.mem_replicate] at hw
          rw [hw.2]
          exact workerInv_start)
    (by
      intro w hw
      unfold ReadFileStreamFromS3WithContext at hstart
      split at hstart
      · cases hstart
      · split at hstart
        · cases hstart
        · simp only [Option.some.injEq] at hstart
          subst hstart
          simp only [List.mem_replicate] at hw
          rw [hw.2]
          intro r hr
          simp [Worker.start] at hr)
  obtain ⟨hwe, hse⟩ := handledNonEmpty_of_stream env s ⟨recs, none⟩ htr hne hT hQ hW
  have hcount := (countInv_closed env _ s hC hc).1
  rw [hzero, zero_add, ← hse] at hcount
  have hval : s.handledNonEmpty < 2 ^ 63 →
      (s.tools.GetLines env.fileName).val = ((s.handledNonEmpty : Nat) : Int) := by
    intro hlt
    rw [hcount]
    simp only [Int64.ofInt]
    apply wrapInt64_of_inRange
    · have : (0 : Int) ≤ ((s.handledNonEmpty : Nat) : Int) := Int.ofNat_nonneg _
      omega
    · exact_mod_cast hlt
  refine ⟨hcount, hval, ?_, ?_⟩
  · rw [hse]
    unfold Session.handled
    apply congrArg List.sum
    apply List.map_congr_left
    intro w hw
    unfold Worker.handled
    rw [List.filter_eq_self.mpr (fun r hr => by rw [hF w hw r hr]; rfl), (hW w hw).answered]
  · intro K M hK hM
    have hKM : s.handledNonEmpty = K * M := by
      unfold Session.handledNonEmpty
      rw [sum_map_const _ _ M hM, hK]
    refine ⟨hKM, ?_⟩
    intro hlt
    rw [← hKM]
    exact hval (by rw [hKM]; exact hlt)

/-- C3, witness: a session on "a\nb" with one worker that started at the count
0, during which other code calls `IncLine("g")`, `GetLines("f")` and
`ResetLines("g")`, ends with the count 2 for "f": the two non-empty lines
handled. -/
theorem C3_final_count_witness :
    ∃ s0 s, ReadFileStreamFromS3WithContext toolsOne = some s0 ∧
      runEvents envAB s0 [Event.task Task.reader, Event.task Task.reader,
        Event.call (RegistryCall.incLine "g"), Event.task Task.reader,
        Event.task (Task.worker 0), Event.task (Task.worker 0),
        Event.call (RegistryCall.getLines "f"), Event.task (Task.worker 0),
        Event.task Task.reader, Event.task Task.reader, Event.task (Task.worker 0),
        Event.task (Task.worker 0), Event.call (RegistryCall.resetLines "g"),
        Event.task (Task.worker 0), Event.task Task.reader, Event.task Task.reader,
        Event.task (Task.worker 0), Event.task (Task.worker 0), Event.task Task.closer,
        Event.task Task.closer] = some s ∧
      0 < s.errCloses ∧ s.handledNonEmpty = 2 ∧ (s.tools.GetLines "f").val = 2 := by
  have hr : ∃ s0 s, ReadFileStreamFromS3WithContext toolsOne = some s0 ∧
      runEvents envAB s0 [Event.task Task.reader, Event.task Task.reader,
        Event.call (RegistryCall.incLine "g"), Event.task Task.reader,
        Event.task (Task.worker 0), Event.task (Task.worker 0),
        Event.call (RegistryCall.getLines "f"), Event.task (Task.worker 0),
        Event.task Task.reader, Event.task Task.reader, Event.task (Task.worker 0),
        Event.task (Task.worker 0), Event.call (RegistryCall.resetLines "g"),
        Event.task (Task.worker 0), Event.task Task.reader, Event.task Task.reader,
        Event.task (Task.worker 0), Event.task (Task.worker 0), Event.task Task.closer,
        Event.task Task.closer] = some s ∧
      0 < s.errCloses ∧ s.handledNonEmpty = 2 :=
    ⟨_, _, rfl, rfl, by decide, by decide⟩
  obtain ⟨s0, s, h0, hrun, hc, hh⟩ := hr
  have h := (C3_final_count envAB toolsOne [97, 10, 98] [[97, 10], [98]] s0 s _ h0 hrun
    (by decide) rfl rfl (by decide) (by decide) (fun _ _ => rfl) hc).2.1
    (by rw [hh]; norm_num)
  exact ⟨s0, s, h0, hrun, hc, hh,
    by rw [show ("f" : String) = envAB.fileName from rfl, h, hh]; rfl⟩

/-- C3, counterexample: a session on a stream of `2^63` lines "x\n", none of
them empty, with one worker and a handler that always succeeds, that started
at the count 0 and runs without any call from outside, can complete with
`2^63` non-empty lines handled; the count is then `-2^63`, not `2^63`. -/
theorem C3_wraps_at_two_pow_63 :
    ∃ t, Reachable (envLines (2 ^ 63)) toolsOne t ∧ 0 < t.errCloses ∧
      (toolsOne.GetLines (envLines (2 ^ 63)).fileName).val = 0 ∧
      (∀ calls line, (envLines (2 ^ 63)).cb calls line = none) ∧
      (∃ recs, readerLoop ⟨(List.replicate (2 ^ 63) [120, 10]).flatten, none⟩ =
          some ⟨recs, none⟩ ∧ ∀ r ∈ recs, emptyLine r = false) ∧
      t.handledNonEmpty = 2 ^ 63 ∧
      (t.tools.GetLines (envLines (2 ^ 63)).fileName).val = -(2 ^ 63) ∧
      (t.tools.GetLines (envLines (2 ^ 63)).fileName).val ≠
        ((t.handledNonEmpty : Nat) : Int) := by
  obtain ⟨t, hr, hpos, hh, h⟩ := run_lines (2 ^ 63)
  have hv : (t.tools.GetLines (envLines (2 ^ 63)).fileName).val = -(2 ^ 63) := by
    rw [h]
    simp only [Int64.ofInt, wrapInt64]
    norm_num
  refine ⟨t, hr, hpos, rfl, fun _ _ => rfl,
    ⟨_, readerLoop_lines (2 ^ 63), emptyLine_replicate (2 ^ 63)⟩, hh, hv, ?_⟩
  rw [hv, hh]
  norm_num

end AwsTools
